import Mathlib

/-!
# Verification of the `ripl` syntactic front-end and collections

A shallow embedding, in Lean 4, of the core data structures and algorithms of
the `ripl` logic-programming front-end:

* `src/syntax/operators.rs` — the operator table (`Op`, `OpTable`);
* `src/syntax/namespace.rs` — the name interner (`NameSpace`, `Name`);
* `src/syntax/lexer.rs` — the lexer;
* `src/syntax/parser.rs` — the precedence-climbing parser;
* `src/collections/clone_map.rs` — the persistent HAMT map (`CloneMap`).

Rust `u32`/`usize`/`u64` quantities are modelled as `Nat` (with explicit
masking where the code masks), `i64` as `Int`, strings as Lean `String`
(UTF-8 byte order and codepoint order agree, so Rust's byte-wise `str::cmp`
coincides with codepoint-wise comparison).  Within a single `NameSpace`,
`Name` equality (pointer equality in Rust) coincides with string equality
(see the interner model below), so the lexer/parser/operator-table models use
`String` directly for `Name`.
-/

namespace Ripl

/-! ## String comparison

Models Rust's `str::cmp` (lexicographic over bytes, which for UTF-8 agrees
with lexicographic over codepoints). -/

/-- Comparison of two characters by codepoint, as Rust compares `char`s. -/
def charCmp (a b : Char) : Ordering := compare a.toNat b.toNat

/-- Lexicographic comparison of char lists, as Rust's `str::cmp`. -/
def strCmpL : List Char → List Char → Ordering
  | [], [] => .eq
  | [], _ :: _ => .lt
  | _ :: _, [] => .gt
  | a :: as, b :: bs =>
    match charCmp a b with
    | .eq => strCmpL as bs
    | o => o

/-- `str::cmp` on strings. -/
def strCmp (s t : String) : Ordering := strCmpL s.data t.data

theorem charCmp_eq_iff {a b : Char} : charCmp a b = .eq ↔ a = b := by
  unfold charCmp
  rw [Nat.compare_eq_eq]
  exact ⟨fun h => Char.ext (UInt32.toNat.inj h), fun h => by subst h; rfl⟩

theorem charCmp_lt_gt {a b : Char} : charCmp a b = .lt ↔ charCmp b a = .gt := by
  unfold charCmp
  rw [Nat.compare_eq_lt, Nat.compare_eq_gt]

theorem charCmp_lt_trans {a b c : Char} (h1 : charCmp a b = .lt) (h2 : charCmp b c = .lt) :
    charCmp a c = .lt := by
  unfold charCmp at *
  rw [Nat.compare_eq_lt] at *
  omega

theorem strCmpL_eq_iff : ∀ {s t : List Char}, strCmpL s t = .eq ↔ s = t
  | [], [] => by simp [strCmpL]
  | [], _ :: _ => by simp [strCmpL]
  | _ :: _, [] => by simp [strCmpL]
  | a :: as, b :: bs => by
    simp only [strCmpL]
    cases h : charCmp a b with
    | eq =>
      have hab : a = b := charCmp_eq_iff.mp h
      subst hab
      simpa using strCmpL_eq_iff (s := as) (t := bs)
    | lt =>
      constructor
      · intro hc; exact absurd hc (by simp)
      · intro hc
        obtain ⟨h1, h2⟩ := List.cons.injEq .. ▸ hc
        subst h1
        rw [charCmp_eq_iff.mpr rfl] at h
        exact absurd h (by simp)
    | gt =>
      constructor
      · intro hc; exact absurd hc (by simp)
      · intro hc
        obtain ⟨h1, h2⟩ := List.cons.injEq .. ▸ hc
        subst h1
        rw [charCmp_eq_iff.mpr rfl] at h
        exact absurd h (by simp)

theorem strCmpL_lt_gt : ∀ {s t : List Char}, strCmpL s t = .lt ↔ strCmpL t s = .gt
  | [], [] => by simp [strCmpL]
  | [], _ :: _ => by simp [strCmpL]
  | _ :: _, [] => by simp [strCmpL]
  | a :: as, b :: bs => by
    simp only [strCmpL]
    cases h : charCmp a b with
    | eq =>
      have hab : a = b := charCmp_eq_iff.mp h
      subst hab
      rw [charCmp_eq_iff.mpr rfl]
      exact strCmpL_lt_gt (s := as) (t := bs)
    | lt =>
      rw [charCmp_lt_gt.mp h]
      simp
    | gt =>
      have : charCmp b a = .lt := by
        rw [charCmp_lt_gt]; exact h
      rw [this]
      constructor <;> (intro hc; exact absurd hc (by simp))

theorem strCmpL_lt_trans :
    ∀ {s t u : List Char}, strCmpL s t = .lt → strCmpL t u = .lt → strCmpL s u = .lt
  | [], [], _, _, h2 => h2
  | [], _ :: _, [], h1, h2 => by simp [strCmpL] at h2
  | [], _ :: _, _ :: _, _, _ => by simp [strCmpL]
  | _ :: _, [], _, h1, _ => by simp [strCmpL] at h1
  | _ :: _, _ :: _, [], _, h2 => by simp [strCmpL] at h2
  | a :: as, b :: bs, c :: cs, h1, h2 => by
    simp only [strCmpL] at *
    cases hab : charCmp a b with
    | eq =>
      have : a = b := charCmp_eq_iff.mp hab
      subst this
      rw [hab] at h1
      cases hbc : charCmp a c with
      | eq =>
        have : a = c := charCmp_eq_iff.mp hbc
        subst this
        rw [hbc] at h2
        exact strCmpL_lt_trans h1 h2
      | lt => rfl
      | gt => rw [hbc] at h2; exact absurd h2 (by simp)
    | lt =>
      cases hbc : charCmp b c with
      | eq =>
        have : b = c := charCmp_eq_iff.mp hbc
        subst this
        rw [hab]
      | lt => rw [charCmp_lt_trans hab hbc]
      | gt => rw [hbc] at h2; exact absurd h2 (by simp)
    | gt => rw [hab] at h1; exact absurd h1 (by simp)

theorem strCmp_eq_iff {s t : String} : strCmp s t = .eq ↔ s = t := by
  unfold strCmp
  rw [strCmpL_eq_iff]
  exact ⟨fun h => String.ext h, fun h => by rw [h]⟩

theorem strCmp_lt_gt {s t : String} : strCmp s t = .lt ↔ strCmp t s = .gt :=
  strCmpL_lt_gt

theorem strCmp_lt_trans {s t u : String} (h1 : strCmp s t = .lt) (h2 : strCmp t u = .lt) :
    strCmp s u = .lt :=
  strCmpL_lt_trans h1 h2

/-! ## Operator table (`src/syntax/operators.rs`)

`Op` is the seven-variant operator spec; precedence is a `u32` (modelled
`Nat`) and the name a `Name` (modelled `String`; see the interner model). -/

/-- `enum Op<'ns>` from `operators.rs`. -/
inductive Op where
  | XF (prec : Nat) (name : String)
  | YF (prec : Nat) (name : String)
  | XFX (prec : Nat) (name : String)
  | XFY (prec : Nat) (name : String)
  | YFX (prec : Nat) (name : String)
  | FY (prec : Nat) (name : String)
  | FX (prec : Nat) (name : String)
deriving DecidableEq, Repr

/-- `enum OpType` from `operators.rs`: `Prefix`, `Infix`, `Postfix` (in this
declaration order, which is also the derived `Ord` order). The constructors
are abbreviated `pre`/`inf`/`post`. -/
inductive OpType where
  | pre
  | inf
  | post
deriving DecidableEq, Repr

/-- The discriminant order of `OpType`'s derived `Ord` (declaration order). -/
def OpType.rank : OpType → Nat
  | .pre => 0
  | .inf => 1
  | .post => 2

/-- `Op::op_type`. -/
def Op.op_type : Op → OpType
  | .FX _ _ | .FY _ _ => .pre
  | .XFX _ _ | .XFY _ _ | .YFX _ _ => .inf
  | .XF _ _ | .YF _ _ => .post

/-- `Op::name`. -/
def Op.name : Op → String
  | .XF _ name => name
  | .YF _ name => name
  | .XFX _ name => name
  | .XFY _ name => name
  | .YFX _ name => name
  | .FY _ name => name
  | .FX _ name => name

/-- `Op::prec`. -/
def Op.prec : Op → Nat
  | .XF prec _ => prec
  | .YF prec _ => prec
  | .XFX prec _ => prec
  | .XFY prec _ => prec
  | .YFX prec _ => prec
  | .FY prec _ => prec
  | .FX prec _ => prec

/-- `impl Ord for Op`: by name, then by op type, then by precedence.
Note this order identifies e.g. `FX(p, n)` and `FY(p, n)` (`cmp` returns
`Equal` for distinct values), exactly as the source's manual `Ord` impl. -/
def Op.cmp (a b : Op) : Ordering :=
  if a.name ≠ b.name then strCmp a.name b.name
  else if a.op_type ≠ b.op_type then compare a.op_type.rank b.op_type.rank
  else compare a.prec b.prec

/-- `struct OpTable<'ns>(Vec<Op<'ns>>)`. -/
structure OpTable where
  ops : List Op
deriving DecidableEq, Repr

/-- Models `<[Op]>::binary_search(&target)`.

Rust's `binary_search` contract: `Ok(i)` with `cmp(self[i], target) == Equal`
when such an element exists (an unspecified one if several — the `OpTable`
invariant rules out duplicates up to `Op.cmp`-equality, making the result
unique), else `Err(i)` with `i` the insertion point.  On a sorted slice the
insertion point is the first index whose element is not less than the target,
so we implement the contract by that scan. -/
def binarySearch (l : List Op) (target : Op) : Sum Nat Nat :=
  let i := l.findIdx (fun x => !(Op.cmp x target == .lt))
  match l.get? i with
  | some x => if Op.cmp x target = .eq then .inl i else .inr i
  | none => .inr i

/-- `OpTable::insert`. -/
def OpTable.insert (t : OpTable) (op : Op) : OpTable :=
  match binarySearch t.ops op with
  | .inl i => ⟨t.ops.set i op⟩
  | .inr i => ⟨t.ops.insertIdx i op⟩

/-- `OpTable::get`: the contiguous run of operators with the given name.
The source takes the index `i` delivered by `binary_search` for the minimal
key `Op::FX(0, name)` (from either the `Ok` or the `Err` branch), scans
forward while the name matches, and returns the slice `self[i..j]`. -/
def OpTable.get (t : OpTable) (name : String) : List Op :=
  let target := Op.FX 0 name
  let i := match binarySearch t.ops target with
    | .inl i => i
    | .inr i => i
  ((t.ops.drop i).takeWhile (fun op => op.name == name))

/-- `OpTable::get_prefix`: first prefix operator with the name and `prec ≤ max`. -/
def OpTable.getPre (t : OpTable) (name : String) (prec : Nat) : Option Op :=
  (t.get name).find? (fun op => op.op_type == .pre && op.prec ≤ prec)

/-- `OpTable::get_infix`. -/
def OpTable.getInf (t : OpTable) (name : String) (prec : Nat) : Option Op :=
  (t.get name).find? (fun op => op.op_type == .inf && op.prec ≤ prec)

/-- `OpTable::get_postfix`. -/
def OpTable.getPost (t : OpTable) (name : String) (prec : Nat) : Option Op :=
  (t.get name).find? (fun op => op.op_type == .post && op.prec ≤ prec)

/-- The loop body of `OpTable::get_compatible`: walk the run in order; a
`YFX`/`YF` operator is returned when `lhs_prec ≤ prec ≤ maxPrec`, an
`XFX`/`XFY`/`XF` operator when `lhs_prec < prec ≤ maxPrec`; everything else
(prefix operators, or failed guards) is skipped. -/
def getCompatibleGo (lhs_prec maxPrec : Nat) : List Op → Option Op
  | [] => none
  | op :: rest =>
    let y := decide (lhs_prec ≤ op.prec) && decide (op.prec ≤ maxPrec)
    let x := decide (lhs_prec < op.prec) && decide (op.prec ≤ maxPrec)
    match op with
    | .YFX _ _ | .YF _ _ =>
      if y then some op else getCompatibleGo lhs_prec maxPrec rest
    | .XFX _ _ | .XFY _ _ | .XF _ _ =>
      if x then some op else getCompatibleGo lhs_prec maxPrec rest
    | _ => getCompatibleGo lhs_prec maxPrec rest

/-- `OpTable::get_compatible`. -/
def OpTable.get_compatible (t : OpTable) (name : String) (lhs_prec maxPrec : Nat) : Option Op :=
  getCompatibleGo lhs_prec maxPrec (t.get name)

/-- Models `Vec::sort` (a stable sort) via insertion sort: each element is
inserted after all elements it does not strictly precede, which preserves the
relative order of `Op.cmp`-equal elements; stable sorts are unique, so this
computes `Vec::sort`'s result. -/
def insertSorted (op : Op) : List Op → List Op
  | [] => [op]
  | b :: rest => if Op.cmp op b = .lt then op :: b :: rest else b :: insertSorted op rest

/-- `Vec::sort` by `Op.cmp` (see `insertSorted`). -/
def stableSort (l : List Op) : List Op :=
  l.foldl (fun acc x => insertSorted x acc) []

/-- The dedup loop of `impl From<Vec<Op>> for OpTable`: while two adjacent
operators share an op type and a name, remove the first of the two. -/
def dedupAdj : List Op → List Op
  | a :: b :: rest =>
    if a.op_type = b.op_type ∧ a.name = b.name then dedupAdj (b :: rest)
    else a :: dedupAdj (b :: rest)
  | l => l

/-- `impl From<Vec<Op>> for OpTable`: sort, then drop adjacent duplicates. -/
def OpTable.ofList (l : List Op) : OpTable :=
  ⟨dedupAdj (stableSort l)⟩

end Ripl

namespace Ripl

/-! ### Laws of the `Op` ordering -/

theorem OpType.rank_inj {a b : OpType} (h : a.rank = b.rank) : a = b := by
  cases a <;> cases b <;> first | rfl | simp [OpType.rank] at h

theorem Op.cmp_eq_iff {a b : Op} :
    Op.cmp a b = .eq ↔ (a.name = b.name ∧ a.op_type = b.op_type ∧ a.prec = b.prec) := by
  unfold Op.cmp
  by_cases hn : a.name = b.name
  · simp only [hn, ne_eq, not_true_eq_false, if_false, if_neg]
    by_cases ht : a.op_type = b.op_type
    · simp [ht, Nat.compare_eq_eq]
    · have : a.op_type.rank ≠ b.op_type.rank := fun hr => ht (OpType.rank_inj hr)
      simp [ht, Nat.compare_eq_eq, this]
  · have : strCmp a.name b.name ≠ .eq := fun h => hn (strCmp_eq_iff.mp h)
    simp [hn, this]

theorem Op.cmp_lt_iff {a b : Op} :
    Op.cmp a b = .lt ↔
      (strCmp a.name b.name = .lt ∨
        (a.name = b.name ∧
          (a.op_type.rank < b.op_type.rank ∨ (a.op_type = b.op_type ∧ a.prec < b.prec)))) := by
  unfold Op.cmp
  by_cases hn : a.name = b.name
  · have hself : strCmp a.name b.name = .eq := strCmp_eq_iff.mpr hn
    have hnlt : ¬ strCmp a.name b.name = .lt := by simp [hself]
    by_cases ht : a.op_type = b.op_type
    · have hr : ¬ a.op_type.rank < b.op_type.rank := by rw [ht]; exact Nat.lt_irrefl _
      rw [if_neg (not_not_intro hn), if_neg (not_not_intro ht), Nat.compare_eq_lt]
      constructor
      · intro h; exact Or.inr ⟨hn, Or.inr ⟨ht, h⟩⟩
      · rintro (h | ⟨-, h | ⟨-, h⟩⟩)
        · exact absurd h hnlt
        · exact absurd h hr
        · exact h
    · rw [if_neg (not_not_intro hn), if_pos ht, Nat.compare_eq_lt]
      constructor
      · intro h; exact Or.inr ⟨hn, Or.inl h⟩
      · rintro (h | ⟨-, h | ⟨hteq, h⟩⟩)
        · exact absurd h hnlt
        · exact h
        · exact absurd hteq ht
  · rw [if_pos hn]
    constructor
    · intro h; exact Or.inl h
    · rintro (h | ⟨hneq, -⟩)
      · exact h
      · exact absurd hneq hn

theorem strCmpL_swap : ∀ {s t : List Char}, (strCmpL s t).swap = strCmpL t s
  | [], [] => rfl
  | [], _ :: _ => rfl
  | _ :: _, [] => rfl
  | a :: as, b :: bs => by
    simp only [strCmpL]
    cases h : charCmp a b with
    | eq =>
      have hab : a = b := charCmp_eq_iff.mp h
      subst hab
      rw [h]
      exact strCmpL_swap
    | lt =>
      rw [charCmp_lt_gt.mp h]
      rfl
    | gt =>
      rw [charCmp_lt_gt.mpr h]
      rfl

theorem strCmp_swap {s t : String} : (strCmp s t).swap = strCmp t s := strCmpL_swap

theorem Op.cmp_swap (a b : Op) : (Op.cmp a b).swap = Op.cmp b a := by
  unfold Op.cmp
  by_cases hn : a.name = b.name
  · rw [if_neg (not_not_intro hn), if_neg (not_not_intro hn.symm)]
    by_cases ht : a.op_type = b.op_type
    · rw [if_neg (not_not_intro ht), if_neg (not_not_intro ht.symm)]
      rcases Nat.lt_trichotomy a.prec b.prec with h | h | h
      · rw [Nat.compare_eq_lt.mpr h, Nat.compare_eq_gt.mpr h]; rfl
      · rw [h, Nat.compare_eq_eq.mpr rfl]; rfl
      · rw [Nat.compare_eq_gt.mpr h, Nat.compare_eq_lt.mpr h]; rfl
    · rw [if_pos ht, if_pos (fun hh => ht hh.symm)]
      rcases Nat.lt_trichotomy a.op_type.rank b.op_type.rank with h | h | h
      · rw [Nat.compare_eq_lt.mpr h, Nat.compare_eq_gt.mpr h]; rfl
      · exact absurd (OpType.rank_inj h) ht
      · rw [Nat.compare_eq_gt.mpr h, Nat.compare_eq_lt.mpr h]; rfl
  · rw [if_pos hn, if_pos (fun hh => hn hh.symm)]
    exact strCmp_swap

theorem Op.cmp_lt_gt {a b : Op} : Op.cmp a b = .lt ↔ Op.cmp b a = .gt := by
  rw [← Op.cmp_swap a b]
  cases Op.cmp a b <;> simp [Ordering.swap]

theorem Op.cmp_lt_trans {a b c : Op} (h1 : Op.cmp a b = .lt) (h2 : Op.cmp b c = .lt) :
    Op.cmp a c = .lt := by
  rw [Op.cmp_lt_iff] at h1 h2 ⊢
  rcases h1 with h1 | ⟨hn1, h1⟩
  · rcases h2 with h2 | ⟨hn2, _⟩
    · exact Or.inl (strCmp_lt_trans h1 h2)
    · exact Or.inl (hn2 ▸ h1)
  · rcases h2 with h2 | ⟨hn2, h2⟩
    · exact Or.inl (hn1 ▸ h2)
    · refine Or.inr ⟨hn1.trans hn2, ?_⟩
      rcases h1 with h1 | ⟨ht1, h1⟩
      · rcases h2 with h2 | ⟨ht2, _⟩
        · exact Or.inl (Nat.lt_trans h1 h2)
        · exact Or.inl (by rw [← ht2]; exact h1)
      · rcases h2 with h2 | ⟨ht2, h2⟩
        · exact Or.inl (by rw [ht1]; exact h2)
        · exact Or.inr ⟨ht1.trans ht2, Nat.lt_trans h1 h2⟩

theorem Op.cmp_refl (a : Op) : Op.cmp a a = .eq :=
  Op.cmp_eq_iff.mpr ⟨rfl, rfl, rfl⟩

theorem Op.cmp_congr_left {a b : Op} (h : Op.cmp a b = .eq) (c : Op) :
    Op.cmp a c = Op.cmp b c := by
  obtain ⟨h1, h2, h3⟩ := Op.cmp_eq_iff.mp h
  unfold Op.cmp
  rw [h1, h2, h3]

theorem Op.cmp_congr_right {a b : Op} (h : Op.cmp a b = .eq) (c : Op) :
    Op.cmp c a = Op.cmp c b := by
  obtain ⟨h1, h2, h3⟩ := Op.cmp_eq_iff.mp h
  unfold Op.cmp
  rw [h1, h2, h3]

/-- The sortedness invariant of an `OpTable`: strictly ascending in `Op.cmp`.
This is the invariant `OpTable.ofList` establishes and `OpTable.insert`
preserves. -/
def sortedOps (l : List Op) : Prop :=
  List.Pairwise (fun a b => Op.cmp a b = .lt) l

instance (l : List Op) : Decidable (sortedOps l) :=
  inferInstanceAs (Decidable (List.Pairwise (fun a b => Op.cmp a b = .lt) l))

end Ripl

namespace Ripl

/-! ### `OpTable.get` returns exactly the operators with the given name -/

theorem cmp_lt_target_name {x : Op} {name : String}
    (h : Op.cmp x (Op.FX 0 name) = .lt) : strCmp x.name name = .lt := by
  rw [Op.cmp_lt_iff] at h
  rcases h with h | ⟨-, h | ⟨-, h⟩⟩
  · exact h
  · exact absurd h (by cases hx : x.op_type <;> simp [hx, OpType.rank, Op.op_type])
  · exact absurd h (Nat.not_lt_zero _)

theorem strCmp_lt_ne {s t : String} (h : strCmp s t = .lt) : s ≠ t := by
  intro he
  rw [he, strCmp_eq_iff.mpr rfl] at h
  cases h

theorem cmp_not_lt_target {x : Op} {name : String}
    (h : ¬ Op.cmp x (Op.FX 0 name) = .lt) (hn : x.name ≠ name) :
    strCmp name x.name = .lt := by
  cases hc : Op.cmp x (Op.FX 0 name) with
  | lt => exact absurd hc h
  | eq => exact absurd (Op.cmp_eq_iff.mp hc).1 hn
  | gt =>
    have : Op.cmp (Op.FX 0 name) x = .lt := by
      rw [Op.cmp_lt_gt]; exact hc
    rw [Op.cmp_lt_iff] at this
    rcases this with h2 | ⟨h2, -⟩
    · exact h2
    · exact absurd h2.symm hn

theorem cmp_lt_name {a b : Op} (h : Op.cmp a b = .lt) :
    a.name = b.name ∨ strCmp a.name b.name = .lt := by
  rw [Op.cmp_lt_iff] at h
  rcases h with h | ⟨h, -⟩
  · exact Or.inr h
  · exact Or.inl h

theorem takeWhile_eq_filter_of_names {name : String} :
    ∀ l : List Op, sortedOps l → (∀ y ∈ l, y.name = name ∨ strCmp name y.name = .lt) →
      l.takeWhile (fun op => op.name == name) = l.filter (fun op => op.name == name)
  | [], _, _ => rfl
  | y :: rest, hs, hall => by
    obtain ⟨hy, hrest⟩ := List.pairwise_cons.mp hs
    rcases hall y (List.mem_cons_self _ _) with hyn | hyn
    · rw [List.takeWhile_cons, List.filter_cons]
      simp only [hyn, beq_self_eq_true, if_true, if_pos]
      rw [takeWhile_eq_filter_of_names rest hrest]
      intro z hz
      rcases cmp_lt_name (hy z hz) with h | h
      · exact Or.inl (h ▸ hyn)
      · exact Or.inr (hyn ▸ h)
    · have hne : y.name ≠ name := fun he => strCmp_lt_ne hyn he.symm
      rw [List.takeWhile_cons, List.filter_cons]
      have hb : (y.name == name) = false := beq_eq_false_iff_ne.mpr hne
      rw [hb]
      simp only [Bool.false_eq_true, if_false, if_neg, not_false_eq_true]
      symm
      rw [List.filter_eq_nil_iff]
      intro z hz
      rcases cmp_lt_name (hy z hz) with h | h
      · have : strCmp name z.name = .lt := h ▸ hyn
        simp [(strCmp_lt_ne this).symm]
      · have : strCmp name z.name = .lt := strCmp_lt_trans hyn h
        simp [(strCmp_lt_ne this).symm]

theorem dropFind_eq_filter {name : String} :
    ∀ l : List Op, sortedOps l →
      ((l.drop (l.findIdx (fun x => !(Op.cmp x (Op.FX 0 name) == .lt)))).takeWhile
          (fun op => op.name == name))
        = l.filter (fun op => op.name == name)
  | [], _ => rfl
  | x :: rest, hs => by
    obtain ⟨hx, hrest⟩ := List.pairwise_cons.mp hs
    by_cases hc : Op.cmp x (Op.FX 0 name) = .lt
    · have hp : (!(Op.cmp x (Op.FX 0 name) == .lt)) = false := by rw [hc]; rfl
      rw [List.findIdx_cons, hp]
      simp only [cond_false]
      rw [List.drop_succ_cons]
      have hxn : x.name ≠ name := fun he => strCmp_lt_ne (cmp_lt_target_name hc) he
      rw [List.filter_cons]
      have hb : (x.name == name) = false := beq_eq_false_iff_ne.mpr hxn
      rw [hb]
      simp only [Bool.false_eq_true, if_false, if_neg, not_false_eq_true]
      exact dropFind_eq_filter rest hrest
    · have hp : (!(Op.cmp x (Op.FX 0 name) == .lt)) = true := by
        cases hcc : Op.cmp x (Op.FX 0 name) <;> simp_all <;> rfl
      rw [List.findIdx_cons, hp]
      simp only [cond_true, List.drop_zero]
      by_cases hxn : x.name = name
      · rw [List.takeWhile_cons, List.filter_cons]
        simp only [hxn, beq_self_eq_true, if_true, if_pos]
        rw [takeWhile_eq_filter_of_names rest hrest]
        intro z hz
        rcases cmp_lt_name (hx z hz) with h | h
        · exact Or.inl (h ▸ hxn)
        · exact Or.inr (hxn ▸ h)
      · have hlt : strCmp name x.name = .lt := cmp_not_lt_target hc hxn
        rw [List.takeWhile_cons, List.filter_cons]
        have hb : (x.name == name) = false := beq_eq_false_iff_ne.mpr hxn
        rw [hb]
        simp only [Bool.false_eq_true, if_false, if_neg, not_false_eq_true]
        symm
        rw [List.filter_eq_nil_iff]
        intro z hz
        rcases cmp_lt_name (hx z hz) with h | h
        · have : strCmp name z.name = .lt := h ▸ hlt
          simp [(strCmp_lt_ne this).symm]
        · have : strCmp name z.name = .lt := strCmp_lt_trans hlt h
          simp [(strCmp_lt_ne this).symm]

theorem binarySearch_idx (l : List Op) (target : Op) :
    (match binarySearch l target with
      | .inl i => i
      | .inr i => i) = l.findIdx (fun x => !(Op.cmp x target == .lt)) := by
  unfold binarySearch
  rcases h : (l.get? (l.findIdx (fun x => !(Op.cmp x target == .lt)))) with _ | x
  · simp only [h]
  · simp only [h]
    by_cases hc : Op.cmp x target = .eq
    · rw [if_pos hc]
    · rw [if_neg hc]

theorem OpTable.get_eq_dropFind (l : List Op) (name : String) :
    OpTable.get ⟨l⟩ name =
      ((l.drop (l.findIdx (fun x => !(Op.cmp x (Op.FX 0 name) == .lt)))).takeWhile
        (fun op => op.name == name)) := by
  show ((l.drop (match binarySearch l (Op.FX 0 name) with
      | .inl i => i
      | .inr i => i)).takeWhile (fun op => op.name == name)) = _
  rw [binarySearch_idx]

theorem OpTable.get_eq_filter {t : OpTable} (hs : sortedOps t.ops) (name : String) :
    t.get name = t.ops.filter (fun op => op.name == name) := by
  obtain ⟨l⟩ := t
  rw [OpTable.get_eq_dropFind]
  exact dropFind_eq_filter l hs

end Ripl

namespace Ripl

/-! ### C4 — `get_compatible` -/

/-- The admissibility condition of claim C4, stated from the spec's words:
for `YFX`/`YF` roles `lhs_prec ≤ op.prec ≤ maxPrec`, for `XFX`/`XFY`/`XF`
roles `lhs_prec < op.prec ≤ maxPrec`, and prefix operators never. This is the
spec-side definition compared against the source's `get_compatible`. -/
def admissibleSpec (op : Op) (lhs maxP : Nat) : Bool :=
  match op with
  | .YFX _ _ | .YF _ _ => decide (lhs ≤ op.prec) && decide (op.prec ≤ maxP)
  | .XFX _ _ | .XFY _ _ | .XF _ _ => decide (lhs < op.prec) && decide (op.prec ≤ maxP)
  | .FX _ _ | .FY _ _ => false

theorem getCompatibleGo_cons (lhs maxP : Nat) (op : Op) (rest : List Op) :
    getCompatibleGo lhs maxP (op :: rest)
      = if admissibleSpec op lhs maxP then some op else getCompatibleGo lhs maxP rest := by
  cases op <;> rfl

theorem getCompatibleGo_eq_find (lhs maxP : Nat) :
    ∀ l : List Op, getCompatibleGo lhs maxP l = l.find? (fun op => admissibleSpec op lhs maxP)
  | [] => rfl
  | op :: rest => by
    have ih := getCompatibleGo_eq_find lhs maxP rest
    rw [getCompatibleGo_cons, List.find?_cons]
    cases hadm : admissibleSpec op lhs maxP <;> simp [hadm, ih]

theorem admissibleSpec_not_pre {op : Op} {lhs maxP : Nat}
    (h : admissibleSpec op lhs maxP = true) : op.op_type ≠ OpType.pre := by
  cases op <;> simp_all [admissibleSpec, Op.op_type]

/-- **C4.** On a table satisfying the sortedness invariant (which `ofList`
establishes and `insert` preserves), `get_compatible(name, lhs_prec, maxPrec)`
returns exactly the first operator, in the table's sorted order, carrying that
name and admissible for the claim's associativity conditions (`lhs_prec ≤
op.prec ≤ maxPrec` for `YFX`/`YF`; `lhs_prec < op.prec ≤ maxPrec` for
`XFX`/`XFY`/`XF`); it never returns a prefix operator, and — since the
`find?` is over exactly the operators with that name — it returns `none`
when no operator with the name satisfies its role's condition. -/
theorem C4_get_compatible (t : OpTable) (name : String) (lhs maxP : Nat)
    (hs : sortedOps t.ops) :
    t.get_compatible name lhs maxP
        = (t.ops.filter (fun op => op.name == name)).find? (fun op => admissibleSpec op lhs maxP)
      ∧ ∀ op, t.get_compatible name lhs maxP = some op → op.op_type ≠ OpType.pre := by
  have h1 : t.get_compatible name lhs maxP
      = (t.ops.filter (fun op => op.name == name)).find? (fun op => admissibleSpec op lhs maxP) := by
    show getCompatibleGo lhs maxP (t.get name) = _
    rw [OpTable.get_eq_filter hs, getCompatibleGo_eq_find]
  refine ⟨h1, fun op hop => ?_⟩
  rw [h1] at hop
  have hfind := List.find?_some hop
  exact admissibleSpec_not_pre hfind

/-- Witness for C4 at a concrete sorted table and query. -/
theorem C4_get_compatible_witness :
    sortedOps (OpTable.mk [Op.YFX 400 "*", Op.YFX 500 "+"]).ops
    ∧ ((OpTable.mk [Op.YFX 400 "*", Op.YFX 500 "+"]).get_compatible "+" 400 1200
          = ((OpTable.mk [Op.YFX 400 "*", Op.YFX 500 "+"]).ops.filter
              (fun op => op.name == "+")).find? (fun op => admissibleSpec op 400 1200)
        ∧ ∀ op, (OpTable.mk [Op.YFX 400 "*", Op.YFX 500 "+"]).get_compatible "+" 400 1200
            = some op → op.op_type ≠ OpType.pre) :=
  ⟨by decide, C4_get_compatible (OpTable.mk [Op.YFX 400 "*", Op.YFX 500 "+"]) "+" 400 1200
    (by decide)⟩

end Ripl

namespace Ripl

/-! ### C7 — `OpTable.insert` -/

theorem insertIdx_eq_take_cons_drop {α : Type _} (a : α) :
    ∀ (i : Nat) (l : List α), i ≤ l.length → l.insertIdx i a = l.take i ++ a :: l.drop i
  | 0, l, _ => by simp
  | i + 1, [], h => by simp at h
  | i + 1, x :: xs, h => by
    rw [List.insertIdx_succ_cons]
    rw [insertIdx_eq_take_cons_drop a i xs (by simpa using h)]
    rfl

theorem set_eq_take_cons_drop {α : Type _} (a : α) :
    ∀ (i : Nat) (l : List α), i < l.length → l.set i a = l.take i ++ a :: l.drop (i + 1)
  | 0, x :: xs, _ => by simp
  | i + 1, x :: xs, h => by
    show x :: xs.set i a = x :: (xs.take i ++ a :: xs.drop (i + 1))
    rw [set_eq_take_cons_drop a i xs (by simpa using h)]
  | 0, [], h => by simp at h
  | i + 1, [], h => by simp at h

theorem list_decomp {α : Type _} (l : List α) (i : Nat) (h : i < l.length) :
    l = l.take i ++ l[i] :: l.drop (i + 1) := by
  conv_lhs => rw [← List.take_append_drop i l]
  rw [List.drop_eq_getElem_cons h]

theorem ordBeq_self (o : Ordering) : (o == o) = true := by cases o <;> rfl

theorem ordBeq_lt_eq : (Ordering.lt == Ordering.eq) = false := rfl

theorem ordBeq_gt_eq : (Ordering.gt == Ordering.eq) = false := rfl

theorem cmp_lt_of_mem_take_findIdx {l : List Op} {op x : Op}
    (hx : x ∈ l.take (l.findIdx (fun z => !(Op.cmp z op == .lt)))) : Op.cmp x op = .lt := by
  have hp := List.false_of_mem_take_findIdx hx
  simp only [Bool.not_eq_false'] at hp
  rcases hcc : Op.cmp x op with _ | _ | _
  · rfl
  · rw [hcc] at hp; exact absurd hp (by decide)
  · rw [hcc] at hp; exact absurd hp (by decide)

/-- **C7 (counterexample).** The table `[XFX(1, "foo")]` has at most one
operator per `(name, role)` pair, yet inserting `XFX(2, "foo")` — same name,
same role, different precedence — leaves **two** operators with the pair
`("foo", Infix)`: `insert` only replaces on an exact `Ord`-equal key. -/
theorem C7_counterexample :
    ¬ (((OpTable.mk [Op.XFX 1 "foo"]).insert (Op.XFX 2 "foo")).ops.filter
        (fun op => op.name == "foo" && op.op_type == OpType.inf)).length ≤ 1 := by
  decide

/-- **C7 (amended).** What `insert` preserves is uniqueness per `Op.cmp`
class, i.e. per `(name, role-category, precedence)` (role *category*:
prefix/infix/postfix, since the source's `Ord` does not distinguish `XFX`,
`XFY`, `YFX` of equal name and precedence): inserting into a strictly sorted
table keeps it strictly sorted, and afterwards exactly one operator is
`Ord`-equal to the inserted one. Inserting the same `(name, role)` at a
*different* precedence adds a second entry for that `(name, role)` (see the
counterexample). -/
theorem C7_insert_sorted (t : OpTable) (op : Op) (hs : sortedOps t.ops) :
    sortedOps (t.insert op).ops
    ∧ ((t.insert op).ops.filter (fun x => Op.cmp x op == .eq)).length = 1 := by
  obtain ⟨l⟩ := t
  have hsl : List.Pairwise (fun a b => Op.cmp a b = .lt) l := hs
  set p : Op → Bool := fun z => !(Op.cmp z op == .lt) with hp
  set i : Nat := l.findIdx p with hi
  have hile : i ≤ l.length := List.findIdx_le_length p
  have htake : ∀ x ∈ l.take i, Op.cmp x op = .lt := by
    intro x hx
    exact @cmp_lt_of_mem_take_findIdx l op x (by rw [hi, hp] at hx; exact hx)
  rcases hget : l.get? i with _ | x0
  · -- `Err` with insertion at the end: i = length
    have hres : OpTable.insert ⟨l⟩ op = ⟨l.insertIdx i op⟩ := by
      unfold OpTable.insert binarySearch
      simp only [← hp, ← hi, hget]
    rw [hres]
    have hlen : i = l.length := by
      have := List.get?_eq_none.mp hget
      omega
    constructor
    · show List.Pairwise _ (l.insertIdx i op)
      rw [hlen, List.insertIdx_length_self, List.pairwise_append]
      refine ⟨hsl, List.pairwise_singleton _ _, ?_⟩
      intro x hx y hy
      rw [List.mem_singleton] at hy
      subst hy
      exact htake x (by rwa [hlen, List.take_length])
    · show (List.filter _ (l.insertIdx i op)).length = 1
      rw [hlen, List.insertIdx_length_self, List.filter_append]
      have h1 : l.filter (fun x => Op.cmp x op == .eq) = [] := by
        rw [List.filter_eq_nil_iff]
        intro x hx
        have : Op.cmp x op = .lt := htake x (by rwa [hlen, List.take_length])
        simp [this, ordBeq_lt_eq]
      rw [h1]
      simp [Op.cmp_refl, ordBeq_self]
  · -- an element sits at the search position
    obtain ⟨hilt, hx0⟩ := List.get?_eq_some.mp hget
    have hx0e : l[i] = x0 := hx0
    have hpx0 : p x0 = true := by
      rw [← hx0e]
      exact List.findIdx_getElem (w := hilt)
    have hnlt : Op.cmp x0 op ≠ .lt := by
      intro hc
      have hb : (!(Op.cmp x0 op == Ordering.lt)) = true := hpx0
      rw [hc] at hb
      exact absurd hb (by decide)
    have hdecomp : l = l.take i ++ x0 :: l.drop (i + 1) := by
      have := list_decomp l i hilt
      rwa [hx0e] at this
    have hPW2 : List.Pairwise (fun a b => Op.cmp a b = .lt)
        (l.take i ++ x0 :: l.drop (i + 1)) := by
      rw [← hdecomp]; exact hsl
    have hdrop : ∀ y ∈ l.drop (i + 1), Op.cmp x0 y = .lt :=
      (List.pairwise_cons.mp (List.pairwise_append.mp hPW2).2.1).1
    have hcross : ∀ x ∈ l.take i, ∀ y ∈ x0 :: l.drop (i + 1), Op.cmp x y = .lt :=
      (List.pairwise_append.mp hPW2).2.2
    have htakePW : List.Pairwise (fun a b => Op.cmp a b = .lt) (l.take i) :=
      (List.pairwise_append.mp hPW2).1
    have hdropPW : List.Pairwise (fun a b => Op.cmp a b = .lt) (l.drop (i + 1)) :=
      (List.pairwise_cons.mp (List.pairwise_append.mp hPW2).2.1).2
    by_cases hceq : Op.cmp x0 op = .eq
    · -- `Ok` branch: replace in place
      have hres : OpTable.insert ⟨l⟩ op = ⟨l.set i op⟩ := by
        unfold OpTable.insert binarySearch
        simp only [← hp, ← hi, hget, if_pos hceq]
      rw [hres]
      rw [show (⟨l.set i op⟩ : OpTable).ops = l.set i op from rfl,
        set_eq_take_cons_drop op i l hilt]
      constructor
      · show List.Pairwise _ _
        rw [List.pairwise_append]
        refine ⟨htakePW, ?_, ?_⟩
        · rw [List.pairwise_cons]
          refine ⟨fun y hy => ?_, hdropPW⟩
          rw [← Op.cmp_congr_left hceq y]
          exact hdrop y hy
        · intro x hx y hy
          rcases List.mem_cons.mp hy with rfl | hy
          · exact htake x hx
          · exact hcross x hx y (List.mem_cons_of_mem _ hy)
      · rw [List.filter_append]
        have h1 : (l.take i).filter (fun x => Op.cmp x op == .eq) = [] := by
          rw [List.filter_eq_nil_iff]
          intro x hx
          simp [htake x hx, ordBeq_lt_eq]
        have h2 : (l.drop (i + 1)).filter (fun x => Op.cmp x op == .eq) = [] := by
          rw [List.filter_eq_nil_iff]
          intro y hy
          have hlt : Op.cmp op y = .lt := by
            rw [← Op.cmp_congr_left hceq y]
            exact hdrop y hy
          have : Op.cmp y op = .gt := Op.cmp_lt_gt.mp hlt
          simp [this, ordBeq_gt_eq]
        rw [h1]
        simp [List.filter_cons, Op.cmp_refl, ordBeq_self, h2]
    · -- `Err` branch: insert before the strictly greater element
      have hres : OpTable.insert ⟨l⟩ op = ⟨l.insertIdx i op⟩ := by
        unfold OpTable.insert binarySearch
        simp only [← hp, ← hi, hget, if_neg hceq]
      rw [hres]
      have hgt : Op.cmp x0 op = .gt := by
        cases hc : Op.cmp x0 op with
        | lt => exact absurd hc hnlt
        | eq => exact absurd hc hceq
        | gt => rfl
      have hltop : Op.cmp op x0 = .lt := Op.cmp_lt_gt.mpr hgt
      have hdropfull : l.drop i = x0 :: l.drop (i + 1) := by
        rw [← hx0e]
        exact List.drop_eq_getElem_cons hilt
      rw [show (⟨l.insertIdx i op⟩ : OpTable).ops = l.insertIdx i op from rfl,
        insertIdx_eq_take_cons_drop op i l hile, hdropfull]
      constructor
      · show List.Pairwise _ _
        rw [List.pairwise_append]
        refine ⟨htakePW, ?_, ?_⟩
        · rw [List.pairwise_cons]
          refine ⟨fun y hy => ?_, ?_⟩
          · rcases List.mem_cons.mp hy with rfl | hy
            · exact hltop
            · exact Op.cmp_lt_trans hltop (hdrop y hy)
          · rw [List.pairwise_cons]
            exact ⟨hdrop, hdropPW⟩
        · intro x hx y hy
          rcases List.mem_cons.mp hy with rfl | hy
          · exact htake x hx
          · exact hcross x hx y hy
      · rw [List.filter_append]
        have h1 : (l.take i).filter (fun x => Op.cmp x op == .eq) = [] := by
          rw [List.filter_eq_nil_iff]
          intro x hx
          simp [htake x hx, ordBeq_lt_eq]
        have h2 : (x0 :: l.drop (i + 1)).filter (fun x => Op.cmp x op == .eq) = [] := by
          rw [List.filter_eq_nil_iff]
          intro y hy
          rcases List.mem_cons.mp hy with rfl | hy
          · simp [hgt, ordBeq_gt_eq]
          · have : Op.cmp y op = .gt :=
              Op.cmp_lt_gt.mp (Op.cmp_lt_trans hltop (hdrop y hy))
            simp [this, ordBeq_gt_eq]
        rw [h1]
        simp [List.filter_cons, Op.cmp_refl, ordBeq_self, h2]

/-- Witness for the amended C7 at a concrete sorted table. -/
theorem C7_insert_sorted_witness :
    sortedOps (OpTable.mk [Op.XFX 1 "foo"]).ops
    ∧ (sortedOps ((OpTable.mk [Op.XFX 1 "foo"]).insert (Op.XFX 2 "foo")).ops
        ∧ (((OpTable.mk [Op.XFX 1 "foo"]).insert (Op.XFX 2 "foo")).ops.filter
            (fun x => Op.cmp x (Op.XFX 2 "foo") == .eq)).length = 1) :=
  ⟨by decide, C7_insert_sorted (OpTable.mk [Op.XFX 1 "foo"]) (Op.XFX 2 "foo") (by decide)⟩

end Ripl

namespace Ripl

/-! ## Name interner (`src/syntax/namespace.rs`) — C8

`NameSpace` owns a `HashSet<Box<str>>`; `name(tok)` returns a `Name` whose
pointer is the address of the stored box — the existing one when an equal
string is present, a freshly inserted one otherwise. `Name` equality is
pointer equality. We model the set of owned boxes as the list of interned
strings in insertion order and a box's address as its index in that list, so
`Name` is a `Nat` and pointer equality is index equality. -/

/-- The interner state: the strings it owns, in insertion order. -/
structure NameSpace where
  strings : List String
deriving DecidableEq, Repr

/-- A fresh interner (`NameSpace::new`). -/
def NameSpace.new : NameSpace := ⟨[]⟩

/-- The index of the first occurrence of `s`, if present (models the
`HashSet::get` address lookup). -/
def findString : List String → String → Option Nat
  | [], _ => none
  | x :: rest, s =>
    if x = s then some 0
    else (findString rest s).map (· + 1)

/-- `NameSpace::name`: return the existing box's address when the string is
present, else take ownership of a copy and return the new box's address. -/
def NameSpace.name (st : NameSpace) (tok : String) : Nat × NameSpace :=
  match findString st.strings tok with
  | some i => (i, st)
  | none => (st.strings.length, ⟨st.strings ++ [tok]⟩)

/-- `NameSpace::len`: the number of unique names issued. -/
def NameSpace.len (st : NameSpace) : Nat := st.strings.length

/-- Intern every string of a list, in order. -/
def internAll (st : NameSpace) (S : List String) : NameSpace :=
  S.foldl (fun st s => (st.name s).2) st

theorem findString_some_get :
    ∀ {l : List String} {s : String} {i : Nat}, findString l s = some i → l.get? i = some s
  | [], s, i, h => by simp [findString] at h
  | x :: rest, s, i, h => by
    rw [findString] at h
    by_cases hx : x = s
    · rw [if_pos hx] at h
      obtain rfl : (0 : Nat) = i := by simpa using h
      simpa using hx
    · rw [if_neg hx] at h
      rcases hrec : findString rest s with _ | j
      · rw [hrec] at h; simp at h
      · rw [hrec] at h
        simp only [Option.map_some'] at h
        obtain rfl : j + 1 = i := by simpa using h
        simpa using findString_some_get hrec

theorem findString_none_not_mem :
    ∀ {l : List String} {s : String}, findString l s = none → s ∉ l
  | [], s, _ => by simp
  | x :: rest, s, h => by
    rw [findString] at h
    by_cases hx : x = s
    · rw [if_pos hx] at h; simp at h
    · rw [if_neg hx] at h
      rcases hrec : findString rest s with _ | j
      · intro hmem
        rcases List.mem_cons.mp hmem with rfl | hmem
        · exact hx rfl
        · exact findString_none_not_mem hrec hmem
      · rw [hrec] at h; simp at h

theorem findString_mem :
    ∀ {l : List String} {s : String}, s ∈ l → ∃ i, findString l s = some i
  | l, s, hmem => by
    rcases h : findString l s with _ | i
    · exact absurd hmem (findString_none_not_mem h)
    · exact ⟨i, rfl⟩

theorem findString_append_self (l : List String) (s : String) (h : findString l s = none) :
    findString (l ++ [s]) s = some l.length := by
  induction l with
  | nil => simp [findString]
  | cons x rest ih =>
    rw [List.cons_append]
    rw [findString] at h ⊢
    by_cases hx : x = s
    · rw [if_pos hx] at h; simp at h
    · rw [if_neg hx] at h
      rw [if_neg hx]
      rcases hrec : findString rest s with _ | j
      · rw [ih hrec]
        simp
      · rw [hrec] at h; simp at h

/-- After `name` returns address `n` for `s`, the state's string at `n` is `s`. -/
theorem name_get {st : NameSpace} {s : String} :
    ((st.name s).2).strings.get? (st.name s).1 = some s := by
  unfold NameSpace.name
  rcases h : findString st.strings s with _ | i
  · exact findString_some_get (findString_append_self st.strings s h)
  · exact findString_some_get h

/-- `name` only ever appends to the owned strings. -/
theorem name_extends {st : NameSpace} {s : String} :
    ∃ tail, ((st.name s).2).strings = st.strings ++ tail := by
  unfold NameSpace.name
  rcases h : findString st.strings s with _ | i
  · exact ⟨[s], rfl⟩
  · exact ⟨[], by simp⟩

/-- Interning the same string twice returns the same address. -/
theorem name_name {st : NameSpace} {s : String} :
    (((st.name s).2).name s).1 = (st.name s).1 := by
  unfold NameSpace.name
  rcases h : findString st.strings s with _ | i
  · show (match findString (st.strings ++ [s]) s with
      | some i => (i, (⟨st.strings ++ [s]⟩ : NameSpace))
      | none => ((st.strings ++ [s]).length, ⟨(st.strings ++ [s]) ++ [s]⟩)).1
        = st.strings.length
    rw [findString_append_self st.strings s h]
  · show (match findString st.strings s with
      | some i => (i, st)
      | none => (st.strings.length, ⟨st.strings ++ [s]⟩)).1 = i
    rw [h]

/-- **C8.** Within a single `NameSpace`, interning is injective byte-for-byte:
`name(s) == name(t)` (pointer equality of the returned handles, with `t`
interned after `s`) holds iff `s == t` exactly, with no case folding; and
interning every string of a list `S` into a fresh interner leaves `len()`
equal to the number of distinct strings of `S`. -/
theorem C8_interner :
    (∀ (st : NameSpace) (s t : String),
        ((st.name s).1 = (((st.name s).2).name t).1 ↔ s = t))
    ∧ (∀ S : List String, (internAll NameSpace.new S).len = S.dedup.length) := by
  constructor
  · intro st s t
    constructor
    · intro heq
      set st1 := (st.name s).2 with hst1
      have h1 : st1.strings.get? (st.name s).1 = some s := name_get
      have h2 : ((st1.name t).2).strings.get? (st1.name t).1 = some t := name_get
      obtain ⟨tail, hext⟩ := @name_extends st1 t
      have hlt : (st.name s).1 < st1.strings.length := (List.get?_eq_some.mp h1).1
      have h1ext : ((st1.name t).2).strings.get? (st.name s).1 = some s := by
        rw [hext]
        rw [List.get?_append hlt]
        exact h1
      rw [← heq] at h2
      rw [h1ext] at h2
      exact (Option.some.injEq .. ▸ h2)
    · intro heq
      subst heq
      exact name_name.symm
  · intro S
    suffices h : ∀ (S : List String) (st : NameSpace),
        st.strings.Nodup → (internAll st S).strings.Nodup ∧
          ∀ x, x ∈ (internAll st S).strings ↔ x ∈ st.strings ∨ x ∈ S by
      have hS := h S NameSpace.new (by simp [NameSpace.new])
      have hperm : (internAll NameSpace.new S).strings.Perm S.dedup := by
        rw [List.perm_ext_iff_of_nodup hS.1 S.nodup_dedup]
        intro a
        rw [hS.2 a, List.mem_dedup]
        simp [NameSpace.new]
      exact hperm.length_eq
    intro S
    induction S with
    | nil => exact fun st hnd => ⟨hnd, fun x => by simp [internAll]⟩
    | cons s rest ih =>
      intro st hnd
      have hstep : ((st.name s).2).strings.Nodup ∧
          ∀ x, x ∈ ((st.name s).2).strings ↔ x ∈ st.strings ∨ x = s := by
        unfold NameSpace.name
        rcases h : findString st.strings s with _ | i
        · constructor
          · simp only
            rw [List.nodup_append]
            exact ⟨hnd, List.nodup_singleton s,
              fun a ha hb => (findString_none_not_mem h) ((List.mem_singleton.mp hb) ▸ ha)⟩
          · intro x
            simp
        · constructor
          · simpa using hnd
          · intro x
            have : s ∈ st.strings := List.get?_mem (findString_some_get h)
            constructor
            · intro hx; exact Or.inl hx
            · rintro (hx | rfl)
              · exact hx
              · exact this
      have hrec := ih ((st.name s).2) hstep.1
      refine ⟨hrec.1, fun x => ?_⟩
      show x ∈ (internAll ((st.name s).2) rest).strings ↔ _
      rw [hrec.2 x, hstep.2 x]
      simp [or_assoc]

end Ripl

namespace Ripl

/-! ## Lexer (`src/syntax/lexer.rs`) — C9, and the token stream for C1

Text is modelled as lists of `Char` (Unicode scalar values, exactly Rust
`char`s). The source counts token lengths in UTF-8 bytes and slices the line
buffer by byte index; the model counts in chars, which coincides for the
ASCII inputs of every claim. NFKC normalization is the identity on ASCII and
is modelled as the identity. The `Name`s produced via `ns.name(..)` are
modelled by their strings (justified by C8: within one `NameSpace`, handles
are in bijection with strings). -/

/-- `SyntaxError` from `syntax/error.rs`: a position plus a `Kind`. The
`Wrapper` kind (wrapped I/O errors) has no counterpart here because the model
has no I/O. -/
inductive SynErr where
  | priorityClash (line col : Nat)
  | unbalanced (line col : Nat) (ch : Char)
  | unexpected (line col : Nat) (descr : String)
  | todo (line col : Nat)
deriving DecidableEq, Repr

/-- `Token` from `lexer.rs`. A `Float` token keeps its source text: `f64`
values are out of scope of the model, and no claim depends on them. -/
inductive Token where
  | err (e : SynErr)
  | funct (line col : Nat) (name : String)
  | str (line col : Nat) (val : String)
  | var (line col : Nat) (name : String)
  | int (line col : Nat) (val : Int)
  | float (line col : Nat) (text : String)
  | parenOpen (line col : Nat)
  | parenClose (line col : Nat)
  | bracketOpen (line col : Nat)
  | bracketClose (line col : Nat)
  | braceOpen (line col : Nat)
  | braceClose (line col : Nat)
  | bar (line col : Nat) (name : String)
  | comma (line col : Nat) (name : String)
  | dot (line col : Nat)
  | space (line col : Nat)
  | comment (line col : Nat)
deriving DecidableEq, Repr

/-- Rust `char::is_digit(radix)`: `0-9`, `a-z`, `A-Z` with value below the
radix. -/
def isDigitRadix (radix : Nat) (c : Char) : Bool :=
  let n := c.toNat
  (48 ≤ n && n < 58 && (n - 48) < radix)
  || (97 ≤ n && n < 123 && (n - 97 + 10) < radix)
  || (65 ≤ n && n < 91 && (n - 65 + 10) < radix)

/-- Rust `char::is_whitespace`: exactly the Unicode `White_Space` set. -/
def charIsWhitespace (c : Char) : Bool :=
  let n := c.toNat
  (0x09 ≤ n && n ≤ 0x0D) || n = 0x20 || n = 0x85 || n = 0xA0 || n = 0x1680
  || (0x2000 ≤ n && n ≤ 0x200A) || n = 0x2028 || n = 0x2029 || n = 0x202F
  || n = 0x205F || n = 0x3000

/-- Rust `char::is_control`: exactly the Unicode `Cc` category. -/
def charIsControl (c : Char) : Bool :=
  let n := c.toNat
  n < 0x20 || (0x7F ≤ n && n ≤ 0x9F)

/-- Rust `char::is_uppercase` (Unicode `Lu`), modelled exactly on ASCII
(no claim involves non-ASCII letters). -/
def charIsUppercase (c : Char) : Bool :=
  let n := c.toNat
  65 ≤ n && n ≤ 90

/-- The regex class `[\w\d]` (word characters), modelled exactly on ASCII:
letters, digits, and the underscore. -/
def charIsWord (c : Char) : Bool :=
  let n := c.toNat
  (48 ≤ n && n ≤ 57) || (65 ≤ n && n ≤ 90) || (97 ≤ n && n ≤ 122) || n = 95

/-- The regex class `[\p{S}\p{Pc}\p{Pd}\p{Po}]` (symbols, connector/dash/other
punctuation), modelled exactly on ASCII: the printable ASCII characters in
those categories are `! " # $ % & ' * + , - . / : ; < = > ? @ \ ^ _ | ~` and
the grave accent. -/
def charIsSymbolic (c : Char) : Bool :=
  let n := c.toNat
  n = 33 || n = 34 || n = 35 || n = 36 || n = 37 || n = 38 || n = 39
  || n = 42 || n = 43 || n = 44 || n = 45 || n = 46 || n = 47
  || n = 58 || n = 59 || n = 60 || n = 61 || n = 62 || n = 63 || n = 64
  || n = 92 || n = 94 || n = 95 || n = 96 || n = 124 || n = 126

/-- The lexer state. `buf` is `buf_norm` (the current normalized line);
`lines` are the lines `read_line` has not yet delivered (each line carries
its trailing newline, as `read_line` produces it). -/
structure Lexer where
  lines : List (List Char)
  line : Nat
  col : Nat
  skipSpace : Bool
  buf : List Char
deriving DecidableEq, Repr

/-- `Lexer::new`: line 0 (incremented on the first refill), column 1,
space/comment tokens skipped. -/
def Lexer.new (lines : List (List Char)) : Lexer :=
  ⟨lines, 0, 1, true, []⟩

/-- `Lexer::report_space`. Note the source assigns `skip_space = yes`, so
despite its name and doc comment, passing `true` *skips* space tokens and
passing `false` reports them. -/
def Lexer.report_space (lx : Lexer) (yes : Bool) : Lexer :=
  { lx with skipSpace := yes }

/-- `Lexer::lex_functor`: the regex `^([\w\d]+|[\p{S}\p{Pc}\p{Pd}\p{Po}]+)`,
then the match is cut at the first `,`, `.` or `|`. -/
def lexFunctor (line col : Nat) (s : List Char) : Token × Nat :=
  let m :=
    match s with
    | [] => []
    | c :: _ => if charIsWord c then s.takeWhile charIsWord else s.takeWhile charIsSymbolic
  let cut := m.takeWhile (fun c => !(c == ',' || c == '.' || c == '|'))
  (Token.funct line col (String.mk cut), cut.length)

/-- `Lexer::lex_var`: the regex `^[\p{Lu}_][\w\d]*`. -/
def lexVar (line col : Nat) (s : List Char) : Token × Nat :=
  match s with
  | [] => (Token.err (SynErr.todo line col), 1) -- unreachable: the source unwraps
  | c :: rest =>
    let m := c :: rest.takeWhile charIsWord
    (Token.var line col (String.mk m), m.length)

/-- `Lexer::lex_space`: the regex `^[\s\p{C}]+`. -/
def lexSpace (line col : Nat) (s : List Char) : Token × Nat :=
  let m := s.takeWhile (fun c => charIsWhitespace c || charIsControl c)
  (Token.space line col, m.length)

/-- `Lexer::lex_comment`: the regex `^%.*` — from the `%` to the end of the
line (`.` matches everything except `'\n'`). **The source constructs
`Token::Space` here, not `Token::Comment`** (`Token::Comment` is never
constructed anywhere in the lexer). -/
def lexComment (line col : Nat) (s : List Char) : Token × Nat :=
  let m := s.takeWhile (fun c => !(c == '\n'))
  (Token.space line col, m.length)

/-- `Lexer::lex_simple`: single-character punctuation tokens. -/
def lexSimple (line col : Nat) (s : List Char) : Token × Nat :=
  match s with
  | '(' :: _ => (Token.parenOpen line col, 1)
  | ')' :: _ => (Token.parenClose line col, 1)
  | '[' :: _ => (Token.bracketOpen line col, 1)
  | ']' :: _ => (Token.bracketClose line col, 1)
  | '{' :: _ => (Token.braceOpen line col, 1)
  | '}' :: _ => (Token.braceClose line col, 1)
  | ',' :: _ => (Token.comma line col ",", 1)
  | '|' :: _ => (Token.bar line col "|", 1)
  | '.' :: _ => (Token.dot line col, 1)
  | _ => (Token.err (SynErr.todo line col), 1) -- unreachable per the source

/-- `char::is_digit(10)`. -/
def charIsDigit (c : Char) : Bool := isDigitRadix 10 c

/-- The numeric value of a digit character (for any radix up to 36). -/
def digitVal (c : Char) : Nat :=
  let n := c.toNat
  if 48 ≤ n && n < 58 then n - 48
  else if 97 ≤ n && n < 123 then n - 97 + 10
  else if 65 ≤ n && n < 91 then n - 65 + 10
  else 0

/-- The value of a digit string in the given radix, skipping `_` separators.
This models the successful path of Rust's integer parsing; the source
`unwrap`s the parse, which would panic on overflow (and, for decimal
literals with `_` separators, on the separator itself) — no claim reaches
those panics. -/
def digitsVal (radix : Nat) (l : List Char) : Nat :=
  l.foldl (fun acc c => if c = '_' then acc else acc * radix + digitVal c) 0

/-- The loop of `Lexer::lex_quote`: scan for the closing quote, replacing
escapes; returns the token text and whether the quote was closed. -/
def lexQuoteLoop (quote : Char) : List Char → Bool → List Char → (List Char × Bool)
  | [], _, buf => (buf, false)
  | ch :: rest, escape, buf =>
    if escape then
      let c2 : Char :=
        if ch = 'n' then '\n'
        else if ch = 'r' then '\r'
        else if ch = 't' then '\t'
        else ch
      lexQuoteLoop quote rest false (buf ++ [c2])
    else
      if ch = '\\' then lexQuoteLoop quote rest true buf
      else if ch = quote then (buf, true)
      else lexQuoteLoop quote rest false (buf ++ [ch])

/-- `Lexer::lex_quote`. The reported length is `buf.len() + 2` exactly as in
the source (the *escaped* text's length, not the consumed length). -/
def lexQuote (line col : Nat) (s : List Char) : Token × Nat :=
  match s with
  | [] => (Token.err (SynErr.todo line col), 1) -- unreachable: the source unwraps
  | quote :: rest =>
    let r := lexQuoteLoop quote rest false []
    let len := r.1.length + 2
    if r.2 then
      if quote = '"' then (Token.str line col (String.mk r.1), len)
      else (Token.funct line col (String.mk r.1), len)
    else (Token.err (SynErr.unbalanced line col quote), len)

/-- `Lexer::lex_decimal`: the regex `^\d[\d_]*(\.[\d_]+)?(e-?[\d_]+)?`; the
matched text yields a `Float` when it contains `.` or `e`, else an `Int`. -/
def lexDecimal (line col : Nat) (s : List Char) : Token × Nat :=
  match s with
  | [] => (Token.err (SynErr.todo line col), 1) -- unreachable: the source unwraps
  | d :: rest =>
    let mant := d :: rest.takeWhile (fun c => charIsDigit c || c == '_')
    let afterM := s.drop mant.length
    let frac : List Char :=
      match afterM with
      | '.' :: r2 =>
        let fr := r2.takeWhile (fun c => charIsDigit c || c == '_')
        if fr.length = 0 then [] else '.' :: fr
      | _ => []
    let afterF := afterM.drop frac.length
    let expo : List Char :=
      match afterF with
      | 'e' :: r3 =>
        match r3 with
        | '-' :: r4 =>
          let ds := r4.takeWhile (fun c => charIsDigit c || c == '_')
          if ds.length = 0 then [] else 'e' :: '-' :: ds
        | _ =>
          let ds := r3.takeWhile (fun c => charIsDigit c || c == '_')
          if ds.length = 0 then [] else 'e' :: ds
      | _ => []
    let m := mant ++ frac ++ expo
    if m.any (fun c => c == 'e' || c == '.') then
      (Token.float line col (String.mk m), m.length)
    else
      (Token.int line col (Int.ofNat (digitsVal 10 m)), m.length)

/-- The radix path of `Lexer::lex_zero`: buffer every digit of the radix
after the two-character prefix. -/
def lexZeroRadix (line col radix : Nat) (s : List Char) : Token × Nat :=
  let digits := (s.drop 2).takeWhile (isDigitRadix radix)
  (Token.int line col (Int.ofNat (digitsVal radix digits)), 2 + digits.length)

/-- `Lexer::lex_zero`: the second character selects the radix (`x`/`o`/`b`),
continues as decimal on `.` or a digit, else the token is the integer 0. -/
def lexZero (line col : Nat) (s : List Char) : Token × Nat :=
  match s.get? 1 with
  | some 'x' => lexZeroRadix line col 16 s
  | some 'o' => lexZeroRadix line col 8 s
  | some 'b' => lexZeroRadix line col 2 s
  | some '.' => lexDecimal line col s
  | some c =>
    if charIsDigit c then lexDecimal line col s
    else (Token.int line col 0, 1)
  | none => (Token.int line col 0, 1)

/-- `Lexer::lex_minus`: a `-` immediately followed by a digit absorbs the
sign into the numeric token; otherwise it starts a symbolic functor. -/
def lexMinus (line col : Nat) (s : List Char) : Token × Nat :=
  match s.get? 1 with
  | some '0' =>
    let r := lexZero line col (s.drop 1)
    match r.1 with
    | Token.int _ _ v => (Token.int line col (-v), 1 + r.2)
    | Token.float _ _ t => (Token.float line col ("-" ++ t), 1 + r.2)
    | _ => (Token.err (SynErr.todo line col), 1) -- unreachable per the source
  | some ch =>
    if charIsDigit ch then
      let r := lexDecimal line col (s.drop 1)
      match r.1 with
      | Token.int _ _ v => (Token.int line col (-v), 1 + r.2)
      | Token.float _ _ t => (Token.float line col ("-" ++ t), 1 + r.2)
      | _ => (Token.err (SynErr.todo line col), 1) -- unreachable per the source
    else lexFunctor line col s
  | none => lexFunctor line col s

/-- `Lexer::lex`: the main dispatch on the first character of the rest of
the line. -/
def lex (line col : Nat) (s : List Char) : Token × Nat :=
  match s with
  | [] => (Token.err (SynErr.todo line col), 1) -- unreachable: the source unwraps
  | c :: _ =>
    match c with
    | '(' => lexSimple line col s
    | ')' => lexSimple line col s
    | '[' => lexSimple line col s
    | ']' => lexSimple line col s
    | '{' => lexSimple line col s
    | '}' => lexSimple line col s
    | ',' => lexSimple line col s
    | '|' => lexSimple line col s
    | '.' => lexSimple line col s
    | '%' => lexComment line col s
    | '_' => lexVar line col s
    | '\'' => lexQuote line col s
    | '"' => lexQuote line col s
    | '-' => lexMinus line col s
    | '0' => lexZero line col s
    | c =>
      if charIsDigit c then lexDecimal line col s
      else if charIsWhitespace c then lexSpace line col s
      else if charIsControl c then lexSpace line col s
      else if charIsUppercase c then lexVar line col s
      else lexFunctor line col s

/-- `<Lexer as Iterator>::next`: refill the line buffer when exhausted
(`buf_norm.len() <= col`), lex at the current column, advance the column by
the token's length, and skip space/comment tokens when `skip_space` is set
(the skip re-enters `next`, hence the fuel; any fuel larger than the number
of remaining tokens is enough). `none` is the end of the stream. -/
def lexerNext : Nat → Lexer → Option (Token × Lexer)
  | 0, _ => none
  | fuel + 1, lx0 =>
    let go : Lexer → Option (Token × Lexer) := fun lx =>
      let r := lex lx.line lx.col (lx.buf.drop (lx.col - 1))
      let lx2 := { lx with col := lx.col + r.2 }
      match r.1 with
      | Token.space _ _ => if lx.skipSpace then lexerNext fuel lx2 else some (r.1, lx2)
      | Token.comment _ _ => if lx.skipSpace then lexerNext fuel lx2 else some (r.1, lx2)
      | tok => some (tok, lx2)
    if lx0.buf.length ≤ lx0.col then
      match lx0.lines with
      | [] => none
      | l :: rest => go { lx0 with lines := rest, line := lx0.line + 1, col := 1, buf := l }
    else go lx0

/-- Collect the whole token stream (with enough fuel). -/
def lexAll : Nat → Lexer → List Token
  | 0, _ => []
  | fuel + 1, lx =>
    match lexerNext (fuel + 1) lx with
    | none => []
    | some (tok, lx2) => tok :: lexAll fuel lx2

end Ripl

namespace Ripl

/-! ### C9 — comments lex as `Space`, not `Comment` -/

theorem takeWhile_ne_newline {post : List Char} :
    ∀ pre : List Char, '\n' ∉ pre →
      (pre ++ '\n' :: post).takeWhile (fun c => !(c == '\n')) = pre
  | [], _ => by simp
  | c :: pre, h => by
    have hc : ¬ c = '\n' := fun hh => h (hh ▸ List.mem_cons_self c pre)
    have hb : (!(c == '\n')) = true := by
      rw [beq_eq_false_iff_ne.mpr hc]
      rfl
    rw [List.cons_append, List.takeWhile_cons, if_pos hb]
    rw [takeWhile_ne_newline pre (fun hh => h (List.mem_cons_of_mem c hh))]

/-- One unfolding of `lexerNext` on a freshly constructed lexer: the first
call refills from the first line and lexes at column 1. -/
theorem lexerNext_fresh (fuel : Nat) (lines : List (List Char)) (l : List Char) (sk : Bool) :
    lexerNext (fuel + 1) ⟨l :: lines, 0, 1, sk, []⟩ =
      (match (lex 1 1 l).1 with
        | Token.space _ _ =>
          if sk then lexerNext fuel ⟨lines, 1, 1 + (lex 1 1 l).2, sk, l⟩
          else some ((lex 1 1 l).1, ⟨lines, 1, 1 + (lex 1 1 l).2, sk, l⟩)
        | Token.comment _ _ =>
          if sk then lexerNext fuel ⟨lines, 1, 1 + (lex 1 1 l).2, sk, l⟩
          else some ((lex 1 1 l).1, ⟨lines, 1, 1 + (lex 1 1 l).2, sk, l⟩)
        | tok => some (tok, ⟨lines, 1, 1 + (lex 1 1 l).2, sk, l⟩)) := rfl

/-- **C9.** For every line whose next token starts with `%`, the lexer — even
when configured to report space and comment tokens (which, due to the
inverted `report_space` flag, means calling `report_space(false)`) — emits a
`Token::Space` spanning from the `%` to the end of the line, **not** a
`Token::Comment`: `lex_comment` constructs `Token::Space`, and the `Comment`
variant is never produced. This refutes the claim's required `Comment`
category while confirming the claimed span. -/
theorem C9_comment_lexes_as_space (line col : Nat) (pre post : List Char)
    (hpre : '\n' ∉ pre) :
    lex line col ('%' :: (pre ++ '\n' :: post)) = (Token.space line col, ('%' :: pre).length)
    ∧ (lexerNext 9 ((Lexer.new [('%' :: (pre ++ '\n' :: post))]).report_space false)).map
        (fun r => r.1) = some (Token.space 1 1) := by
  have htw : ('%' :: (pre ++ '\n' :: post)).takeWhile (fun c => !(c == '\n'))
      = '%' :: pre := by
    have hsplit : ('%' :: (pre ++ '\n' :: post)) = ('%' :: pre) ++ '\n' :: post := by simp
    rw [hsplit]
    refine takeWhile_ne_newline ('%' :: pre) ?_
    intro hmem
    rcases List.mem_cons.mp hmem with h | h
    · cases h
    · exact hpre h
  have hlex : ∀ l c : Nat,
      lex l c ('%' :: (pre ++ '\n' :: post)) = (Token.space l c, ('%' :: pre).length) := by
    intro l c
    show lexComment l c ('%' :: (pre ++ '\n' :: post)) = _
    unfold lexComment
    rw [htw]
  refine ⟨hlex line col, ?_⟩
  show (lexerNext 9 ⟨[('%' :: (pre ++ '\n' :: post))], 0, 1, false, []⟩).map (fun r => r.1)
    = some (Token.space 1 1)
  rw [show (9 : Nat) = 8 + 1 from rfl,
    lexerNext_fresh 8 [] ('%' :: (pre ++ '\n' :: post)) false, hlex 1 1]
  rfl

/-- Witness for C9 at the concrete failing input `"% hi\n"`. -/
theorem C9_comment_lexes_as_space_witness :
    '\n' ∉ [' ', 'h', 'i']
    ∧ (lex 1 1 ('%' :: ([' ', 'h', 'i'] ++ '\n' :: []))
          = (Token.space 1 1, ('%' :: [' ', 'h', 'i']).length)
        ∧ (lexerNext 9 ((Lexer.new [('%' :: ([' ', 'h', 'i'] ++ '\n' :: []))]).report_space
              false)).map (fun r => r.1) = some (Token.space 1 1)) :=
  ⟨by decide, C9_comment_lexes_as_space 1 1 [' ', 'h', 'i'] [] (by decide)⟩

end Ripl

namespace Ripl

/-! ## Term representation (`src/syntax/repr.rs`) and the parser
(`src/syntax/parser.rs`) — C1, C5, C6 -/

/-- `Symbol` from `repr.rs`. `Float` keeps the source text (see `Token`). -/
inductive Symbol where
  | Funct (arity : Nat) (name : String)
  | Str (val : String)
  | Var (idx : Nat)
  | Int (val : Int)
  | Float (text : String)
  | List (closed : Bool) (arity : Nat)
deriving DecidableEq, Repr

/-- `Token::line` (for `Err`, the error's line). -/
def Token.lineOf : Token → Nat
  | .err e =>
    match e with
    | .priorityClash line _ => line
    | .unbalanced line _ _ => line
    | .unexpected line _ _ => line
    | .todo line _ => line
  | .funct line _ _ => line
  | .str line _ _ => line
  | .var line _ _ => line
  | .int line _ _ => line
  | .float line _ _ => line
  | .parenOpen line _ => line
  | .parenClose line _ => line
  | .bracketOpen line _ => line
  | .bracketClose line _ => line
  | .braceOpen line _ => line
  | .braceClose line _ => line
  | .bar line _ _ => line
  | .comma line _ _ => line
  | .dot line _ => line
  | .space line _ => line
  | .comment line _ => line

/-- `Token::col` (for `Err`, the error's column). -/
def Token.colOf : Token → Nat
  | .err e =>
    match e with
    | .priorityClash _ col => col
    | .unbalanced _ col _ => col
    | .unexpected _ col _ => col
    | .todo _ col => col
  | .funct _ col _ => col
  | .str _ col _ => col
  | .var _ col _ => col
  | .int _ col _ => col
  | .float _ col _ => col
  | .parenOpen _ col => col
  | .parenClose _ col => col
  | .bracketOpen _ col => col
  | .bracketClose _ col => col
  | .braceOpen _ col => col
  | .braceClose _ col => col
  | .bar _ col _ => col
  | .comma _ col _ => col
  | .dot _ col => col
  | .space _ col => col
  | .comment _ col => col

/-- The parser state (`struct Parser`): operator table, lexer, one-token
peek cache, accumulated errors, the per-clause variable table, and the
postfix symbol buffer. -/
structure Parser where
  ops : OpTable
  lx : Lexer
  peeked : Option Token
  errs : List SynErr
  vars : List String
  buf : List Symbol
deriving DecidableEq, Repr

/-- `Parser::next_tok`: take the peeked token if cached, else pull the lexer. -/
def Parser.next_tok (fuel : Nat) (p : Parser) : Option Token × Parser :=
  match p.peeked with
  | some tok => (some tok, { p with peeked := none })
  | none =>
    match lexerNext fuel p.lx with
    | none => (none, p)
    | some (tok, lx2) => (some tok, { p with lx := lx2 })

/-- `Parser::peek_tok`. -/
def Parser.peek_tok (fuel : Nat) (p : Parser) : Option Token × Parser :=
  match p.peeked with
  | some tok => (some tok, p)
  | none =>
    match lexerNext fuel p.lx with
    | none => (none, p)
    | some (tok, lx2) => (some tok, { p with peeked := some tok, lx := lx2 })

/-- Marker for fuel exhaustion; never produced by the source (any fuel
larger than the input's token count avoids it, as position 0 cannot occur:
lines and columns are 1-based). -/
def fuelErr : SynErr := SynErr.unexpected 0 0 "out of fuel"

/-- The call graph of `Parser::read` / `read_loop` / `read_primary` /
`read_args` / `read_args_loop` is mutually recursive; `ParseCall` reifies
which of the five (the `read` loop and the `read_args` loop are the two
`loop`s inside the source functions) is being entered, so that the whole
group is one structurally fuel-recursive function whose unfoldings the
kernel can evaluate. The per-function wrappers below keep the source
names. -/
inductive ParseCall where
  | read (p : Parser) (maxPrec : Nat)
  | readLoop (p : Parser) (maxPrec prec : Nat)
  | readPrimary (p : Parser) (maxPrec : Nat)
  | readArgs (p : Parser)
  | readArgsLoop (p : Parser) (arity : Nat)

/-- One fuel layer of the mutually recursive parsing functions; see the
wrappers `Parser.read`, `Parser.read_loop`, `Parser.read_primary`,
`Parser.read_args`, `Parser.read_args_loop` for the source correspondence.
Note the `readLoop` arm passes `(name, maxPrec, prec)` to `get_compatible`,
whose parameters are `(name, lhs_prec, max_prec)` — this argument order is
the source's `Parser::read`, transcribed verbatim. -/
def parseStep : Nat → ParseCall → Except SynErr (Nat × Parser)
  | 0, _ => .error fuelErr
  | fuel + 1, c =>
    match c with
    -- `Parser::read`
    | .read p maxPrec =>
      match Parser.peek_tok (fuel + 1) p with
      | (none, p) => .ok (0, p)
      | (some _, p) =>
        match parseStep fuel (.readPrimary p maxPrec) with
        | .error e => .error e
        | .ok (prec, p) => parseStep fuel (.readLoop p maxPrec prec)
    -- the operator loop of `Parser::read`
    | .readLoop p maxPrec prec =>
      match Parser.peek_tok (fuel + 1) p with
      | (some (Token.bar _ _ name), p) | (some (Token.comma _ _ name), p)
      | (some (Token.funct _ _ name), p) =>
        match p.ops.get_compatible name maxPrec prec with
        | none => .ok (prec, p)
        | some op =>
          let r := Parser.next_tok (fuel + 1) p
          match op with
          | Op.XFY _ _ =>
            match parseStep fuel (.read r.2 op.prec) with
            | .error e => .error e
            | .ok (prec2, p) =>
              parseStep fuel
                (.readLoop { p with buf := p.buf ++ [Symbol.Funct 2 name] } maxPrec prec2)
          | Op.YFX _ _ | Op.XFX _ _ =>
            match parseStep fuel (.read r.2 (op.prec - 1)) with
            | .error e => .error e
            | .ok (prec2, p) =>
              parseStep fuel
                (.readLoop { p with buf := p.buf ++ [Symbol.Funct 2 name] } maxPrec prec2)
          | _ =>
            parseStep fuel
              (.readLoop { r.2 with buf := r.2.buf ++ [Symbol.Funct 1 name] } maxPrec prec)
      | (_, p) => .ok (prec, p)
    -- `Parser::read_primary`
    | .readPrimary p maxPrec =>
      match Parser.next_tok (fuel + 1) p with
      -- Skip spaces and comments.
      | (some (Token.space _ _), p) | (some (Token.comment _ _), p) =>
        parseStep fuel (.readPrimary p maxPrec)
      -- Atoms, compounds, and prefix operators.
      | (some (Token.bar _ _ name), p) | (some (Token.comma _ _ name), p)
      | (some (Token.funct _ _ name), p) =>
        match Parser.peek_tok (fuel + 1) p with
        -- Compound term
        | (some (Token.parenOpen _ _), p) =>
          match parseStep fuel (.readArgs p) with
          | .error e => .error e
          | .ok (arity, p) => .ok (0, { p with buf := p.buf ++ [Symbol.Funct arity name] })
        -- Definitely an atom
        | (some (Token.parenClose _ _), p) | (some (Token.bracketClose _ _), p)
        | (some (Token.braceClose _ _), p) =>
          .ok (0, { p with buf := p.buf ++ [Symbol.Funct 0 name] })
        -- Possibly prefix operator
        | (_, p) =>
          match p.ops.getPre name maxPrec with
          | some (Op.FX pr _) =>
            match parseStep fuel (.read p (pr - 1)) with
            | .error e => .error e
            | .ok (_, p) => .ok (pr, { p with buf := p.buf ++ [Symbol.Funct 1 name] })
          | some (Op.FY pr _) =>
            match parseStep fuel (.read p pr) with
            | .error e => .error e
            | .ok (_, p) => .ok (pr, { p with buf := p.buf ++ [Symbol.Funct 1 name] })
          | _ => .ok (0, { p with buf := p.buf ++ [Symbol.Funct 0 name] })
      -- Strings.
      | (some (Token.str _ _ val), p) => .ok (0, { p with buf := p.buf ++ [Symbol.Str val] })
      -- Variables.
      | (some (Token.var _ _ val), p) =>
        match findString p.vars val with
        | some n => .ok (0, { p with buf := p.buf ++ [Symbol.Var n] })
        | none =>
          .ok (0, { p with vars := p.vars ++ [val],
                           buf := p.buf ++ [Symbol.Var p.vars.length] })
      -- Numbers.
      | (some (Token.int _ _ v), p) => .ok (0, { p with buf := p.buf ++ [Symbol.Int v] })
      | (some (Token.float _ _ t), p) => .ok (0, { p with buf := p.buf ++ [Symbol.Float t] })
      -- Parens.
      | (some (Token.parenOpen line col), p) =>
        match parseStep fuel (.read p 1200) with
        | .error e => .error e
        | .ok (_, p) =>
          match Parser.next_tok (fuel + 1) p with
          | (some (Token.parenClose _ _), p2) => .ok (0, p2)
          | (_, _) => .error (SynErr.unbalanced line col ')')
      -- TODO: Lists and braces.
      | (some (Token.bracketOpen line col), _) => .error (SynErr.todo line col)
      | (some (Token.braceOpen line col), _) => .error (SynErr.todo line col)
      -- Syntax errors.
      | (some (Token.parenClose line col), _) => .error (SynErr.unbalanced line col ')')
      | (some (Token.bracketClose line col), _) => .error (SynErr.unbalanced line col ']')
      | (some (Token.braceClose line col), _) => .error (SynErr.unbalanced line col '}')
      | (some (Token.dot line col), _) => .error (SynErr.unexpected line col "period")
      | (some (Token.err e), _) => .error e
      | (none, p) => .error (SynErr.unexpected p.lx.line p.lx.col "eof")
    -- `Parser::read_args` (the `_ => panic!` arm is unreachable — `read_args`
    -- is only called when a `ParenOpen` was peeked — and modelled by the
    -- fuel marker)
    | .readArgs p =>
      match Parser.next_tok (fuel + 1) p with
      | (some (Token.parenOpen _ _), p) => parseStep fuel (.readArgsLoop p 1)
      | (none, p) => .error (SynErr.unexpected p.lx.line p.lx.col "eof")
      | (_, _) => .error fuelErr
    -- the argument loop of `Parser::read_args`
    | .readArgsLoop p arity =>
      match parseStep fuel (.read p 999) with
      | .error e => .error e
      | .ok (_, p) =>
        match Parser.next_tok (fuel + 1) p with
        | (some (Token.parenClose _ _), p) => .ok (arity, p)
        | (some (Token.comma _ _ _), p) => parseStep fuel (.readArgsLoop p (arity + 1))
        | (some tok, _) => .error (SynErr.priorityClash tok.lineOf tok.colOf)
        | (none, p) => .error (SynErr.unexpected p.lx.line p.lx.col "eof")

/-- `Parser::read`. -/
def Parser.read (fuel : Nat) (p : Parser) (maxPrec : Nat) : Except SynErr (Nat × Parser) :=
  parseStep fuel (.read p maxPrec)

/-- The operator loop of `Parser::read`. -/
def Parser.read_loop (fuel : Nat) (p : Parser) (maxPrec prec : Nat) :
    Except SynErr (Nat × Parser) :=
  parseStep fuel (.readLoop p maxPrec prec)

/-- `Parser::read_primary`. -/
def Parser.read_primary (fuel : Nat) (p : Parser) (maxPrec : Nat) :
    Except SynErr (Nat × Parser) :=
  parseStep fuel (.readPrimary p maxPrec)

/-- `Parser::read_args`. -/
def Parser.read_args (fuel : Nat) (p : Parser) : Except SynErr (Nat × Parser) :=
  parseStep fuel (.readArgs p)

/-- The argument loop of `Parser::read_args`. -/
def Parser.read_args_loop (fuel : Nat) (p : Parser) (arity : Nat) :
    Except SynErr (Nat × Parser) :=
  parseStep fuel (.readArgsLoop p arity)


/-- `<Parser as Iterator>::next`: clear the per-clause state, read a term at
1200, and require the `Dot` terminator; on a missing terminator or a read
error, push the error and retry from the next clause. `none` is the end of
the stream (or fuel exhaustion, avoided by ample fuel on concrete runs). -/
def parserNext : Nat → Parser → Option (List Symbol × Parser)
  | 0, _ => none
  | fuel + 1, p0 =>
    let p := { p0 with vars := [], buf := [] }
    match Parser.read (fuel + 1) p 1200 with
    | .ok (_, p) =>
      if p.buf.length = 0 then none
      else
        match Parser.next_tok (fuel + 1) p with
        | (some (Token.dot _ _), p) => some (p.buf, p)
        | (_, p) =>
          parserNext fuel { p with errs := p.errs ++ [SynErr.priorityClash p.lx.line p.lx.col] }
    | .error e => parserNext fuel { p with errs := p.errs ++ [e] }

/-- `OpTable::default`: the default Prolog operator table, in the source's
order, built through `From<Vec<Op>>`. -/
def OpTable.default : OpTable :=
  OpTable.ofList [
    Op.XFX 1200 "-->",
    Op.XFX 1200 ":-",
    Op.FX 1200 ":-",
    Op.FX 1200 "?-",
    Op.FX 1150 "dynamic",
    Op.FX 1150 "discontiguous",
    Op.FX 1150 "initialization",
    Op.FX 1150 "meta_predicate",
    Op.FX 1150 "module_transparent",
    Op.FX 1150 "multifile",
    Op.FX 1150 "public",
    Op.FX 1150 "thread_local",
    Op.FX 1150 "thread_initialization",
    Op.FX 1150 "volatile",
    Op.XFY 1100 ";",
    Op.XFY 1100 "|",
    Op.XFY 1050 "->",
    Op.XFY 1050 "*->",
    Op.XFY 1000 ",",
    Op.XFX 990 ":=",
    Op.FY 900 "\\+",
    Op.XFX 700 "<",
    Op.XFX 700 "=",
    Op.XFX 700 "=..",
    Op.XFX 700 "=@=",
    Op.XFX 700 "\\=@=",
    Op.XFX 700 "=:=",
    Op.XFX 700 "=<",
    Op.XFX 700 "==",
    Op.XFX 700 "=\\=",
    Op.XFX 700 ">",
    Op.XFX 700 ">=",
    Op.XFX 700 "@<",
    Op.XFX 700 "@=<",
    Op.XFX 700 "@>",
    Op.XFX 700 "@>=",
    Op.XFX 700 "\\=",
    Op.XFX 700 "\\==",
    Op.XFX 700 "as",
    Op.XFX 700 "is",
    Op.XFX 700 ">:<",
    Op.XFX 700 ":<",
    Op.XFY 600 ":",
    Op.YFX 500 "+",
    Op.YFX 500 "-",
    Op.YFX 500 "/\\",
    Op.YFX 500 "\\/",
    Op.YFX 500 "xor",
    Op.FX 500 "?",
    Op.YFX 400 "*",
    Op.YFX 400 "/",
    Op.YFX 400 "//",
    Op.YFX 400 "div",
    Op.YFX 400 "rdiv",
    Op.YFX 400 "<<",
    Op.YFX 400 ">>",
    Op.YFX 400 "mod",
    Op.YFX 400 "rem",
    Op.XFX 200 "**",
    Op.XFY 200 "^",
    Op.FY 200 "+",
    Op.FY 200 "-",
    Op.FY 200 "\\",
    Op.YFX 100 ".",
    Op.FX 1 "$"]

/-- A parser over the given input lines with the default operator table
(`Parser::new` composed with `Context::new`-style setup). -/
def Parser.onInput (lines : List (List Char)) : Parser :=
  ⟨OpTable.default, Lexer.new lines, none, [], [], []⟩

end Ripl

namespace Ripl

/-! ### C1 — parsing `a * b + c * d.` with the default operators -/

/-- **C1.** Parsing `a * b + c * d.` with the default operator table does
**not** produce `[a/0, b/0, */2, c/0, d/0, */2, +/2]` with no errors: the
operator loop calls `get_compatible(name, max_prec, prec)` although the
parameters of `get_compatible` are `(name, lhs_prec, max_prec)`, so `*` and
`+` are never accepted as infix operators. `next()` instead accumulates
three priority-clash errors and finally yields the structure `[d/0]`. (The
source's own test `parser::test::basic_operators` asserts exactly the
claimed output, so the claim matches the intent and the code is the slip.) -/
theorem C1_default_operator_parse :
    (parserNext 99 (Parser.onInput ["a * b + c * d.\n".data])).map
        (fun r => (r.1, r.2.errs.length))
      = some ([Symbol.Funct 0 "d"], 3)
    ∧ (some ([Symbol.Funct 0 "d"], 3)
        ≠ some ([Symbol.Funct 0 "a", Symbol.Funct 0 "b", Symbol.Funct 2 "*",
                 Symbol.Funct 0 "c", Symbol.Funct 0 "d", Symbol.Funct 2 "*",
                 Symbol.Funct 2 "+"], (0 : Nat))) :=
  ⟨rfl, by decide⟩

/-! ### C5 — the precedence tracked by the operator loop -/

/-- A small operator table and input exercising the operator loop: `f` is
`YFX(5)`, `p` is the prefix `FY(5)`. -/
def c5ops : OpTable := OpTable.mk [Op.YFX 5 "f", Op.FY 5 "p"]

/-- The parser for the input `p a f b.` over `c5ops`. -/
def c5parser : Parser := ⟨c5ops, Lexer.new ["p a f b.\n".data], none, [], [], []⟩

/-- **C5 (counterexample).** In `read(5)` on `p a f b.` the loop consumes
the infix operator `f` (of precedence 5; witness `Funct(2, "f")` in the
buffer), yet `read` returns precedence 0 — the value returned by parsing the
right operand `b` with `read(op.prec - 1)` — not the consumed operator's
precedence 5. -/
theorem C5_counterexample :
    (match Parser.read 99 c5parser 5 with
      | .ok r => some (r.1, r.2.buf)
      | .error _ => none)
      = some (0, [Symbol.Funct 0 "a", Symbol.Funct 1 "p", Symbol.Funct 0 "b",
                  Symbol.Funct 2 "f"])
    ∧ c5ops.get_compatible "f" 5 5 = some (Op.YFX 5 "f")
    ∧ (Op.YFX 5 "f").prec ≠ 0 :=
  ⟨rfl, rfl, by decide⟩

/-- **C5 (amended).** When the operator loop consumes a compatible operator
named by the peeked `Funct` token, the tracked precedence is *not* set to
`op.prec`: for `XFY` it becomes whatever `read(op.prec)` returns for the
right operand, for `YFX`/`XFX` whatever `read(op.prec - 1)` returns, and for
postfix operators (`XF`/`YF`) it is left unchanged. -/
theorem C5_loop_update (fuel : Nat) (p : Parser) (maxPrec prec line col : Nat) (name : String)
    (hpk : p.peeked = some (Token.funct line col name)) :
    Parser.read_loop (fuel + 1) p maxPrec prec
      = match p.ops.get_compatible name maxPrec prec with
        | none => .ok (prec, p)
        | some op =>
          match op with
          | Op.XFY _ _ =>
            (match Parser.read fuel { p with peeked := none } op.prec with
              | .error e => .error e
              | .ok (prec2, p2) =>
                Parser.read_loop fuel { p2 with buf := p2.buf ++ [Symbol.Funct 2 name] }
                  maxPrec prec2)
          | Op.YFX _ _ | Op.XFX _ _ =>
            (match Parser.read fuel { p with peeked := none } (op.prec - 1) with
              | .error e => .error e
              | .ok (prec2, p2) =>
                Parser.read_loop fuel { p2 with buf := p2.buf ++ [Symbol.Funct 2 name] }
                  maxPrec prec2)
          | _ =>
            Parser.read_loop fuel { p with peeked := none, buf := p.buf ++ [Symbol.Funct 1 name] }
              maxPrec prec := by
  have hpeek : Parser.peek_tok (fuel + 1) p = (some (Token.funct line col name), p) := by
    unfold Parser.peek_tok
    rw [hpk]
  have hnext : Parser.next_tok (fuel + 1) p
      = (some (Token.funct line col name), { p with peeked := none }) := by
    unfold Parser.next_tok
    rw [hpk]
  simp only [Parser.read_loop, Parser.read, parseStep, hpeek, hnext]

/-- Witness for the amended C5, showing the postfix case leaving the
precedence unchanged (`prec = 5` stays 5, while the loop pushes
`Funct(1, "f")`). -/
theorem C5_loop_update_witness :
    (Parser.mk (OpTable.mk [Op.YF 5 "f"]) (Lexer.new []) (some (Token.funct 1 1 "f"))
        [] [] []).peeked = some (Token.funct 1 1 "f")
    ∧ Parser.read_loop 3 (Parser.mk (OpTable.mk [Op.YF 5 "f"]) (Lexer.new [])
          (some (Token.funct 1 1 "f")) [] [] []) 5 5
      = match (OpTable.mk [Op.YF 5 "f"]).get_compatible "f" 5 5 with
        | none => .ok (5, (Parser.mk (OpTable.mk [Op.YF 5 "f"]) (Lexer.new [])
            (some (Token.funct 1 1 "f")) [] [] []))
        | some op =>
          match op with
          | Op.XFY _ _ =>
            (match Parser.read 2 (Parser.mk (OpTable.mk [Op.YF 5 "f"]) (Lexer.new [])
                none [] [] []) op.prec with
              | .error e => .error e
              | .ok (prec2, p2) =>
                Parser.read_loop 2 { p2 with buf := p2.buf ++ [Symbol.Funct 2 "f"] } 5 prec2)
          | Op.YFX _ _ | Op.XFX _ _ =>
            (match Parser.read 2 (Parser.mk (OpTable.mk [Op.YF 5 "f"]) (Lexer.new [])
                none [] [] []) (op.prec - 1) with
              | .error e => .error e
              | .ok (prec2, p2) =>
                Parser.read_loop 2 { p2 with buf := p2.buf ++ [Symbol.Funct 2 "f"] } 5 prec2)
          | _ =>
            Parser.read_loop 2 (Parser.mk (OpTable.mk [Op.YF 5 "f"]) (Lexer.new [])
              none [] [] [Symbol.Funct 1 "f"]) 5 5 :=
  ⟨rfl, C5_loop_update 2 (Parser.mk (OpTable.mk [Op.YF 5 "f"]) (Lexer.new [])
    (some (Token.funct 1 1 "f")) [] [] []) 5 5 1 1 "f" rfl⟩

/-! ### C6 — `_` variables are merged, not distinct -/

/-- **C6 (counterexample).** Parsing `foo(_, _).` assigns **the same** index
0 to both occurrences of `_` (the source treats `_` like any other variable
name and re-uses the first occurrence's index): no assignment of distinct
indices to the two `_` occurrences matches the parse. -/
theorem C6_counterexample :
    (parserNext 99 (Parser.onInput ["foo(_, _).\n".data])).map (fun r => r.1)
        = some [Symbol.Var 0, Symbol.Var 0, Symbol.Funct 2 "foo"]
    ∧ ¬ ∃ i j : Nat, i ≠ j ∧
        (parserNext 99 (Parser.onInput ["foo(_, _).\n".data])).map (fun r => r.1)
          = some [Symbol.Var i, Symbol.Var j, Symbol.Funct 2 "foo"] := by
  have h0 : (parserNext 99 (Parser.onInput ["foo(_, _).\n".data])).map (fun r => r.1)
      = some [Symbol.Var 0, Symbol.Var 0, Symbol.Funct 2 "foo"] := rfl
  refine ⟨h0, ?_⟩
  rintro ⟨i, j, hne, heq⟩
  rw [h0] at heq
  simp only [Option.some.injEq, List.cons.injEq, Symbol.Var.injEq] at heq
  exact hne (heq.1.symm.trans heq.2.1)

/-- **C6 (amended).** Every occurrence of a variable token — the token `_`
included — is assigned the index of the *name's* first occurrence in the
clause's variable table: `read_primary` on a `Var` token pushes
`Var(position)` when the name was already recorded, and otherwise records
the name and pushes `Var(vars.len())`. Multiple `_` in one clause therefore
share one index. -/
theorem C6_var_merging (fuel : Nat) (p : Parser) (maxPrec line col : Nat) (v : String)
    (hpk : p.peeked = some (Token.var line col v)) :
    Parser.read_primary (fuel + 1) p maxPrec
      = match findString p.vars v with
        | some n => .ok (0, { p with peeked := none, buf := p.buf ++ [Symbol.Var n] })
        | none => .ok (0, { p with peeked := none, vars := p.vars ++ [v], buf := p.buf ++ [Symbol.Var p.vars.length] }) := by
  have hnext : Parser.next_tok (fuel + 1) p
      = (some (Token.var line col v), { p with peeked := none }) := by
    unfold Parser.next_tok
    rw [hpk]
  simp only [Parser.read_primary, parseStep, hnext]

/-- Witness for the amended C6 at a parser whose variable table already
holds `_`: the second `_` re-uses index 0. -/
theorem C6_var_merging_witness :
    (Parser.mk OpTable.default (Lexer.new []) (some (Token.var 1 1 "_"))
        [] ["_"] [Symbol.Var 0]).peeked = some (Token.var 1 1 "_")
    ∧ Parser.read_primary 1 (Parser.mk OpTable.default (Lexer.new [])
          (some (Token.var 1 1 "_")) [] ["_"] [Symbol.Var 0]) 999
      = match findString ["_"] "_" with
        | some n => .ok (0, Parser.mk OpTable.default (Lexer.new []) none
            [] ["_"] ([Symbol.Var 0] ++ [Symbol.Var n]))
        | none => .ok (0, Parser.mk OpTable.default (Lexer.new []) none
            [] (["_"] ++ ["_"]) ([Symbol.Var 0] ++ [Symbol.Var 1])) :=
  ⟨rfl, C6_var_merging 0 (Parser.mk OpTable.default (Lexer.new [])
    (some (Token.var 1 1 "_")) [] ["_"] [Symbol.Var 0]) 999 1 1 "_" rfl⟩

end Ripl

namespace Ripl

/-! ## Persistent HAMT map (`src/collections/clone_map.rs`) — C2, C3, C10

Hashes are `u64`; the model uses `Nat` (the source only ever shifts by
`level ≤ 60` for the branch powers it constructs, where `u64` and `Nat`
arithmetic agree). The seeded `RandomState` hasher of a map is modelled by
an arbitrary function `hashFn : K → Nat`; the fresh random hashers drawn
when a full-hash collision nests an inner map (`Branch::M`) are modelled by
an arbitrary supply `supply : Nat → K → Nat` (the nested map receives
`supply 0` and the shifted remainder). All recursive operations carry fuel
so that the recursion is structural and kernel-evaluable; `none` signals
exhausted fuel, which the source cannot exhibit on any run that terminates
(its recursion is bounded by the trie depth, which is bounded except for
adversarial hash collisions, on which the source itself would not
terminate). -/

/-- `u64::count_ones`, via an inner fuel (the number itself bounds the
number of halvings). -/
def popcountAux : Nat → Nat → Nat
  | 0, _ => 0
  | fuel + 1, n => if n = 0 then 0 else n % 2 + popcountAux fuel (n / 2)

/-- `u64::count_ones`. -/
def popcount (n : Nat) : Nat := popcountAux n n

/-- The branches of the trie (`enum Branch`): `S` is a `Store` (full hash,
key, value); `C` an inner `CNode` (bitmap plus dense branch array); `M` a
nested `CloneMap` (branch power, its own hasher, its own supply of fresh
hashers, and its root `CNode`'s bitmap and branches). -/
inductive Branch (K V : Type) where
  | S (hash : Nat) (key : K) (val : V)
  | C (bitmap : Nat) (branches : List (Branch K V))
  | M (w : Nat) (hashFn : K → Nat) (supply : Nat → K → Nat) (bitmap : Nat)
      (branches : List (Branch K V))

/-- `struct CloneMap`: branch power `w`, the seeded hasher, the supply of
fresh hashers for nested maps, and the root `CNode` (bitmap, branches). -/
structure CloneMap (K V : Type) where
  w : Nat
  hashFn : K → Nat
  supply : Nat → K → Nat
  bitmap : Nat
  branches : List (Branch K V)

/-- `CNode::flagpos`: `index = (hash >> level) & ((1 << w) - 1)`,
`flag = 1 << index`, `pos = ((flag - 1) & bitmap).count_ones()`. -/
def flagpos (bitmap hash level w : Nat) : Nat × Nat :=
  let index := (hash >>> level) &&& ((1 <<< w) - 1)
  let flag := 1 <<< index
  let pos := popcount ((flag - 1) &&& bitmap)
  (flag, pos)

/-- The least `i` with `n ≤ 2^i` (so `2^(log2c n)` is `u32::next_power_of_two`
for `n ≥ 1`, and `log2c n` is its trailing-zero count — the branch power
`with_branch_factor` computes). -/
def log2c (n : Nat) : Nat := (List.range (n + 1)).findIdx (fun i => n ≤ 2 ^ i)

/-- `CNode::get`. The `none` fallback at `branches.get?` models the
`get_unchecked` whose in-boundedness is claim C10. -/
def getF [DecidableEq K] :
    Nat → Nat → List (Branch K V) → Nat → K → Nat → Nat → Option (Option V)
  | 0, _, _, _, _, _, _ => none
  | fuel + 1, bitmap, branches, hash, key, level, w =>
    let fp := flagpos bitmap hash level w
    if bitmap &&& fp.1 = 0 then some none
    else
      match branches.get? fp.2 with
      | none => none
      | some (.M w2 hf2 _ bm2 brs2) => getF fuel bm2 brs2 (hf2 key) key 0 w2
      | some (.C bm2 brs2) => getF fuel bm2 brs2 hash key (level + w) w
      | some (.S _ k2 v2) => if k2 = key then some (some v2) else some none

/-- `CNode::insert`. Returns the previous value and the node's new bitmap
and branches. The `sup` argument models the randomness consumed when the
full-collision case creates `CloneMap::with_branch_factor(1 << w)`. -/
def insertF [DecidableEq K] :
    Nat → (Nat → K → Nat) → Nat → List (Branch K V) → Nat → K → V → Nat → Nat →
      Option (Option V × Nat × List (Branch K V))
  | 0, _, _, _, _, _, _, _, _ => none
  | fuel + 1, sup, bitmap, branches, hash, key, val, level, w =>
    let fp := flagpos bitmap hash level w
    -- Simple case: insert if we have a vacancy.
    if bitmap &&& fp.1 = 0 then
      some (none, bitmap ||| fp.1, branches.insertIdx fp.2 (.S hash key val))
    else
      match branches.get? fp.2 with
      | none => none
      | some (.M w2 hf2 sup2 bm2 brs2) =>
        match insertF fuel sup2 bm2 brs2 (hf2 key) key val 0 w2 with
        | none => none
        | some (old, bm3, brs3) =>
          some (old, bitmap, branches.set fp.2 (.M w2 hf2 sup2 bm3 brs3))
      | some (.C bm2 brs2) =>
        match insertF fuel sup bm2 brs2 hash key val (level + w) w with
        | none => none
        | some (old, bm3, brs3) =>
          some (old, bitmap, branches.set fp.2 (.C bm3 brs3))
      | some (.S h2 k2 v2) =>
        -- If the key is a match, replace the value (key and stored hash kept).
        if key = k2 then
          some (some v2, bitmap, branches.set fp.2 (.S h2 k2 val))
        else if hash = h2 then
          -- Full hash collision: nest `CloneMap::with_branch_factor(1 << w)`
          -- (a fresh hasher from the supply) and insert both entries.
          let w2 := log2c (1 <<< w)
          let hf2 := sup 0
          let sup2 := fun n => sup (n + 1)
          match insertF fuel sup2 0 [] (hf2 k2) k2 v2 0 w2 with
          | none => none
          | some (_, bmA, brsA) =>
            match insertF fuel sup2 bmA brsA (hf2 key) key val 0 w2 with
            | none => none
            | some (_, bmB, brsB) =>
              some (none, bitmap, branches.set fp.2 (.M w2 hf2 sup2 bmB brsB))
        else
          -- Partial collision: split into a new `CNode` at `level + w`.
          match insertF fuel sup 0 [] h2 k2 v2 (level + w) w with
          | none => none
          | some (_, bmA, brsA) =>
            match insertF fuel sup bmA brsA hash key val (level + w) w with
            | none => none
            | some (_, bmB, brsB) =>
              some (none, bitmap, branches.set fp.2 (.C bmB brsB))

/-- `CNode::remove`. -/
def removeF [DecidableEq K] :
    Nat → Nat → List (Branch K V) → Nat → K → Nat → Nat →
      Option (Option V × Nat × List (Branch K V))
  | 0, _, _, _, _, _, _ => none
  | fuel + 1, bitmap, branches, hash, key, level, w =>
    let fp := flagpos bitmap hash level w
    if bitmap &&& fp.1 = 0 then some (none, bitmap, branches)
    else
      match branches.get? fp.2 with
      | none => none
      | some (.M w2 hf2 sup2 bm2 brs2) =>
        match removeF fuel bm2 brs2 (hf2 key) key 0 w2 with
        | none => none
        | some (old, bm3, brs3) =>
          some (old, bitmap, branches.set fp.2 (.M w2 hf2 sup2 bm3 brs3))
      | some (.C bm2 brs2) =>
        match removeF fuel bm2 brs2 hash key (level + w) w with
        | none => none
        | some (old, bm3, brs3) =>
          some (old, bitmap, branches.set fp.2 (.C bm3 brs3))
      | some (.S _ k2 v2) =>
        if k2 ≠ key then some (none, bitmap, branches)
        else some (some v2, bitmap ^^^ fp.1, branches.eraseIdx fp.2)

/-- `CloneMap::with_branch_factor`: `w` is the trailing-zero count of the
next power of two (the source panics for `n > 64`; no claim reaches that).
The hasher and the supply model the seed and `RandomState`. -/
def CloneMap.with_branch_factor (n : Nat) (hf : K → Nat) (sup : Nat → K → Nat) :
    CloneMap K V :=
  ⟨log2c n, hf, sup, 0, []⟩

/-- `CloneMap::new`: branch factor 32. -/
def CloneMap.new (hf : K → Nat) (sup : Nat → K → Nat) : CloneMap K V :=
  CloneMap.with_branch_factor 32 hf sup

/-- `CloneMap::get`. -/
def CloneMap.get [DecidableEq K] (fuel : Nat) (m : CloneMap K V) (key : K) :
    Option (Option V) :=
  getF fuel m.bitmap m.branches (m.hashFn key) key 0 m.w

/-- `CloneMap::insert` (the top-level `Arc::make_mut` on the root is the
copy-on-write step; its content-level effect is the new root returned
here). -/
def CloneMap.insert [DecidableEq K] (fuel : Nat) (m : CloneMap K V) (key : K) (val : V) :
    Option (Option V × CloneMap K V) :=
  (insertF fuel m.supply m.bitmap m.branches (m.hashFn key) key val 0 m.w).map
    (fun r => (r.1, { m with bitmap := r.2.1, branches := r.2.2 }))

/-- `CloneMap::remove`. -/
def CloneMap.remove [DecidableEq K] (fuel : Nat) (m : CloneMap K V) (key : K) :
    Option (Option V × CloneMap K V) :=
  (removeF fuel m.bitmap m.branches (m.hashFn key) key 0 m.w).map
    (fun r => (r.1, { m with bitmap := r.2.1, branches := r.2.2 }))

/-- `CloneMap::clear`: a fresh empty root. -/
def CloneMap.clear (m : CloneMap K V) : CloneMap K V :=
  { m with bitmap := 0, branches := [] }

/-- `Clone::clone` for `CloneMap` is an O(1) share of the root; its
content-level effect is the identity. -/
def CloneMap.clone (m : CloneMap K V) : CloneMap K V := m

end Ripl

namespace Ripl

/-! ### Bit arithmetic for `count_ones` and `flagpos` -/

theorem popcountAux_zero (fuel : Nat) : popcountAux fuel 0 = 0 := by
  cases fuel <;> rfl

theorem popcountAux_congr :
    ∀ f1 f2 n, n ≤ f1 → n ≤ f2 → popcountAux f1 n = popcountAux f2 n := by
  intro f1
  induction f1 with
  | zero =>
    intro f2 n h1 _
    have : n = 0 := Nat.le_zero.mp h1
    subst this
    rw [popcountAux_zero, popcountAux_zero]
  | succ f ih =>
    intro f2 n h1 h2
    by_cases hn : n = 0
    · subst hn; rw [popcountAux_zero, popcountAux_zero]
    · have hf2 : ∃ g, f2 = g + 1 := by
        cases f2 with
        | zero => exact absurd (Nat.le_zero.mp h2) hn
        | succ g => exact ⟨g, rfl⟩
      obtain ⟨g, rfl⟩ := hf2
      show (if n = 0 then 0 else n % 2 + popcountAux f (n / 2))
          = (if n = 0 then 0 else n % 2 + popcountAux g (n / 2))
      rw [if_neg hn, if_neg hn]
      have hd : n / 2 < n := Nat.div_lt_self (Nat.pos_of_ne_zero hn) (by omega)
      rw [ih g (n / 2) (by omega) (by omega)]

theorem popcount_rec_total (n : Nat) : popcount n = n % 2 + popcount (n / 2) := by
  cases n with
  | zero => rfl
  | succ m =>
    show (if m + 1 = 0 then 0 else (m + 1) % 2 + popcountAux m ((m + 1) / 2))
        = (m + 1) % 2 + popcount ((m + 1) / 2)
    rw [if_neg (by omega)]
    exact congrArg ((m + 1) % 2 + ·)
      (popcountAux_congr m ((m + 1) / 2) ((m + 1) / 2) (by omega) (le_refl _))

theorem popcount_eq_sum :
    ∀ k n, n < 2 ^ k → popcount n = ∑ i ∈ Finset.range k, n / 2 ^ i % 2 := by
  intro k
  induction k with
  | zero =>
    intro n h
    have : n = 0 := by simpa using h
    subst this
    rfl
  | succ k ih =>
    intro n h
    rw [Finset.sum_range_succ' (fun i => n / 2 ^ i % 2) k]
    have hterm : ∀ i, n / 2 ^ (i + 1) % 2 = (n / 2) / 2 ^ i % 2 := by
      intro i
      rw [Nat.pow_succ, Nat.mul_comm, ← Nat.div_div_eq_div_mul]
    have hdiv : n / 2 < 2 ^ k := by
      have := Nat.pow_succ 2 k
      omega
    calc popcount n = n % 2 + popcount (n / 2) := popcount_rec_total n
      _ = n % 2 + ∑ i ∈ Finset.range k, (n / 2) / 2 ^ i % 2 := by rw [ih (n / 2) hdiv]
      _ = (∑ i ∈ Finset.range k, n / 2 ^ (i + 1) % 2) + n / 2 ^ 0 % 2 := by
          rw [Nat.add_comm]
          congr 1
          · exact Finset.sum_congr rfl (fun i _ => (hterm i).symm)
          · simp
      _ = _ := rfl

theorem lt_two_pow_of_le {a b : Nat} (h : a ≤ b) : a < 2 ^ b :=
  Nat.lt_of_le_of_lt h (Nat.lt_two_pow b)

theorem mod_pow_div_mod_two (n i j : Nat) :
    (n % 2 ^ j) / 2 ^ i % 2 = if i < j then n / 2 ^ i % 2 else 0 := by
  have h1 : decide ((n % 2 ^ j) / 2 ^ i % 2 = 1)
      = (decide (i < j) && decide (n / 2 ^ i % 2 = 1)) := by
    rw [← Nat.testBit_to_div_mod, ← Nat.testBit_to_div_mod]
    exact Nat.testBit_mod_two_pow n j i
  by_cases hij : i < j
  · rw [if_pos hij]
    rw [decide_eq_true hij, Bool.true_and] at h1
    have ha := Nat.mod_two_eq_zero_or_one ((n % 2 ^ j) / 2 ^ i)
    have hb := Nat.mod_two_eq_zero_or_one (n / 2 ^ i)
    rcases ha with ha | ha <;> rcases hb with hb | hb <;> simp [ha, hb] at h1 ⊢
  · rw [if_neg hij]
    have : n % 2 ^ j < 2 ^ i :=
      Nat.lt_of_lt_of_le (Nat.mod_lt n (Nat.pos_pow_of_pos j (by omega)))
        (Nat.pow_le_pow_right (by omega) (by omega))
    rw [Nat.div_eq_of_lt this]

theorem popcount_mod_sum (n j : Nat) :
    popcount (n % 2 ^ j) = ∑ i ∈ Finset.range j, n / 2 ^ i % 2 := by
  have hb : n % 2 ^ j < 2 ^ j := Nat.mod_lt n (Nat.pos_pow_of_pos j (by omega))
  rw [popcount_eq_sum j (n % 2 ^ j) hb]
  refine Finset.sum_congr rfl (fun i hi => ?_)
  rw [mod_pow_div_mod_two, if_pos (Finset.mem_range.mp hi)]

theorem bitVal (n i : Nat) : n / 2 ^ i % 2 = if n.testBit i then 1 else 0 := by
  rcases Nat.mod_two_eq_zero_or_one (n / 2 ^ i) with h | h <;>
    simp [Nat.testBit_to_div_mod, h]

theorem and_two_pow_eq_zero_iff (bm i : Nat) :
    bm &&& 2 ^ i = 0 ↔ bm.testBit i = false := by
  constructor
  · intro h
    have := congrArg (fun x => x.testBit i) h
    simp only [Nat.testBit_and, Nat.testBit_two_pow_self, Bool.and_true,
      Nat.zero_testBit] at this
    exact this
  · intro h
    refine Nat.eq_of_testBit_eq (fun p => ?_)
    rw [Nat.testBit_and, Nat.zero_testBit]
    by_cases hp : p = i
    · subst hp; rw [h, Bool.false_and]
    · rw [Nat.testBit_two_pow_of_ne (fun he => hp he.symm), Bool.and_false]

theorem popcount_mod_le {i j : Nat} (bm : Nat) (h : i ≤ j) :
    popcount (bm % 2 ^ i) ≤ popcount (bm % 2 ^ j) := by
  rw [popcount_mod_sum, popcount_mod_sum]
  exact Finset.sum_le_sum_of_subset (Finset.range_subset.mpr h)

theorem popcount_mod_lt {bm i : Nat} (h : bm.testBit i = true) :
    popcount (bm % 2 ^ i) < popcount bm := by
  have hk : bm < 2 ^ (bm + i + 1) := lt_two_pow_of_le (by omega)
  rw [popcount_mod_sum, popcount_eq_sum (bm + i + 1) bm hk]
  refine Finset.sum_lt_sum_of_subset
    (Finset.range_subset.mpr (by omega))
    (Finset.mem_range.mpr (show i < bm + i + 1 by omega))
    (by simp) ?_ (fun _ _ _ => Nat.zero_le _)
  rw [bitVal, if_pos h]
  omega

theorem popcount_mod_succ (bm i : Nat) :
    popcount (bm % 2 ^ (i + 1))
      = popcount (bm % 2 ^ i) + (if bm.testBit i then 1 else 0) := by
  rw [popcount_mod_sum, popcount_mod_sum, Finset.sum_range_succ, bitVal]

theorem lor_two_pow_testBit (bm i p : Nat) :
    (bm ||| 2 ^ i).testBit p = (bm.testBit p || decide (p = i)) := by
  rw [Nat.testBit_lor]
  by_cases hp : p = i
  · subst hp; rw [Nat.testBit_two_pow_self]; simp
  · rw [Nat.testBit_two_pow_of_ne (fun he => hp he.symm)]; simp [hp]

theorem xor_two_pow_testBit (bm i p : Nat) :
    (bm ^^^ 2 ^ i).testBit p = if p = i then !bm.testBit p else bm.testBit p := by
  rw [Nat.testBit_xor]
  by_cases hp : p = i
  · subst hp; rw [Nat.testBit_two_pow_self, if_pos rfl, Bool.xor_true]
  · rw [Nat.testBit_two_pow_of_ne (fun he => hp he.symm), if_neg hp, Bool.xor_false]

theorem popcount_mod_lor_two_pow {bm i : Nat} (j : Nat) (h : bm.testBit i = false) :
    popcount ((bm ||| 2 ^ i) % 2 ^ j)
      = popcount (bm % 2 ^ j) + (if i < j then 1 else 0) := by
  rw [popcount_mod_sum, popcount_mod_sum]
  have hpt : ∀ p, (bm ||| 2 ^ i) / 2 ^ p % 2
      = bm / 2 ^ p % 2 + (if p = i then 1 else 0) := by
    intro p
    rw [bitVal, bitVal, lor_two_pow_testBit]
    by_cases hp : p = i
    · subst hp; rw [h]; simp
    · simp [hp]
  rw [Finset.sum_congr rfl (fun p _ => hpt p), Finset.sum_add_distrib,
    Finset.sum_ite_eq' (Finset.range j) i (fun _ => 1)]
  simp only [Finset.mem_range]

theorem popcount_lor_two_pow {bm i : Nat} (h : bm.testBit i = false) :
    popcount (bm ||| 2 ^ i) = popcount bm + 1 := by
  have hj : i < bm + i + 1 := by omega
  have h1 : bm ||| 2 ^ i < 2 ^ (bm + i + 1) := by
    have hb : bm < 2 ^ (bm + i + 1) := lt_two_pow_of_le (by omega)
    have hi : 2 ^ i < 2 ^ (bm + i + 1) := Nat.pow_lt_pow_right (by omega) (by omega)
    exact Nat.or_lt_two_pow hb hi
  have h2 : (bm ||| 2 ^ i) % 2 ^ (bm + i + 1) = bm ||| 2 ^ i := Nat.mod_eq_of_lt h1
  have h3 : bm % 2 ^ (bm + i + 1) = bm := Nat.mod_eq_of_lt (lt_two_pow_of_le (by omega))
  have := @popcount_mod_lor_two_pow bm i (bm + i + 1) h
  rw [h2, h3, if_pos hj] at this
  exact this

theorem popcount_mod_xor_two_pow {bm i : Nat} (j : Nat) (h : bm.testBit i = true) :
    popcount (bm % 2 ^ j)
      = popcount ((bm ^^^ 2 ^ i) % 2 ^ j) + (if i < j then 1 else 0) := by
  rw [popcount_mod_sum, popcount_mod_sum]
  have hpt : ∀ p, bm / 2 ^ p % 2
      = (bm ^^^ 2 ^ i) / 2 ^ p % 2 + (if p = i then 1 else 0) := by
    intro p
    rw [bitVal, bitVal, xor_two_pow_testBit]
    by_cases hp : p = i
    · subst hp; rw [h]; simp
    · simp [hp]
  rw [Finset.sum_congr rfl (fun p _ => hpt p), Finset.sum_add_distrib,
    Finset.sum_ite_eq' (Finset.range j) i (fun _ => 1)]
  simp only [Finset.mem_range]

theorem popcount_xor_two_pow {bm i : Nat} (h : bm.testBit i = true) :
    popcount bm = popcount (bm ^^^ 2 ^ i) + 1 := by
  have h1 : bm ^^^ 2 ^ i < 2 ^ (bm + i + 1) := by
    have hb : bm < 2 ^ (bm + i + 1) := lt_two_pow_of_le (by omega)
    have hi : 2 ^ i < 2 ^ (bm + i + 1) := Nat.pow_lt_pow_right (by omega) (by omega)
    exact Nat.xor_lt_two_pow hb hi
  have h2 : (bm ^^^ 2 ^ i) % 2 ^ (bm + i + 1) = bm ^^^ 2 ^ i := Nat.mod_eq_of_lt h1
  have h3 : bm % 2 ^ (bm + i + 1) = bm := Nat.mod_eq_of_lt (lt_two_pow_of_le (by omega))
  have := @popcount_mod_xor_two_pow bm i (bm + i + 1) h
  rw [h2, h3, if_pos (show i < bm + i + 1 by omega)] at this
  exact this

/-- The window of a hash at a level: `(hash >> level) & ((1 << w) - 1)`. -/
def window (hash level w : Nat) : Nat := (hash >>> level) % 2 ^ w

theorem window_lt (hash level w : Nat) : window hash level w < 2 ^ w :=
  Nat.mod_lt _ (Nat.pos_pow_of_pos w (by omega))

theorem flagpos_eq (bm hash level w : Nat) :
    flagpos bm hash level w
      = (2 ^ window hash level w, popcount (bm % 2 ^ window hash level w)) := by
  show (1 <<< ((hash >>> level) &&& ((1 <<< w) - 1)),
      popcount ((1 <<< ((hash >>> level) &&& ((1 <<< w) - 1)) - 1) &&& bm)) = _
  rw [Nat.one_shiftLeft w, Nat.and_pow_two_sub_one_eq_mod, Nat.one_shiftLeft,
    Nat.and_comm, Nat.and_pow_two_sub_one_eq_mod]
  rfl

end Ripl

namespace Ripl

/-! ### HAMT invariants and abstract membership -/

variable {K V : Type}

/-- All keys stored under a branch satisfy `P`. -/
inductive AllKeysB (P : K → Prop) : Branch K V → Prop where
  | s : ∀ h k v, P k → AllKeysB P (.S h k v)
  | c : ∀ bm brs, (∀ b ∈ brs, AllKeysB P b) → AllKeysB P (.C bm brs)
  | m : ∀ w2 hf2 sup2 bm brs, (∀ b ∈ brs, AllKeysB P b) → AllKeysB P (.M w2 hf2 sup2 bm brs)

/-- The key-value pair is stored under the branch. -/
inductive MemB : Branch K V → K → V → Prop where
  | s : ∀ h k v, MemB (.S h k v) k v
  | c : ∀ bm brs b k v, b ∈ brs → MemB b k v → MemB (.C bm brs) k v
  | m : ∀ w2 hf2 sup2 bm brs b k v, b ∈ brs → MemB b k v → MemB (.M w2 hf2 sup2 bm brs) k v

/-- The key-value pair is stored under some branch of a `CNode`. -/
def MemCN (brs : List (Branch K V)) (k : K) (v : V) : Prop :=
  ∃ q, ∃ _ : q < brs.length, MemB brs[q] k v

/-- The positional condition `flagpos` relies on: every key below branch `p`
of a `CNode` with bitmap `bm` at `level` has its window bit set in `bm`, and
the population count below that bit is exactly `p`. -/
def slotPred (hf : K → Nat) (bm level w p : Nat) (k : K) : Prop :=
  bm.testBit (window (hf k) level w) = true
  ∧ popcount (bm % 2 ^ window (hf k) level w) = p

/-- Well-formedness of a branch at a level: stored hashes are the hash of
their key, bitmaps count the branch lists (C10), branches hold exactly the
keys `flagpos` routes to them, and nested maps are well-formed for their own
hasher from level 0. -/
inductive WfB : (K → Nat) → Branch K V → Nat → Nat → Prop where
  | s : ∀ (hf : K → Nat) h k v level w, h = hf k → WfB hf (.S h k v) level w
  | c : ∀ (hf : K → Nat) bm brs level w,
      popcount bm = brs.length →
      (∀ p (hp : p < brs.length), WfB hf brs[p] (level + w) w) →
      (∀ p (hp : p < brs.length), AllKeysB (slotPred hf bm level w p) brs[p]) →
      WfB hf (.C bm brs) level w
  | m : ∀ (hf : K → Nat) w2 hf2 sup2 bm brs level w,
      WfB hf2 (.C bm brs) 0 w2 →
      WfB hf (.M w2 hf2 sup2 bm brs) level w

theorem allKeysB_mono {P Q : K → Prop} (h : ∀ k, P k → Q k) :
    ∀ {b : Branch K V}, AllKeysB P b → AllKeysB Q b := by
  intro b hall
  induction hall with
  | s hh k v hP => exact AllKeysB.s hh k v (h k hP)
  | c bm brs _ ih => exact AllKeysB.c bm brs ih
  | m w2 hf2 sup2 bm brs _ ih => exact AllKeysB.m w2 hf2 sup2 bm brs ih

theorem mem_of_allKeys {P : K → Prop} {b : Branch K V} {k : K} {v : V}
    (hm : MemB b k v) (hall : AllKeysB P b) : P k := by
  induction hm with
  | s hh k v => cases hall with | s _ _ _ hP => exact hP
  | c bm brs b k v hb _ ih =>
    cases hall with | c _ _ hall2 => exact ih (hall2 b hb)
  | m w2 hf2 sup2 bm brs b k v hb _ ih =>
    cases hall with | m _ _ _ _ _ hall2 => exact ih (hall2 b hb)

theorem memB_s_iff {h : Nat} {k k2 : K} {v v2 : V} :
    MemB (Branch.S h k v) k2 v2 ↔ k2 = k ∧ v2 = v := by
  constructor
  · intro hm; cases hm; exact ⟨rfl, rfl⟩
  · rintro ⟨rfl, rfl⟩; exact MemB.s h k2 v2

theorem memB_c_iff {bm : Nat} {brs : List (Branch K V)} {k : K} {v : V} :
    MemB (Branch.C bm brs) k v ↔ MemCN brs k v := by
  constructor
  · intro hm
    cases hm with
    | c _ _ b _ _ hb hm2 =>
      obtain ⟨q, hq, hbe⟩ := List.mem_iff_getElem.mp hb
      exact ⟨q, hq, hbe ▸ hm2⟩
  · rintro ⟨q, hq, hm2⟩
    exact MemB.c bm brs brs[q] k v (List.getElem_mem hq) hm2

theorem memB_m_iff {w2 : Nat} {hf2 : K → Nat} {sup2 : Nat → K → Nat}
    {bm : Nat} {brs : List (Branch K V)} {k : K} {v : V} :
    MemB (Branch.M w2 hf2 sup2 bm brs) k v ↔ MemCN brs k v := by
  constructor
  · intro hm
    cases hm with
    | m _ _ _ _ _ b _ _ hb hm2 =>
      obtain ⟨q, hq, hbe⟩ := List.mem_iff_getElem.mp hb
      exact ⟨q, hq, hbe ▸ hm2⟩
  · rintro ⟨q, hq, hm2⟩
    exact MemB.m w2 hf2 sup2 bm brs brs[q] k v (List.getElem_mem hq) hm2

/-- Membership routes through the slot `flagpos` computes for the key. -/
theorem memCN_slot {hf : K → Nat} {bm : Nat} {brs : List (Branch K V)}
    {level w : Nat} (hwf : WfB hf (.C bm brs) level w)
    {q : Nat} (hq : q < brs.length) {key : K} {v : V} (hm : MemB brs[q] key v) :
    bm.testBit (window (hf key) level w) = true
    ∧ popcount (bm % 2 ^ window (hf key) level w) = q := by
  cases hwf with
  | c _ _ _ _ _ hlen hkids hslots =>
    exact mem_of_allKeys (P := slotPred hf bm level w q) hm (hslots q hq)

theorem popcount_mod_le_self (bm i : Nat) : popcount (bm % 2 ^ i) ≤ popcount bm := by
  rw [popcount_mod_sum, popcount_eq_sum (bm + i) bm (lt_two_pow_of_le (by omega))]
  exact Finset.sum_le_sum_of_subset (Finset.range_subset.mpr (by omega))

theorem pc_lt_index {bm i1 i2 : Nat}
    (h : popcount (bm % 2 ^ i1) < popcount (bm % 2 ^ i2)) : i1 < i2 := by
  by_contra hc
  exact absurd (popcount_mod_le bm (Nat.le_of_not_lt hc)) (Nat.not_le_of_lt h)

theorem pc_strict_of_testBit {bm i1 i2 : Nat}
    (hb : bm.testBit i1 = true) (hlt : i1 < i2) :
    popcount (bm % 2 ^ i1) < popcount (bm % 2 ^ i2) := by
  have h1 := popcount_mod_succ bm i1
  rw [hb, if_pos rfl] at h1
  have h2 : popcount (bm % 2 ^ (i1 + 1)) ≤ popcount (bm % 2 ^ i2) :=
    popcount_mod_le bm hlt
  omega

theorem getElem_idx_congr {α : Type} {l : List α} {i j : Nat} (h : i = j)
    (hi : i < l.length) {hj : j < l.length} : l[i] = l[j] := by
  subst h; rfl

theorem memCN_set_iff {brs : List (Branch K V)} {pos : Nat}
    (hpos : pos < brs.length) (x : Branch K V) {k : K} {v : V} :
    MemCN (brs.set pos x) k v
      ↔ (MemB x k v ∨ ∃ q, ∃ _ : q < brs.length, q ≠ pos ∧ MemB brs[q] k v) := by
  constructor
  · rintro ⟨q, hq, hm⟩
    rw [List.length_set] at hq
    rw [List.getElem_set] at hm
    by_cases hqp : pos = q
    · rw [if_pos hqp] at hm; exact Or.inl hm
    · rw [if_neg hqp] at hm
      exact Or.inr ⟨q, hq, fun he => hqp he.symm, hm⟩
  · rintro (hm | ⟨q, hq, hne, hm⟩)
    · refine ⟨pos, by rw [List.length_set]; exact hpos, ?_⟩
      rw [List.getElem_set, if_pos rfl]; exact hm
    · refine ⟨q, by rw [List.length_set]; exact hq, ?_⟩
      rw [List.getElem_set, if_neg (fun he => hne he.symm)]; exact hm

theorem memCN_insertIdx_iff {brs : List (Branch K V)} {pos : Nat}
    (hpos : pos ≤ brs.length) (x : Branch K V) {k : K} {v : V} :
    MemCN (brs.insertIdx pos x) k v ↔ (MemB x k v ∨ MemCN brs k v) := by
  constructor
  · rintro ⟨q, hq, hm⟩
    rw [List.length_insertIdx pos brs hpos] at hq
    rcases Nat.lt_trichotomy q pos with hlt | heq | hgt
    · rw [List.getElem_insertIdx_of_lt brs x pos q hlt (by omega)] at hm
      exact Or.inr ⟨q, by omega, hm⟩
    · subst heq
      rw [List.getElem_insertIdx_self brs x q hpos] at hm
      exact Or.inl hm
    · have hq' : pos + (q - pos - 1) < brs.length := by omega
      have he : q = pos + (q - pos - 1) + 1 := by omega
      have hm2 : MemB brs[pos + (q - pos - 1)] k v := by
        rw [← List.getElem_insertIdx_add_succ brs x pos (q - pos - 1) hq',
          ← getElem_idx_congr he]
        exact hm
      exact Or.inr ⟨pos + (q - pos - 1), hq', hm2⟩
  · rintro (hm | ⟨q, hq, hm⟩)
    · refine ⟨pos, by rw [List.length_insertIdx pos brs hpos]; omega, ?_⟩
      rw [List.getElem_insertIdx_self brs x pos hpos]; exact hm
    · by_cases hqp : q < pos
      · refine ⟨q, by rw [List.length_insertIdx pos brs hpos]; omega, ?_⟩
        rw [List.getElem_insertIdx_of_lt brs x pos q hqp (by omega)]; exact hm
      · refine ⟨q + 1, by rw [List.length_insertIdx pos brs hpos]; omega, ?_⟩
        have he : q + 1 = pos + (q - pos) + 1 := by omega
        have hq' : pos + (q - pos) < brs.length := by omega
        rw [getElem_idx_congr he,
          List.getElem_insertIdx_add_succ brs x pos (q - pos) hq',
          getElem_idx_congr (show pos + (q - pos) = q by omega)]
        exact hm

end Ripl

namespace Ripl

variable {K V : Type}

theorem memCN_eraseIdx_iff {brs : List (Branch K V)} {pos : Nat}
    (hpos : pos < brs.length) {k : K} {v : V} :
    MemCN (brs.eraseIdx pos) k v
      ↔ ∃ q, ∃ _ : q < brs.length, q ≠ pos ∧ MemB brs[q] k v := by
  have hlen : (brs.eraseIdx pos).length = brs.length - 1 :=
    List.length_eraseIdx_of_lt hpos
  constructor
  · rintro ⟨q, hq, hm⟩
    by_cases hqp : q < pos
    · rw [List.getElem_eraseIdx_of_lt brs pos q hq hqp] at hm
      exact ⟨q, by omega, by omega, hm⟩
    · rw [List.getElem_eraseIdx_of_ge brs pos q hq (by omega)] at hm
      exact ⟨q + 1, by omega, by omega, hm⟩
  · rintro ⟨q, hq, hne, hm⟩
    by_cases hqp : q < pos
    · refine ⟨q, by omega, ?_⟩
      rw [List.getElem_eraseIdx_of_lt brs pos q (by omega) hqp]
      exact hm
    · refine ⟨q - 1, by omega, ?_⟩
      rw [List.getElem_eraseIdx_of_ge brs pos (q - 1) (by omega) (by omega),
        getElem_idx_congr (show q - 1 + 1 = q by omega)]
      exact hm

theorem memB_unique {hf : K → Nat} {b : Branch K V} {level w : Nat}
    {k : K} {v v' : V} (hwf : WfB hf b level w)
    (h1 : MemB b k v) (h2 : MemB b k v') : v = v' := by
  induction hwf with
  | s hf h k0 v0 level w he =>
    obtain ⟨rfl, rfl⟩ := memB_s_iff.mp h1
    obtain ⟨_, rfl⟩ := memB_s_iff.mp h2
    rfl
  | c hf bm brs level w hlen hkids hslots ih =>
    obtain ⟨q1, hq1, hm1⟩ := memB_c_iff.mp h1
    obtain ⟨q2, hq2, hm2⟩ := memB_c_iff.mp h2
    have hwfc : WfB hf (.C bm brs) level w := WfB.c hf bm brs level w hlen hkids hslots
    have hs1 := (memCN_slot hwfc hq1 hm1).2
    have hs2 := (memCN_slot hwfc hq2 hm2).2
    have heq : q1 = q2 := by rw [← hs1, ← hs2]
    subst heq
    exact ih q1 hq1 hm1 hm2
  | m hf w2 hf2 sup2 bm brs level w hin ih =>
    exact ih (memB_c_iff.mpr (memB_m_iff.mp h1)) (memB_c_iff.mpr (memB_m_iff.mp h2))

theorem memCN_unique {hf : K → Nat} {bm : Nat} {brs : List (Branch K V)}
    {level w : Nat} {k : K} {v v' : V} (hwf : WfB hf (.C bm brs) level w)
    (h1 : MemCN brs k v) (h2 : MemCN brs k v') : v = v' :=
  memB_unique hwf (memB_c_iff.mpr h1) (memB_c_iff.mpr h2)

theorem getF_sound [DecidableEq K] :
    ∀ fuel (hf : K → Nat) (bm : Nat) (brs : List (Branch K V)) (level w : Nat)
      (key : K) (res : Option V),
      WfB hf (.C bm brs) level w →
      getF fuel bm brs (hf key) key level w = some res →
      (res = none ∧ ∀ v, ¬ MemCN brs key v)
      ∨ (∃ v, res = some v ∧ MemCN brs key v) := by
  intro fuel
  induction fuel with
  | zero =>
    intro hf bm brs level w key res _ hrun
    exact absurd hrun (by simp [getF])
  | succ fuel ih =>
    intro hf bm brs level w key res hwf hrun
    have hwfc := hwf
    cases hwfc with
    | c _ _ _ _ _ hlen hkids hslots =>
    simp only [getF, flagpos_eq] at hrun
    by_cases hvac : bm &&& 2 ^ window (hf key) level w = 0
    · rw [if_pos hvac] at hrun
      refine Or.inl ⟨(Option.some.inj hrun).symm, ?_⟩
      rintro v ⟨q, hq, hm⟩
      have hslot := memCN_slot hwf hq hm
      have hb : bm.testBit (window (hf key) level w) = false :=
        (and_two_pow_eq_zero_iff bm _).mp hvac
      rw [hslot.1] at hb
      cases hb
    · rw [if_neg hvac] at hrun
      have hbit : bm.testBit (window (hf key) level w) = true := by
        cases hb : bm.testBit (window (hf key) level w)
        · exact absurd ((and_two_pow_eq_zero_iff bm _).mpr hb) hvac
        · rfl
      have hpos : popcount (bm % 2 ^ window (hf key) level w) < brs.length :=
        hlen ▸ popcount_mod_lt hbit
      rw [List.get?_eq_getElem?, List.getElem?_eq_getElem hpos] at hrun
      have hmem_slot : ∀ v, MemCN brs key v →
          MemB brs[popcount (bm % 2 ^ window (hf key) level w)] key v := by
        rintro v ⟨q, hq, hm⟩
        have hs := (memCN_slot hwf hq hm).2
        have heq : q = popcount (bm % 2 ^ window (hf key) level w) := hs.symm
        subst heq
        exact hm
      cases hbr : brs[popcount (bm % 2 ^ window (hf key) level w)] with
      | S h2 k2 v2 =>
        rw [hbr] at hrun
        simp only [] at hrun
        by_cases hk : k2 = key
        · rw [if_pos hk] at hrun
          subst hk
          refine Or.inr ⟨v2, (Option.some.inj hrun).symm, ?_⟩
          exact ⟨_, hpos, hbr ▸ MemB.s h2 k2 v2⟩
        · rw [if_neg hk] at hrun
          refine Or.inl ⟨(Option.some.inj hrun).symm, ?_⟩
          intro v hm
          have := hmem_slot v hm
          rw [hbr] at this
          exact hk (memB_s_iff.mp this).1.symm
      | C bm2 brs2 =>
        rw [hbr] at hrun
        simp only [] at hrun
        have hkid := hkids _ hpos
        rw [hbr] at hkid
        have hiff : ∀ v, MemCN brs key v ↔ MemCN brs2 key v := by
          intro v
          constructor
          · intro hm
            have := hmem_slot v hm
            rw [hbr] at this
            exact memB_c_iff.mp this
          · intro hm
            exact ⟨_, hpos, hbr ▸ memB_c_iff.mpr hm⟩
        rcases ih hf bm2 brs2 (level + w) w key res hkid hrun with ⟨hres, hnone⟩ | ⟨v, hres, hm⟩
        · exact Or.inl ⟨hres, fun v hm => hnone v ((hiff v).mp hm)⟩
        · exact Or.inr ⟨v, hres, (hiff v).mpr hm⟩
      | M w2 hf2 sup2 bm2 brs2 =>
        rw [hbr] at hrun
        simp only [] at hrun
        have hkid := hkids _ hpos
        rw [hbr] at hkid
        have hin : WfB hf2 (Branch.C bm2 brs2 : Branch K V) 0 w2 := by
          cases hkid with
          | m _ _ _ _ _ _ _ _ h => exact h
        have hiff : ∀ v, MemCN brs key v ↔ MemCN brs2 key v := by
          intro v
          constructor
          · intro hm
            have := hmem_slot v hm
            rw [hbr] at this
            exact memB_m_iff.mp this
          · intro hm
            exact ⟨_, hpos, hbr ▸ memB_m_iff.mpr hm⟩
        rcases ih hf2 bm2 brs2 0 w2 key res hin hrun with ⟨hres, hnone⟩ | ⟨v, hres, hm⟩
        · exact Or.inl ⟨hres, fun v hm => hnone v ((hiff v).mp hm)⟩
        · exact Or.inr ⟨v, hres, (hiff v).mpr hm⟩

end Ripl

namespace Ripl

variable {K V : Type}

/-- Replacing the branch in a slot with a well-formed branch holding keys of
the same slot preserves well-formedness. -/
theorem wf_set {hf : K → Nat} {level w bm : Nat} {brs : List (Branch K V)}
    {pos : Nat} (hwf : WfB hf (.C bm brs) level w) (hpos : pos < brs.length)
    {x : Branch K V} (hx_wf : WfB hf x (level + w) w)
    (hx_keys : AllKeysB (slotPred hf bm level w pos) x) :
    WfB hf (.C bm (brs.set pos x)) level w := by
  cases hwf with
  | c _ _ _ _ _ hlen hkids hslots =>
  refine WfB.c hf bm (brs.set pos x) level w ?_ ?_ ?_
  · rw [List.length_set]; exact hlen
  · intro r hr
    rw [List.length_set] at hr
    rw [List.getElem_set]
    by_cases hrp : pos = r
    · rw [if_pos hrp]; exact hx_wf
    · rw [if_neg hrp]; exact hkids r hr
  · intro r hr
    rw [List.length_set] at hr
    rw [List.getElem_set]
    by_cases hrp : pos = r
    · rw [if_pos hrp]; exact hrp ▸ hx_keys
    · rw [if_neg hrp]; exact hslots r hr

/-- Inserting a fresh store into a vacant slot preserves well-formedness:
the new bitmap gains the key's window bit and every other slot keeps its
`flagpos` position. -/
theorem wf_insert_vacancy {hf : K → Nat} {level w bm : Nat}
    {brs : List (Branch K V)} {key : K} {val : V}
    (hwf : WfB hf (.C bm brs) level w)
    (hvac : bm.testBit (window (hf key) level w) = false) :
    WfB hf (.C (bm ||| 2 ^ window (hf key) level w)
      (brs.insertIdx (popcount (bm % 2 ^ window (hf key) level w))
        (.S (hf key) key val))) level w := by
  cases hwf with
  | c _ _ _ _ _ hlen hkids hslots =>
  have hpos_le : popcount (bm % 2 ^ window (hf key) level w) ≤ brs.length :=
    hlen ▸ popcount_mod_le_self bm _
  refine WfB.c hf _ _ level w ?_ ?_ ?_
  · rw [popcount_lor_two_pow hvac,
      List.length_insertIdx _ _ hpos_le, hlen]
  · intro r hr
    rw [List.length_insertIdx _ _ hpos_le] at hr
    rcases Nat.lt_trichotomy r (popcount (bm % 2 ^ window (hf key) level w))
      with hlt | heq | hgt
    · rw [List.getElem_insertIdx_of_lt brs _ _ r hlt (by omega)]
      exact hkids r (by omega)
    · subst heq
      rw [List.getElem_insertIdx_self brs _ _ hpos_le]
      exact WfB.s hf (hf key) key val (level + w) w rfl
    · have hk' : popcount (bm % 2 ^ window (hf key) level w)
          + (r - popcount (bm % 2 ^ window (hf key) level w) - 1) < brs.length := by
        omega
      rw [getElem_idx_congr
        (show r = popcount (bm % 2 ^ window (hf key) level w)
          + (r - popcount (bm % 2 ^ window (hf key) level w) - 1) + 1 by omega),
        List.getElem_insertIdx_add_succ brs _ _ _ hk']
      exact hkids _ hk'
  · intro r hr
    rw [List.length_insertIdx _ _ hpos_le] at hr
    rcases Nat.lt_trichotomy r (popcount (bm % 2 ^ window (hf key) level w))
      with hlt | heq | hgt
    · rw [List.getElem_insertIdx_of_lt brs _ _ r hlt (by omega)]
      refine allKeysB_mono (fun k' hk' => ?_) (hslots r (by omega))
      obtain ⟨hb', hp'⟩ := hk'
      have hio : window (hf k') level w < window (hf key) level w :=
        pc_lt_index (by rw [hp']; omega)
      refine ⟨?_, ?_⟩
      · rw [lor_two_pow_testBit, hb', Bool.true_or]
      · rw [popcount_mod_lor_two_pow _ hvac, if_neg (by omega), hp']
        omega
    · subst heq
      rw [List.getElem_insertIdx_self brs _ _ hpos_le]
      refine AllKeysB.s _ _ _ ⟨?_, ?_⟩
      · rw [lor_two_pow_testBit]
        simp
      · rw [popcount_mod_lor_two_pow _ hvac, if_neg (by omega)]
        omega
    · have hk' : popcount (bm % 2 ^ window (hf key) level w)
          + (r - popcount (bm % 2 ^ window (hf key) level w) - 1) < brs.length := by
        omega
      rw [getElem_idx_congr
        (show r = popcount (bm % 2 ^ window (hf key) level w)
          + (r - popcount (bm % 2 ^ window (hf key) level w) - 1) + 1 by omega),
        List.getElem_insertIdx_add_succ brs _ _ _ hk']
      refine allKeysB_mono (fun k' hk2 => ?_) (hslots _ hk')
      obtain ⟨hb', hp'⟩ := hk2
      have hne : window (hf k') level w ≠ window (hf key) level w := by
        intro he
        rw [he, hvac] at hb'
        cases hb'
      have hio : window (hf key) level w < window (hf k') level w := by
        by_contra hc
        have hlt2 : window (hf k') level w < window (hf key) level w := by omega
        have := pc_strict_of_testBit hb' hlt2
        omega
      refine ⟨?_, ?_⟩
      · rw [lor_two_pow_testBit, hb', Bool.true_or]
      · rw [popcount_mod_lor_two_pow _ hvac, if_pos hio, hp']
        omega

/-- Erasing the slot of a key's window (and clearing its bit) preserves
well-formedness. -/
theorem wf_remove_erase {hf : K → Nat} {level w bm : Nat}
    {brs : List (Branch K V)} {key : K}
    (hwf : WfB hf (.C bm brs) level w)
    (hbit : bm.testBit (window (hf key) level w) = true) :
    WfB hf (.C (bm ^^^ 2 ^ window (hf key) level w)
      (brs.eraseIdx (popcount (bm % 2 ^ window (hf key) level w)))) level w := by
  cases hwf with
  | c _ _ _ _ _ hlen hkids hslots =>
  have hpos : popcount (bm % 2 ^ window (hf key) level w) < brs.length :=
    hlen ▸ popcount_mod_lt hbit
  have hxor := popcount_xor_two_pow hbit
  refine WfB.c hf _ _ level w ?_ ?_ ?_
  · rw [List.length_eraseIdx_of_lt hpos]
    omega
  · intro r hr
    rw [List.length_eraseIdx_of_lt hpos] at hr
    by_cases hrp : r < popcount (bm % 2 ^ window (hf key) level w)
    · rw [List.getElem_eraseIdx_of_lt brs _ r (by rw [List.length_eraseIdx_of_lt hpos]; omega) hrp]
      exact hkids r (by omega)
    · rw [List.getElem_eraseIdx_of_ge brs _ r (by rw [List.length_eraseIdx_of_lt hpos]; omega) (by omega)]
      exact hkids (r + 1) (by omega)
  · intro r hr
    rw [List.length_eraseIdx_of_lt hpos] at hr
    by_cases hrp : r < popcount (bm % 2 ^ window (hf key) level w)
    · rw [List.getElem_eraseIdx_of_lt brs _ r (by rw [List.length_eraseIdx_of_lt hpos]; omega) hrp]
      refine allKeysB_mono (fun k' hk' => ?_) (hslots r (by omega))
      obtain ⟨hb', hp'⟩ := hk'
      have hio : window (hf k') level w < window (hf key) level w :=
        pc_lt_index (by rw [hp']; omega)
      refine ⟨?_, ?_⟩
      · rw [xor_two_pow_testBit, if_neg (by omega), hb']
      · have := @popcount_mod_xor_two_pow bm (window (hf key) level w)
          (window (hf k') level w) hbit
        rw [if_neg (by omega)] at this
        omega
    · rw [List.getElem_eraseIdx_of_ge brs _ r (by rw [List.length_eraseIdx_of_lt hpos]; omega) (by omega)]
      refine allKeysB_mono (fun k' hk' => ?_) (hslots (r + 1) (by omega))
      obtain ⟨hb', hp'⟩ := hk'
      have hio : window (hf key) level w < window (hf k') level w :=
        pc_lt_index (by rw [hp']; omega)
      refine ⟨?_, ?_⟩
      · rw [xor_two_pow_testBit, if_neg (by omega), hb']
      · have := @popcount_mod_xor_two_pow bm (window (hf key) level w)
          (window (hf k') level w) hbit
        rw [if_pos hio] at this
        omega

end Ripl

namespace Ripl

variable {K V : Type}

theorem removeF_sound [DecidableEq K] :
    ∀ fuel (hf : K → Nat) (bm : Nat) (brs : List (Branch K V)) (level w : Nat)
      (key : K) (old : Option V) (bm2 : Nat) (brs2 : List (Branch K V)),
      WfB hf (.C bm brs) level w →
      removeF fuel bm brs (hf key) key level w = some (old, bm2, brs2) →
      WfB hf (.C bm2 brs2) level w
      ∧ (∀ P : K → Prop, (∀ b ∈ brs, AllKeysB P b) → ∀ b ∈ brs2, AllKeysB P b)
      ∧ (∀ k2 v2, MemCN brs2 k2 v2 ↔ (k2 ≠ key ∧ MemCN brs k2 v2))
      ∧ (∀ v, old = some v ↔ MemCN brs key v) := by
  intro fuel
  induction fuel with
  | zero =>
    intro hf bm brs level w key old bm2 brs2 _ hrun
    exact absurd hrun (by simp [removeF])
  | succ fuel ih =>
    intro hf bm brs level w key old bm2 brs2 hwf hrun
    have hwfc := hwf
    cases hwfc with
    | c _ _ _ _ _ hlen hkids hslots =>
    simp only [removeF, flagpos_eq] at hrun
    by_cases hvac : bm &&& 2 ^ window (hf key) level w = 0
    · rw [if_pos hvac] at hrun
      have h := Option.some.inj hrun
      simp only [Prod.mk.injEq] at h
      obtain ⟨rfl, rfl, rfl⟩ := h
      have hnokey : ∀ v, ¬ MemCN brs key v := by
        rintro v ⟨q, hq, hm⟩
        have hb : bm.testBit (window (hf key) level w) = false :=
          (and_two_pow_eq_zero_iff bm _).mp hvac
        rw [(memCN_slot hwf hq hm).1] at hb
        cases hb
      refine ⟨hwf, fun P hP => hP, fun k2 v2 => ?_, fun v => ?_⟩
      · constructor
        · intro hm
          refine ⟨fun he => ?_, hm⟩
          subst he
          exact hnokey v2 hm
        · exact fun h => h.2
      · constructor
        · intro h; cases h
        · intro hm; exact absurd hm (hnokey v)
    · rw [if_neg hvac] at hrun
      have hbit : bm.testBit (window (hf key) level w) = true := by
        cases hb : bm.testBit (window (hf key) level w)
        · exact absurd ((and_two_pow_eq_zero_iff bm _).mpr hb) hvac
        · rfl
      have hpos : popcount (bm % 2 ^ window (hf key) level w) < brs.length :=
        hlen ▸ popcount_mod_lt hbit
      rw [List.get?_eq_getElem?, List.getElem?_eq_getElem hpos] at hrun
      have hmem_slot : ∀ v, MemCN brs key v →
          MemB brs[popcount (bm % 2 ^ window (hf key) level w)] key v := by
        rintro v ⟨q, hq, hm⟩
        have hs := (memCN_slot hwf hq hm).2
        have heq : q = popcount (bm % 2 ^ window (hf key) level w) := hs.symm
        subst heq
        exact hm
      have hslotmem : brs[popcount (bm % 2 ^ window (hf key) level w)] ∈ brs :=
        List.getElem_mem hpos
      cases hbr : brs[popcount (bm % 2 ^ window (hf key) level w)] with
      | S h2 k2 v2 =>
        rw [hbr] at hrun
        simp only [] at hrun
        by_cases hk : k2 ≠ key
        · rw [if_pos hk] at hrun
          have h := Option.some.inj hrun
          simp only [Prod.mk.injEq] at h
          obtain ⟨rfl, rfl, rfl⟩ := h
          have hnokey : ∀ v, ¬ MemCN brs key v := by
            intro v hm
            have := hmem_slot v hm
            rw [hbr] at this
            exact hk (memB_s_iff.mp this).1.symm
          refine ⟨hwf, fun P hP => hP, fun k2' v2' => ?_, fun v => ?_⟩
          · constructor
            · intro hm
              refine ⟨fun he => ?_, hm⟩
              subst he
              exact hnokey v2' hm
            · exact fun h => h.2
          · constructor
            · intro h; cases h
            · intro hm; exact absurd hm (hnokey v)
        · rw [if_neg hk] at hrun
          have hkey : k2 = key := by
            by_contra hc
            exact hk hc
          subst hkey
          have h := Option.some.inj hrun
          simp only [Prod.mk.injEq] at h
          obtain ⟨rfl, rfl, rfl⟩ := h
          refine ⟨wf_remove_erase hwf hbit, ?_, fun k2' v2' => ?_, fun v => ?_⟩
          · intro P hP b hb
            exact hP b (List.mem_of_mem_eraseIdx hb)
          · rw [memCN_eraseIdx_iff hpos]
            constructor
            · rintro ⟨q, hq, hne, hm⟩
              refine ⟨fun he => ?_, q, hq, hm⟩
              subst he
              exact hne ((memCN_slot hwf hq hm).2).symm
            · rintro ⟨hne, q, hq, hm⟩
              refine ⟨q, hq, fun he => ?_, hm⟩
              subst he
              rw [hbr] at hm
              exact hne (memB_s_iff.mp hm).1
          · constructor
            · intro h
              have hv : v = v2 := (Option.some.inj h).symm
              subst hv
              exact ⟨_, hpos, hbr ▸ MemB.s h2 k2 v⟩
            · intro hm
              have := hmem_slot v hm
              rw [hbr] at this
              rw [(memB_s_iff.mp this).2]
      | C bmI brsI =>
        rw [hbr] at hrun
        simp only [] at hrun
        have hkid := hkids _ hpos
        rw [hbr] at hkid
        cases hrec : removeF fuel bmI brsI (hf key) key (level + w) w with
        | none => rw [hrec] at hrun; cases hrun
        | some r =>
          obtain ⟨oldI, bmI2, brsI2⟩ := r
          rw [hrec] at hrun
          simp only [] at hrun
          have h := Option.some.inj hrun
          simp only [Prod.mk.injEq] at h
          obtain ⟨rfl, rfl, rfl⟩ := h
          obtain ⟨ihA, ihB, ihC, ihD⟩ :=
            ih hf bmI brsI (level + w) w key oldI bmI2 brsI2 hkid hrec
          have hslotP := hslots _ hpos
          rw [hbr] at hslotP
          have hallI : ∀ b ∈ brsI, AllKeysB
              (slotPred hf bm level w (popcount (bm % 2 ^ window (hf key) level w))) b := by
            cases hslotP with
            | c _ _ h => exact h
          have hallI2 := ihB _ hallI
          have hiff : ∀ k' v', MemB (Branch.C bmI2 brsI2 : Branch K V) k' v'
              ↔ (k' ≠ key ∧ MemB (Branch.C bmI brsI : Branch K V) k' v') := by
            intro k' v'
            rw [memB_c_iff, memB_c_iff, ihC]
          refine ⟨wf_set hwf hpos (WfB.c hf bmI2 brsI2 (level + w) w
              (by cases ihA with | c _ _ _ _ _ a b c => exact a)
              (by cases ihA with | c _ _ _ _ _ a b c => exact b)
              (by cases ihA with | c _ _ _ _ _ a b c => exact c))
            (AllKeysB.c bmI2 brsI2 hallI2), ?_, fun k2' v2' => ?_, fun v => ?_⟩
          · intro P hP b hb
            rcases List.mem_or_eq_of_mem_set hb with hb2 | rfl
            · exact hP b hb2
            · have := hP _ hslotmem
              rw [hbr] at this
              have hPI : ∀ b ∈ brsI, AllKeysB P b := by
                cases this with
                | c _ _ h => exact h
              exact AllKeysB.c bmI2 brsI2 (ihB P hPI)
          · rw [memCN_set_iff hpos]
            constructor
            · rintro (hm | ⟨q, hq, hne, hm⟩)
              · obtain ⟨hne, hm2⟩ := (hiff k2' v2').mp hm
                exact ⟨hne, _, hpos, hbr ▸ hm2⟩
              · refine ⟨fun he => ?_, q, hq, hm⟩
                subst he
                exact hne ((memCN_slot hwf hq hm).2).symm
            · rintro ⟨hne, q, hq, hm⟩
              by_cases hqp : q = popcount (bm % 2 ^ window (hf key) level w)
              · subst hqp
                rw [hbr] at hm
                exact Or.inl ((hiff k2' v2').mpr ⟨hne, hm⟩)
              · exact Or.inr ⟨q, hq, hqp, hm⟩
          · rw [ihD v]
            constructor
            · intro hm
              exact ⟨_, hpos, hbr ▸ memB_c_iff.mpr hm⟩
            · intro hm
              have := hmem_slot v hm
              rw [hbr] at this
              exact memB_c_iff.mp this
      | M w2 hf2 sup2 bmI brsI =>
        rw [hbr] at hrun
        simp only [] at hrun
        have hkid := hkids _ hpos
        rw [hbr] at hkid
        have hin : WfB hf2 (Branch.C bmI brsI : Branch K V) 0 w2 := by
          cases hkid with
          | m _ _ _ _ _ _ _ _ h => exact h
        cases hrec : removeF fuel bmI brsI (hf2 key) key 0 w2 with
        | none => rw [hrec] at hrun; cases hrun
        | some r =>
          obtain ⟨oldI, bmI2, brsI2⟩ := r
          rw [hrec] at hrun
          simp only [] at hrun
          have h := Option.some.inj hrun
          simp only [Prod.mk.injEq] at h
          obtain ⟨rfl, rfl, rfl⟩ := h
          obtain ⟨ihA, ihB, ihC, ihD⟩ :=
            ih hf2 bmI brsI 0 w2 key oldI bmI2 brsI2 hin hrec
          have hslotP := hslots _ hpos
          rw [hbr] at hslotP
          have hallI : ∀ b ∈ brsI, AllKeysB
              (slotPred hf bm level w (popcount (bm % 2 ^ window (hf key) level w))) b := by
            cases hslotP with
            | m _ _ _ _ _ h => exact h
          have hallI2 := ihB _ hallI
          have hiff : ∀ k' v', MemB (Branch.M w2 hf2 sup2 bmI2 brsI2 : Branch K V) k' v'
              ↔ (k' ≠ key ∧ MemB (Branch.M w2 hf2 sup2 bmI brsI : Branch K V) k' v') := by
            intro k' v'
            rw [memB_m_iff, memB_m_iff, ihC]
          refine ⟨wf_set hwf hpos (WfB.m hf w2 hf2 sup2 bmI2 brsI2 (level + w) w ihA)
            (AllKeysB.m w2 hf2 sup2 bmI2 brsI2 hallI2), ?_, fun k2' v2' => ?_, fun v => ?_⟩
          · intro P hP b hb
            rcases List.mem_or_eq_of_mem_set hb with hb2 | rfl
            · exact hP b hb2
            · have := hP _ hslotmem
              rw [hbr] at this
              have hPI : ∀ b ∈ brsI, AllKeysB P b := by
                cases this with
                | m _ _ _ _ _ h => exact h
              exact AllKeysB.m w2 hf2 sup2 bmI2 brsI2 (ihB P hPI)
          · rw [memCN_set_iff hpos]
            constructor
            · rintro (hm | ⟨q, hq, hne, hm⟩)
              · obtain ⟨hne, hm2⟩ := (hiff k2' v2').mp hm
                exact ⟨hne, _, hpos, hbr ▸ hm2⟩
              · refine ⟨fun he => ?_, q, hq, hm⟩
                subst he
                exact hne ((memCN_slot hwf hq hm).2).symm
            · rintro ⟨hne, q, hq, hm⟩
              by_cases hqp : q = popcount (bm % 2 ^ window (hf key) level w)
              · subst hqp
                rw [hbr] at hm
                exact Or.inl ((hiff k2' v2').mpr ⟨hne, hm⟩)
              · exact Or.inr ⟨q, hq, hqp, hm⟩
          · rw [ihD v]
            constructor
            · intro hm
              exact ⟨_, hpos, hbr ▸ memB_m_iff.mpr hm⟩
            · intro hm
              have := hmem_slot v hm
              rw [hbr] at this
              exact memB_m_iff.mp this

end Ripl

namespace Ripl

variable {K V : Type}

theorem wf_empty (hf : K → Nat) (level w : Nat) :
    WfB hf (.C 0 ([] : List (Branch K V))) level w := by
  refine WfB.c hf 0 [] level w rfl ?_ ?_ <;> intro p hp <;> exact absurd hp (by simp)

theorem memCN_nil {k : K} {v : V} : ¬ MemCN ([] : List (Branch K V)) k v := by
  rintro ⟨q, hq, _⟩
  exact absurd hq (by simp)

theorem insertF_sound [DecidableEq K] :
    ∀ fuel (sup : Nat → K → Nat) (hf : K → Nat) (bm : Nat)
      (brs : List (Branch K V)) (level w : Nat) (key : K) (val : V)
      (old : Option V) (bm2 : Nat) (brs2 : List (Branch K V)),
      WfB hf (.C bm brs) level w →
      insertF fuel sup bm brs (hf key) key val level w = some (old, bm2, brs2) →
      WfB hf (.C bm2 brs2) level w
      ∧ (∀ P : K → Prop, P key → (∀ b ∈ brs, AllKeysB P b) → ∀ b ∈ brs2, AllKeysB P b)
      ∧ (∀ k2 v2, MemCN brs2 k2 v2
          ↔ ((k2 = key ∧ v2 = val) ∨ (k2 ≠ key ∧ MemCN brs k2 v2)))
      ∧ (∀ v, old = some v ↔ MemCN brs key v) := by
  intro fuel
  induction fuel with
  | zero =>
    intro sup hf bm brs level w key val old bm2 brs2 _ hrun
    exact absurd hrun (by simp [insertF])
  | succ fuel ih =>
    intro sup hf bm brs level w key val old bm2 brs2 hwf hrun
    have hwfc := hwf
    cases hwfc with
    | c _ _ _ _ _ hlen hkids hslots =>
    simp only [insertF, flagpos_eq] at hrun
    by_cases hvac : bm &&& 2 ^ window (hf key) level w = 0
    · -- vacancy: a fresh store is spliced in and the window bit set
      rw [if_pos hvac] at hrun
      have hvb : bm.testBit (window (hf key) level w) = false :=
        (and_two_pow_eq_zero_iff bm _).mp hvac
      have hpos_le : popcount (bm % 2 ^ window (hf key) level w) ≤ brs.length :=
        hlen ▸ popcount_mod_le_self bm _
      have h := Option.some.inj hrun
      simp only [Prod.mk.injEq] at h
      obtain ⟨rfl, rfl, rfl⟩ := h
      have hnokey : ∀ v, ¬ MemCN brs key v := by
        rintro v ⟨q, hq, hm⟩
        rw [(memCN_slot hwf hq hm).1] at hvb
        cases hvb
      refine ⟨wf_insert_vacancy hwf hvb, ?_, fun k2 v2 => ?_, fun v => ?_⟩
      · intro P hPkey hP b hb
        rcases (List.mem_insertIdx hpos_le).mp hb with rfl | hb2
        · exact AllKeysB.s _ _ _ hPkey
        · exact hP b hb2
      · rw [memCN_insertIdx_iff hpos_le]
        constructor
        · rintro (hm | hm)
          · obtain ⟨rfl, rfl⟩ := memB_s_iff.mp hm
            exact Or.inl ⟨rfl, rfl⟩
          · refine Or.inr ⟨fun he => ?_, hm⟩
            subst he
            exact hnokey v2 hm
        · rintro (⟨rfl, rfl⟩ | ⟨_, hm⟩)
          · exact Or.inl (MemB.s _ _ _)
          · exact Or.inr hm
      · constructor
        · intro h; cases h
        · intro hm; exact absurd hm (hnokey v)
    · rw [if_neg hvac] at hrun
      have hbit : bm.testBit (window (hf key) level w) = true := by
        cases hb : bm.testBit (window (hf key) level w)
        · exact absurd ((and_two_pow_eq_zero_iff bm _).mpr hb) hvac
        · rfl
      have hpos : popcount (bm % 2 ^ window (hf key) level w) < brs.length :=
        hlen ▸ popcount_mod_lt hbit
      rw [List.get?_eq_getElem?, List.getElem?_eq_getElem hpos] at hrun
      have hmem_slot : ∀ k' v', MemCN brs k' v' →
          popcount (bm % 2 ^ window (hf k') level w)
            = popcount (bm % 2 ^ window (hf key) level w) →
          MemB brs[popcount (bm % 2 ^ window (hf key) level w)] k' v' := by
        rintro k' v' ⟨q, hq, hm⟩ hsame
        have hs := (memCN_slot hwf hq hm).2
        have heq : q = popcount (bm % 2 ^ window (hf key) level w) := by
          rw [← hs, hsame]
        subst heq
        exact hm
      have hkey_slot : ∀ v, MemCN brs key v →
          MemB brs[popcount (bm % 2 ^ window (hf key) level w)] key v :=
        fun v hm => hmem_slot key v hm rfl
      have hslotmem : brs[popcount (bm % 2 ^ window (hf key) level w)] ∈ brs :=
        List.getElem_mem hpos
      have hPkey_slot : slotPred hf bm level w
          (popcount (bm % 2 ^ window (hf key) level w)) key := ⟨hbit, rfl⟩
      cases hbr : brs[popcount (bm % 2 ^ window (hf key) level w)] with
      | C bmI brsI =>
        rw [hbr] at hrun
        simp only [] at hrun
        have hkid := hkids _ hpos
        rw [hbr] at hkid
        cases hrec : insertF fuel sup bmI brsI (hf key) key val (level + w) w with
        | none => rw [hrec] at hrun; cases hrun
        | some r =>
          obtain ⟨oldI, bmI2, brsI2⟩ := r
          rw [hrec] at hrun
          simp only [] at hrun
          have h := Option.some.inj hrun
          simp only [Prod.mk.injEq] at h
          obtain ⟨rfl, rfl, rfl⟩ := h
          obtain ⟨ihA, ihB, ihC, ihD⟩ :=
            ih sup hf bmI brsI (level + w) w key val oldI bmI2 brsI2 hkid hrec
          have hslotP := hslots _ hpos
          rw [hbr] at hslotP
          have hallI : ∀ b ∈ brsI, AllKeysB
              (slotPred hf bm level w (popcount (bm % 2 ^ window (hf key) level w))) b := by
            cases hslotP with
            | c _ _ h => exact h
          have hallI2 := ihB _ hPkey_slot hallI
          have hiff : ∀ k' v', MemB (Branch.C bmI2 brsI2 : Branch K V) k' v'
              ↔ ((k' = key ∧ v' = val)
                ∨ (k' ≠ key ∧ MemB (Branch.C bmI brsI : Branch K V) k' v')) := by
            intro k' v'
            rw [memB_c_iff, memB_c_iff, ihC]
          refine ⟨wf_set hwf hpos ihA (AllKeysB.c bmI2 brsI2 hallI2),
            ?_, fun k2' v2' => ?_, fun v => ?_⟩
          · intro P hPkey hP b hb
            rcases List.mem_or_eq_of_mem_set hb with hb2 | rfl
            · exact hP b hb2
            · have := hP _ hslotmem
              rw [hbr] at this
              have hPI : ∀ b ∈ brsI, AllKeysB P b := by
                cases this with
                | c _ _ h => exact h
              exact AllKeysB.c bmI2 brsI2 (ihB P hPkey hPI)
          · rw [memCN_set_iff hpos]
            constructor
            · rintro (hm | ⟨q, hq, hne, hm⟩)
              · rcases (hiff k2' v2').mp hm with ⟨rfl, rfl⟩ | ⟨hne, hm2⟩
                · exact Or.inl ⟨rfl, rfl⟩
                · exact Or.inr ⟨hne, _, hpos, hbr ▸ hm2⟩
              · refine Or.inr ⟨fun he => ?_, q, hq, hm⟩
                subst he
                exact hne ((memCN_slot hwf hq hm).2).symm
            · rintro (⟨rfl, rfl⟩ | ⟨hne, q, hq, hm⟩)
              · exact Or.inl ((hiff k2' v2').mpr (Or.inl ⟨rfl, rfl⟩))
              · by_cases hqp : q = popcount (bm % 2 ^ window (hf key) level w)
                · subst hqp
                  rw [hbr] at hm
                  exact Or.inl ((hiff k2' v2').mpr (Or.inr ⟨hne, hm⟩))
                · exact Or.inr ⟨q, hq, hqp, hm⟩
          · rw [ihD v]
            constructor
            · intro hm
              exact ⟨_, hpos, hbr ▸ memB_c_iff.mpr hm⟩
            · intro hm
              have := hkey_slot v hm
              rw [hbr] at this
              exact memB_c_iff.mp this
      | M w2 hf2 sup2 bmI brsI =>
        rw [hbr] at hrun
        simp only [] at hrun
        have hkid := hkids _ hpos
        rw [hbr] at hkid
        have hin : WfB hf2 (Branch.C bmI brsI : Branch K V) 0 w2 := by
          cases hkid with
          | m _ _ _ _ _ _ _ _ h => exact h
        cases hrec : insertF fuel sup2 bmI brsI (hf2 key) key val 0 w2 with
        | none => rw [hrec] at hrun; cases hrun
        | some r =>
          obtain ⟨oldI, bmI2, brsI2⟩ := r
          rw [hrec] at hrun
          simp only [] at hrun
          have h := Option.some.inj hrun
          simp only [Prod.mk.injEq] at h
          obtain ⟨rfl, rfl, rfl⟩ := h
          obtain ⟨ihA, ihB, ihC, ihD⟩ :=
            ih sup2 hf2 bmI brsI 0 w2 key val oldI bmI2 brsI2 hin hrec
          have hslotP := hslots _ hpos
          rw [hbr] at hslotP
          have hallI : ∀ b ∈ brsI, AllKeysB
              (slotPred hf bm level w (popcount (bm % 2 ^ window (hf key) level w))) b := by
            cases hslotP with
            | m _ _ _ _ _ h => exact h
          have hallI2 := ihB _ hPkey_slot hallI
          have hiff : ∀ k' v', MemB (Branch.M w2 hf2 sup2 bmI2 brsI2 : Branch K V) k' v'
              ↔ ((k' = key ∧ v' = val)
                ∨ (k' ≠ key ∧ MemB (Branch.M w2 hf2 sup2 bmI brsI : Branch K V) k' v')) := by
            intro k' v'
            rw [memB_m_iff, memB_m_iff, ihC]
          refine ⟨wf_set hwf hpos (WfB.m hf w2 hf2 sup2 bmI2 brsI2 (level + w) w ihA)
              (AllKeysB.m w2 hf2 sup2 bmI2 brsI2 hallI2),
            ?_, fun k2' v2' => ?_, fun v => ?_⟩
          · intro P hPkey hP b hb
            rcases List.mem_or_eq_of_mem_set hb with hb2 | rfl
            · exact hP b hb2
            · have := hP _ hslotmem
              rw [hbr] at this
              have hPI : ∀ b ∈ brsI, AllKeysB P b := by
                cases this with
                | m _ _ _ _ _ h => exact h
              exact AllKeysB.m w2 hf2 sup2 bmI2 brsI2 (ihB P hPkey hPI)
          · rw [memCN_set_iff hpos]
            constructor
            · rintro (hm | ⟨q, hq, hne, hm⟩)
              · rcases (hiff k2' v2').mp hm with ⟨rfl, rfl⟩ | ⟨hne, hm2⟩
                · exact Or.inl ⟨rfl, rfl⟩
                · exact Or.inr ⟨hne, _, hpos, hbr ▸ hm2⟩
              · refine Or.inr ⟨fun he => ?_, q, hq, hm⟩
                subst he
                exact hne ((memCN_slot hwf hq hm).2).symm
            · rintro (⟨rfl, rfl⟩ | ⟨hne, q, hq, hm⟩)
              · exact Or.inl ((hiff k2' v2').mpr (Or.inl ⟨rfl, rfl⟩))
              · by_cases hqp : q = popcount (bm % 2 ^ window (hf key) level w)
                · subst hqp
                  rw [hbr] at hm
                  exact Or.inl ((hiff k2' v2').mpr (Or.inr ⟨hne, hm⟩))
                · exact Or.inr ⟨q, hq, hqp, hm⟩
          · rw [ihD v]
            constructor
            · intro hm
              exact ⟨_, hpos, hbr ▸ memB_m_iff.mpr hm⟩
            · intro hm
              have := hkey_slot v hm
              rw [hbr] at this
              exact memB_m_iff.mp this
      | S h2 k2 v2 =>
        rw [hbr] at hrun
        simp only [] at hrun
        have hkid := hkids _ hpos
        rw [hbr] at hkid
        have hh2 : h2 = hf k2 := by
          cases hkid with
          | s _ _ _ _ _ _ he => exact he
        have hslotP := hslots _ hpos
        rw [hbr] at hslotP
        have hPk2 : slotPred hf bm level w
            (popcount (bm % 2 ^ window (hf key) level w)) k2 := by
          cases hslotP with
          | s _ _ _ hP => exact hP
        by_cases hk : key = k2
        · -- key matches: the value is replaced in place
          rw [if_pos hk] at hrun
          subst hk
          have h := Option.some.inj hrun
          simp only [Prod.mk.injEq] at h
          obtain ⟨rfl, rfl, rfl⟩ := h
          refine ⟨wf_set hwf hpos (WfB.s hf h2 key val (level + w) w hh2)
              (AllKeysB.s h2 key val hPkey_slot),
            ?_, fun k2' v2' => ?_, fun v => ?_⟩
          · intro P hPkey hP b hb
            rcases List.mem_or_eq_of_mem_set hb with hb2 | rfl
            · exact hP b hb2
            · exact AllKeysB.s _ _ _ hPkey
          · rw [memCN_set_iff hpos]
            constructor
            · rintro (hm | ⟨q, hq, hne, hm⟩)
              · obtain ⟨rfl, rfl⟩ := memB_s_iff.mp hm
                exact Or.inl ⟨rfl, rfl⟩
              · refine Or.inr ⟨fun he => ?_, q, hq, hm⟩
                subst he
                exact hne ((memCN_slot hwf hq hm).2).symm
            · rintro (⟨rfl, rfl⟩ | ⟨hne, q, hq, hm⟩)
              · exact Or.inl (MemB.s _ _ _)
              · by_cases hqp : q = popcount (bm % 2 ^ window (hf key) level w)
                · subst hqp
                  rw [hbr] at hm
                  exact absurd (memB_s_iff.mp hm).1 hne
                · exact Or.inr ⟨q, hq, hqp, hm⟩
          · constructor
            · intro h
              have hv : v = v2 := (Option.some.inj h).symm
              subst hv
              exact ⟨_, hpos, hbr ▸ MemB.s h2 key v⟩
            · intro hm
              have := hkey_slot v hm
              rw [hbr] at this
              rw [(memB_s_iff.mp this).2]
        · rw [if_neg hk] at hrun
          by_cases hh : hf key = h2
          · -- full hash collision: a nested map with a fresh hasher is made
            rw [if_pos hh] at hrun
            cases hrecA : insertF fuel (fun n => sup (n + 1)) 0 []
                (sup 0 k2) k2 v2 0 (log2c (1 <<< w)) with
            | none => rw [hrecA] at hrun; cases hrun
            | some rA =>
              obtain ⟨oldA, bmA, brsA⟩ := rA
              rw [hrecA] at hrun
              simp only [] at hrun
              cases hrecB : insertF fuel (fun n => sup (n + 1)) bmA brsA
                  (sup 0 key) key val 0 (log2c (1 <<< w)) with
              | none => rw [hrecB] at hrun; cases hrun
              | some rB =>
                obtain ⟨oldB, bmB, brsB⟩ := rB
                rw [hrecB] at hrun
                simp only [] at hrun
                have h := Option.some.inj hrun
                simp only [Prod.mk.injEq] at h
                obtain ⟨rfl, rfl, rfl⟩ := h
                obtain ⟨ihA1, ihA2, ihA3, _⟩ :=
                  ih (fun n => sup (n + 1)) (sup 0) 0 [] 0 (log2c (1 <<< w))
                    k2 v2 oldA bmA brsA (wf_empty _ _ _) hrecA
                obtain ⟨ihB1, ihB2, ihB3, _⟩ :=
                  ih (fun n => sup (n + 1)) (sup 0) bmA brsA 0 (log2c (1 <<< w))
                    key val oldB bmB brsB ihA1 hrecB
                have hallB : ∀ (P : K → Prop), P k2 → P key → ∀ b ∈ brsB, AllKeysB P b := by
                  intro P hP2 hPk
                  exact ihB2 P hPk (ihA2 P hP2 (by intro b hb; cases hb))
                have hmemB : ∀ k' v', MemCN brsB k' v'
                    ↔ ((k' = key ∧ v' = val) ∨ (k' ≠ key ∧ k' = k2 ∧ v' = v2)) := by
                  intro k' v'
                  rw [ihB3, ihA3]
                  constructor
                  · rintro (h | ⟨hne, ⟨rfl, rfl⟩ | ⟨_, hm⟩⟩)
                    · exact Or.inl h
                    · exact Or.inr ⟨hne, rfl, rfl⟩
                    · exact absurd hm memCN_nil
                  · rintro (h | ⟨hne, rfl, rfl⟩)
                    · exact Or.inl h
                    · exact Or.inr ⟨hne, Or.inl ⟨rfl, rfl⟩⟩
                have hx_keys : AllKeysB
                    (slotPred hf bm level w (popcount (bm % 2 ^ window (hf key) level w)))
                    (Branch.M (log2c (1 <<< w)) (sup 0) (fun n => sup (n + 1)) bmB brsB
                      : Branch K V) :=
                  AllKeysB.m _ _ _ _ _ (hallB _ hPk2 hPkey_slot)
                have hnokey : ∀ v, ¬ MemCN brs key v := by
                  intro v hm
                  have := hkey_slot v hm
                  rw [hbr] at this
                  exact hk (memB_s_iff.mp this).1
                refine ⟨wf_set hwf hpos
                    (WfB.m hf _ _ _ _ _ (level + w) w ihB1) hx_keys,
                  ?_, fun k2' v2' => ?_, fun v => ?_⟩
                · intro P hPkey hP b hb
                  rcases List.mem_or_eq_of_mem_set hb with hb2 | rfl
                  · exact hP b hb2
                  · have := hP _ hslotmem
                    rw [hbr] at this
                    have hP2 : P k2 := by
                      cases this with
                      | s _ _ _ hPx => exact hPx
                    exact AllKeysB.m _ _ _ _ _ (hallB P hP2 hPkey)
                · rw [memCN_set_iff hpos]
                  constructor
                  · rintro (hm | ⟨q, hq, hne, hm⟩)
                    · rcases (hmemB k2' v2').mp (memB_m_iff.mp hm)
                        with ⟨rfl, rfl⟩ | ⟨hne, rfl, rfl⟩
                      · exact Or.inl ⟨rfl, rfl⟩
                      · exact Or.inr ⟨hne, _, hpos, hbr ▸ MemB.s h2 k2' v2'⟩
                    · refine Or.inr ⟨fun he => ?_, q, hq, hm⟩
                      subst he
                      exact hne ((memCN_slot hwf hq hm).2).symm
                  · rintro (⟨rfl, rfl⟩ | ⟨hne, q, hq, hm⟩)
                    · exact Or.inl (memB_m_iff.mpr
                        ((hmemB k2' v2').mpr (Or.inl ⟨rfl, rfl⟩)))
                    · by_cases hqp : q = popcount (bm % 2 ^ window (hf key) level w)
                      · subst hqp
                        rw [hbr] at hm
                        obtain ⟨rfl, rfl⟩ := memB_s_iff.mp hm
                        exact Or.inl (memB_m_iff.mpr
                          ((hmemB k2' v2').mpr (Or.inr ⟨hne, rfl, rfl⟩)))
                      · exact Or.inr ⟨q, hq, hqp, hm⟩
                · constructor
                  · intro h; cases h
                  · intro hm; exact absurd hm (hnokey v)
          · -- partial collision: both stores are pushed one level down
            rw [if_neg hh] at hrun
            rw [hh2] at hrun
            cases hrecA : insertF fuel sup 0 [] (hf k2) k2 v2 (level + w) w with
            | none => rw [hrecA] at hrun; cases hrun
            | some rA =>
              obtain ⟨oldA, bmA, brsA⟩ := rA
              rw [hrecA] at hrun
              simp only [] at hrun
              cases hrecB : insertF fuel sup bmA brsA
                  (hf key) key val (level + w) w with
              | none => rw [hrecB] at hrun; cases hrun
              | some rB =>
                obtain ⟨oldB, bmB, brsB⟩ := rB
                rw [hrecB] at hrun
                simp only [] at hrun
                have h := Option.some.inj hrun
                simp only [Prod.mk.injEq] at h
                obtain ⟨rfl, rfl, rfl⟩ := h
                obtain ⟨ihA1, ihA2, ihA3, _⟩ :=
                  ih sup hf 0 [] (level + w) w k2 v2 oldA bmA brsA
                    (wf_empty _ _ _) hrecA
                obtain ⟨ihB1, ihB2, ihB3, _⟩ :=
                  ih sup hf bmA brsA (level + w) w key val oldB bmB brsB
                    ihA1 hrecB
                have hallB : ∀ (P : K → Prop), P k2 → P key → ∀ b ∈ brsB, AllKeysB P b := by
                  intro P hP2 hPk
                  exact ihB2 P hPk (ihA2 P hP2 (by intro b hb; cases hb))
                have hmemB : ∀ k' v', MemCN brsB k' v'
                    ↔ ((k' = key ∧ v' = val) ∨ (k' ≠ key ∧ k' = k2 ∧ v' = v2)) := by
                  intro k' v'
                  rw [ihB3, ihA3]
                  constructor
                  · rintro (h | ⟨hne, ⟨rfl, rfl⟩ | ⟨_, hm⟩⟩)
                    · exact Or.inl h
                    · exact Or.inr ⟨hne, rfl, rfl⟩
                    · exact absurd hm memCN_nil
                  · rintro (h | ⟨hne, rfl, rfl⟩)
                    · exact Or.inl h
                    · exact Or.inr ⟨hne, Or.inl ⟨rfl, rfl⟩⟩
                have hx_keys : AllKeysB
                    (slotPred hf bm level w (popcount (bm % 2 ^ window (hf key) level w)))
                    (Branch.C bmB brsB : Branch K V) :=
                  AllKeysB.c _ _ (hallB _ hPk2 hPkey_slot)
                have hnokey : ∀ v, ¬ MemCN brs key v := by
                  intro v hm
                  have := hkey_slot v hm
                  rw [hbr] at this
                  exact hk (memB_s_iff.mp this).1
                refine ⟨wf_set hwf hpos ihB1 hx_keys,
                  ?_, fun k2' v2' => ?_, fun v => ?_⟩
                · intro P hPkey hP b hb
                  rcases List.mem_or_eq_of_mem_set hb with hb2 | rfl
                  · exact hP b hb2
                  · have := hP _ hslotmem
                    rw [hbr] at this
                    have hP2 : P k2 := by
                      cases this with
                      | s _ _ _ hPx => exact hPx
                    exact AllKeysB.c _ _ (hallB P hP2 hPkey)
                · rw [memCN_set_iff hpos]
                  constructor
                  · rintro (hm | ⟨q, hq, hne, hm⟩)
                    · rcases (hmemB k2' v2').mp (memB_c_iff.mp hm)
                        with ⟨rfl, rfl⟩ | ⟨hne, rfl, rfl⟩
                      · exact Or.inl ⟨rfl, rfl⟩
                      · exact Or.inr ⟨hne, _, hpos, hbr ▸ MemB.s h2 k2' v2'⟩
                    · refine Or.inr ⟨fun he => ?_, q, hq, hm⟩
                      subst he
                      exact hne ((memCN_slot hwf hq hm).2).symm
                  · rintro (⟨rfl, rfl⟩ | ⟨hne, q, hq, hm⟩)
                    · exact Or.inl (memB_c_iff.mpr
                        ((hmemB k2' v2').mpr (Or.inl ⟨rfl, rfl⟩)))
                    · by_cases hqp : q = popcount (bm % 2 ^ window (hf key) level w)
                      · subst hqp
                        rw [hbr] at hm
                        obtain ⟨rfl, rfl⟩ := memB_s_iff.mp hm
                        exact Or.inl (memB_c_iff.mpr
                          ((hmemB k2' v2').mpr (Or.inr ⟨hne, rfl, rfl⟩)))
                      · exact Or.inr ⟨q, hq, hqp, hm⟩
                · constructor
                  · intro h; cases h
                  · intro hm; exact absurd hm (hnokey v)

end Ripl

namespace Ripl

variable {K V : Type}

/-! ### Operation sequences over a `CloneMap` and the reference map -/

/-- A public operation on the map (`insert`, `remove`, `get`, `clear`,
`clone`). -/
inductive MapOp (K V : Type) where
  | ins (k : K) (v : V)
  | del (k : K)
  | get (k : K)
  | clr
  | dup

/-- One public operation, with its returned value (`get` and the previous
binding for `insert`/`remove`; `none` for `clear`/`clone`). -/
def CloneMap.step [DecidableEq K] (fuel : Nat) (m : CloneMap K V) :
    MapOp K V → Option (Option V × CloneMap K V)
  | .ins k v => m.insert fuel k v
  | .del k => m.remove fuel k
  | .get k => (m.get fuel k).map (fun r => (r, m))
  | .clr => some (none, m.clear)
  | .dup => some (none, m.clone)

/-- Run a sequence of public operations, collecting the returned values. -/
def runModel [DecidableEq K] (fuel : Nat) (m : CloneMap K V) :
    List (MapOp K V) → Option (List (Option V) × CloneMap K V)
  | [] => some ([], m)
  | op :: rest =>
    match m.step fuel op with
    | none => none
    | some (out, m2) =>
      match runModel fuel m2 rest with
      | none => none
      | some (outs, m3) => some (out :: outs, m3)

/-- Reference semantics (spec side, for the refinement claim): a map is a
function `K → Option V`; operations read and update it pointwise. -/
def refApply [DecidableEq K] (f : K → Option V) :
    MapOp K V → Option V × (K → Option V)
  | .ins k v => (f k, fun x => if x = k then some v else f x)
  | .del k => (f k, fun x => if x = k then none else f x)
  | .get k => (f k, f)
  | .clr => (none, fun _ => none)
  | .dup => (none, f)

/-- Reference outputs of a sequence of operations (spec side). -/
def runRef [DecidableEq K] (f : K → Option V) : List (MapOp K V) → List (Option V)
  | [] => []
  | op :: rest => (refApply f op).1 :: runRef (refApply f op).2 rest

/-- Reference final map of a sequence of operations (spec side). -/
def refFinal [DecidableEq K] (f : K → Option V) : List (MapOp K V) → K → Option V
  | [] => f
  | op :: rest => refFinal (refApply f op).2 rest

theorem option_eq_of_some_iff {α : Type} {o1 o2 : Option α}
    (h : ∀ v, o1 = some v ↔ o2 = some v) : o1 = o2 := by
  cases ho1 : o1 with
  | none =>
    cases ho2 : o2 with
    | none => rfl
    | some v => exact absurd (ho1 ▸ (h v).mpr ho2) (by simp)
  | some v => exact ((h v).mp ho1).symm ▸ (ho1.symm ▸ rfl)

/-- Every completed run from a well-formed map tracking `f` produces the
reference outputs and ends well-formed, tracking the reference final map. -/
theorem run_sound [DecidableEq K] :
    ∀ (ops : List (MapOp K V)) (fuel : Nat) (m : CloneMap K V) (f : K → Option V)
      (outs : List (Option V)) (m2 : CloneMap K V),
      WfB m.hashFn (.C m.bitmap m.branches) 0 m.w →
      (∀ k v, MemCN m.branches k v ↔ f k = some v) →
      runModel fuel m ops = some (outs, m2) →
      outs = runRef f ops
      ∧ WfB m2.hashFn (.C m2.bitmap m2.branches) 0 m2.w
      ∧ (∀ k v, MemCN m2.branches k v ↔ refFinal f ops k = some v) := by
  intro ops
  induction ops with
  | nil =>
    intro fuel m f outs m2 hwf habs hrun
    simp only [runModel] at hrun
    have h := Option.some.inj hrun
    simp only [Prod.mk.injEq] at h
    obtain ⟨rfl, rfl⟩ := h
    exact ⟨rfl, hwf, habs⟩
  | cons op rest ih =>
    intro fuel m f outs m2 hwf habs hrun
    simp only [runModel] at hrun
    cases hstep : m.step fuel op with
    | none => rw [hstep] at hrun; cases hrun
    | some r =>
      obtain ⟨out, mN⟩ := r
      rw [hstep] at hrun
      simp only [] at hrun
      cases hruns : runModel fuel mN rest with
      | none => rw [hruns] at hrun; cases hrun
      | some r2 =>
        obtain ⟨outsR, m3⟩ := r2
        rw [hruns] at hrun
        simp only [] at hrun
        have h := Option.some.inj hrun
        simp only [Prod.mk.injEq] at h
        obtain ⟨rfl, rfl⟩ := h
        have hnext : out = (refApply f op).1
            ∧ WfB mN.hashFn (.C mN.bitmap mN.branches) 0 mN.w
            ∧ (∀ k v, MemCN mN.branches k v ↔ (refApply f op).2 k = some v) := by
          cases op with
          | ins k v =>
            simp only [CloneMap.step, CloneMap.insert] at hstep
            cases hi : insertF fuel m.supply m.bitmap m.branches (m.hashFn k) k v
                0 m.w with
            | none => rw [hi] at hstep; cases hstep
            | some ri =>
              obtain ⟨old, bmN, brsN⟩ := ri
              rw [hi] at hstep
              simp only [Option.map] at hstep
              have h2 := Option.some.inj hstep
              simp only [Prod.mk.injEq] at h2
              obtain ⟨rfl, rfl⟩ := h2
              obtain ⟨hWfN, _, hMemN, hOld⟩ :=
                insertF_sound fuel m.supply m.hashFn m.bitmap m.branches 0 m.w
                  k v old bmN brsN hwf hi
              refine ⟨option_eq_of_some_iff (fun u => (hOld u).trans (habs k u)),
                hWfN, ?_⟩
              intro k' v'
              rw [hMemN k' v']
              simp only [refApply]
              by_cases hk' : k' = k
              · subst hk'
                rw [if_pos rfl]
                constructor
                · rintro (⟨_, rfl⟩ | ⟨hne, _⟩)
                  · rfl
                  · exact absurd rfl hne
                · intro hv
                  exact Or.inl ⟨rfl, (Option.some.inj hv).symm⟩
              · rw [if_neg hk']
                constructor
                · rintro (⟨he, _⟩ | ⟨_, hm⟩)
                  · exact absurd he hk'
                  · exact (habs k' v').mp hm
                · intro hv
                  exact Or.inr ⟨hk', (habs k' v').mpr hv⟩
          | del k =>
            simp only [CloneMap.step, CloneMap.remove] at hstep
            cases hi : removeF fuel m.bitmap m.branches (m.hashFn k) k 0 m.w with
            | none => rw [hi] at hstep; cases hstep
            | some ri =>
              obtain ⟨old, bmN, brsN⟩ := ri
              rw [hi] at hstep
              simp only [Option.map] at hstep
              have h2 := Option.some.inj hstep
              simp only [Prod.mk.injEq] at h2
              obtain ⟨rfl, rfl⟩ := h2
              obtain ⟨hWfN, _, hMemN, hOld⟩ :=
                removeF_sound fuel m.hashFn m.bitmap m.branches 0 m.w
                  k old bmN brsN hwf hi
              refine ⟨option_eq_of_some_iff (fun u => (hOld u).trans (habs k u)),
                hWfN, ?_⟩
              intro k' v'
              rw [hMemN k' v']
              simp only [refApply]
              by_cases hk' : k' = k
              · subst hk'
                rw [if_pos rfl]
                constructor
                · rintro ⟨hne, _⟩
                  exact absurd rfl hne
                · intro hv
                  cases hv
              · rw [if_neg hk']
                constructor
                · rintro ⟨_, hm⟩
                  exact (habs k' v').mp hm
                · intro hv
                  exact ⟨hk', (habs k' v').mpr hv⟩
          | get k =>
            simp only [CloneMap.step, CloneMap.get] at hstep
            cases hg : getF fuel m.bitmap m.branches (m.hashFn k) k 0 m.w with
            | none => rw [hg] at hstep; cases hstep
            | some res =>
              rw [hg] at hstep
              simp only [Option.map] at hstep
              have h2 := Option.some.inj hstep
              simp only [Prod.mk.injEq] at h2
              obtain ⟨rfl, rfl⟩ := h2
              refine ⟨?_, hwf, fun k' v' => (habs k' v')⟩
              rcases getF_sound fuel m.hashFn m.bitmap m.branches 0 m.w k res
                  hwf hg with ⟨rfl, hnone⟩ | ⟨v, rfl, hm⟩
              · simp only [refApply]
                cases hfk : f k with
                | none => rfl
                | some u => exact absurd ((habs k u).mpr hfk) (hnone u)
              · simp only [refApply]
                exact ((habs k v).mp hm).symm
          | clr =>
            simp only [CloneMap.step] at hstep
            have h2 := Option.some.inj hstep
            simp only [Prod.mk.injEq] at h2
            obtain ⟨rfl, rfl⟩ := h2
            refine ⟨rfl, wf_empty _ _ _, ?_⟩
            intro k' v'
            simp only [refApply, CloneMap.clear]
            constructor
            · intro hm
              exact absurd hm memCN_nil
            · intro hv
              cases hv
          | dup =>
            simp only [CloneMap.step] at hstep
            have h2 := Option.some.inj hstep
            simp only [Prod.mk.injEq] at h2
            obtain ⟨rfl, rfl⟩ := h2
            exact ⟨rfl, hwf, fun k' v' => habs k' v'⟩
        obtain ⟨hout, hWfN, habsN⟩ := hnext
        obtain ⟨houts, hWf3, habs3⟩ :=
          ih fuel mN ((refApply f op).2) outsR m3 hWfN habsN hruns
        refine ⟨?_, hWf3, ?_⟩
        · simp only [runRef]
          rw [hout, houts]
        · intro k v
          simp only [refFinal]
          exact habs3 k v

/-- A map fresh from `CloneMap::new`/`with_branch_factor` is well-formed and
tracks the empty reference map. -/
theorem new_wf [DecidableEq K] (n : Nat) (hf : K → Nat) (sup : Nat → K → Nat) :
    WfB (CloneMap.with_branch_factor (K := K) (V := V) n hf sup).hashFn
      (.C (CloneMap.with_branch_factor (K := K) (V := V) n hf sup).bitmap
        (CloneMap.with_branch_factor (K := K) (V := V) n hf sup).branches) 0
      (CloneMap.with_branch_factor (K := K) (V := V) n hf sup).w
    ∧ ∀ k v, MemCN (CloneMap.with_branch_factor (K := K) (V := V) n hf sup).branches
        k v ↔ (fun _ : K => (none : Option V)) k = some v := by
  refine ⟨wf_empty _ _ _, fun k v => ?_⟩
  constructor
  · intro hm
    exact absurd hm memCN_nil
  · intro hv
    cases hv

end Ripl

namespace Ripl

variable {K V : Type}

/-- The structural invariant of claim C10: in every `CNode` (including the
roots of nested maps), the bitmap's population count equals the length of
the branch array. -/
inductive ShapeB : Branch K V → Prop where
  | s : ∀ h k v, ShapeB (.S h k v)
  | c : ∀ bm brs, popcount bm = brs.length → (∀ b ∈ brs, ShapeB b) →
      ShapeB (.C bm brs)
  | m : ∀ w2 hf2 sup2 bm brs, popcount bm = brs.length →
      (∀ b ∈ brs, ShapeB b) → ShapeB (.M w2 hf2 sup2 bm brs)

theorem shape_of_wf {hf : K → Nat} {b : Branch K V} {level w : Nat}
    (hwf : WfB hf b level w) : ShapeB b := by
  induction hwf with
  | s hf h k v level w _ => exact ShapeB.s h k v
  | c hf bm brs level w hlen hkids hslots ih =>
    refine ShapeB.c bm brs hlen ?_
    intro b hb
    obtain ⟨q, hq, rfl⟩ := List.mem_iff_getElem.mp hb
    exact ih q hq
  | m hf w2 hf2 sup2 bm brs level w hin ih =>
    cases ih with
    | c _ _ hl hbs => exact ShapeB.m w2 hf2 sup2 bm brs hl hbs

/-- The second half of C10: with a correct bitmap, a set flag puts the
`flagpos` position strictly inside the branch array. -/
theorem flagpos_in_bounds (bm : Nat) (brs : List (Branch K V))
    (hash level w : Nat) (hlen : popcount bm = brs.length)
    (hflag : bm &&& (flagpos bm hash level w).1 ≠ 0) :
    (flagpos bm hash level w).2 < brs.length := by
  rw [flagpos_eq] at hflag ⊢
  have hbit : bm.testBit (window hash level w) = true := by
    cases hb : bm.testBit (window hash level w)
    · exact absurd ((and_two_pow_eq_zero_iff bm _).mpr hb) hflag
    · rfl
  exact hlen ▸ popcount_mod_lt hbit

end Ripl

namespace Ripl

/-- **C2.** For every sequence of public map operations run from an empty
`CloneMap::new` — over any key and value universe, any hasher, and any
supply of fresh hashers for nested maps — a completed run is observationally
equivalent to the reference finite map: each operation returns exactly the
reference answer (`get k` the current binding of `k` or `None`; `insert`
and `remove` the previous binding), and any completed `get` on the final
map returns the reference final binding. -/
theorem C2_observational_equivalence {K V : Type} [DecidableEq K]
    (hf : K → Nat) (sup : Nat → K → Nat) (ops : List (MapOp K V)) (fuel : Nat)
    (outs : List (Option V))
    (hrun : (runModel fuel (CloneMap.new hf sup) ops).map (fun r => r.1)
      = some outs) :
    outs = runRef (fun _ => none) ops
    ∧ (∀ (k : K) (fuel2 : Nat) (res : Option V),
        (runModel fuel (CloneMap.new hf sup) ops).bind
          (fun r => r.2.get fuel2 k) = some res →
        res = refFinal (fun _ => none) ops k) := by
  cases hr : runModel fuel (CloneMap.new hf sup) ops with
  | none => rw [hr] at hrun; cases hrun
  | some r =>
    obtain ⟨outs0, m2⟩ := r
    rw [hr] at hrun
    simp only [Option.map] at hrun
    have he : outs0 = outs := Option.some.inj hrun
    subst he
    obtain ⟨houts, hWf2, habs2⟩ :=
      run_sound ops fuel (CloneMap.new hf sup) (fun _ => none) outs0 m2
        (new_wf 32 hf sup).1 (new_wf 32 hf sup).2 hr
    refine ⟨houts, ?_⟩
    intro k fuel2 res hget
    simp only [Option.bind] at hget
    simp only [CloneMap.get] at hget
    rcases getF_sound fuel2 m2.hashFn m2.bitmap m2.branches 0 m2.w k res hWf2 hget
      with ⟨rfl, hnone⟩ | ⟨v, rfl, hm⟩
    · cases hfk : refFinal (fun _ => none) ops k with
      | none => rfl
      | some u => exact absurd ((habs2 k u).mpr hfk) (hnone u)
    · exact ((habs2 k v).mp hm).symm

/-- The operation sequence of the C2 witness. -/
def c2ops : List (MapOp Nat Nat) :=
  [MapOp.ins 1 10, MapOp.ins 33 11, MapOp.get 1, MapOp.ins 1 12,
   MapOp.del 33, MapOp.get 33, MapOp.dup, MapOp.get 1]

theorem C2_observational_equivalence_witness :
    ([none, none, some 10, some 10, some 11, none, none, some 12]
        : List (Option Nat)) = runRef (fun _ => none) c2ops
    ∧ (∀ (k fuel2 : Nat) (res : Option Nat),
        (runModel 10 (CloneMap.new id (fun _ => id)) c2ops).bind
          (fun r => r.2.get fuel2 k) = some res →
        res = refFinal (fun _ => none) c2ops k) :=
  C2_observational_equivalence id (fun _ => id) c2ops 10
    [none, none, some 10, some 10, some 11, none, none, some 12] rfl

/-- **C10.** After any completed sequence of public operations from
`CloneMap::new`, every `CNode` of the resulting map (the root and,
recursively, all `C` branches and nested-map roots) has
`popcount bitmap = branches.length`; and for any `CNode` satisfying that
equation, whenever the bitmap has the flag computed by `flagpos` set, the
`pos` computed by `flagpos` is strictly within the branch array, so the
unchecked accesses at `pos` are in bounds. -/
theorem C10_bitmap_invariant {K V : Type} [DecidableEq K]
    (hf : K → Nat) (sup : Nat → K → Nat) (ops : List (MapOp K V)) (fuel : Nat)
    (bm : Nat) (brs : List (Branch K V))
    (hrun : (runModel fuel (CloneMap.new hf sup) ops).map
        (fun r => (r.2.bitmap, r.2.branches)) = some (bm, brs)) :
    ShapeB (.C bm brs)
    ∧ ∀ (bm' : Nat) (brs' : List (Branch K V)) (hash level w : Nat),
        popcount bm' = brs'.length →
        bm' &&& (flagpos bm' hash level w).1 ≠ 0 →
        (flagpos bm' hash level w).2 < brs'.length := by
  cases hr : runModel fuel (CloneMap.new hf sup) ops with
  | none => rw [hr] at hrun; cases hrun
  | some r =>
    obtain ⟨outs0, m2⟩ := r
    rw [hr] at hrun
    simp only [Option.map] at hrun
    have h := Option.some.inj hrun
    simp only [Prod.mk.injEq] at h
    obtain ⟨rfl, rfl⟩ := h
    obtain ⟨_, hWf2, _⟩ :=
      run_sound ops fuel (CloneMap.new hf sup) (fun _ => none) outs0 m2
        (new_wf 32 hf sup).1 (new_wf 32 hf sup).2 hr
    exact ⟨shape_of_wf hWf2,
      fun bm' brs' hash level w => flagpos_in_bounds bm' brs' hash level w⟩

/-- The operation sequence of the C10 witness. -/
def c10ops : List (MapOp Nat Nat) :=
  [MapOp.ins 1 10, MapOp.ins 33 11, MapOp.ins 2 12, MapOp.del 2]

theorem C10_bitmap_invariant_witness :
    ShapeB (.C 2 [Branch.C 3 [Branch.S 1 1 10, Branch.S 33 33 11]])
    ∧ ∀ (bm' : Nat) (brs' : List (Branch Nat Nat)) (hash level w : Nat),
        popcount bm' = brs'.length →
        bm' &&& (flagpos bm' hash level w).1 ≠ 0 →
        (flagpos bm' hash level w).2 < brs'.length :=
  C10_bitmap_invariant id (fun _ => id) c10ops 10 2
    [Branch.C 3 [Branch.S 1 1 10, Branch.S 33 33 11]] rfl

end Ripl

namespace Ripl

/-! ### Heap model of `Arc` sharing for the persistence claim (C3)

The value-level model above cannot distinguish in-place mutation of shared
nodes from path-copying, so the persistence of clones is settled against an
explicit heap: allocations are addresses, each carrying an `Arc` strong
count, and `Arc::make_mut` is modelled faithfully — it mutates in place
exactly when the count is 1 and otherwise copies the node (bumping the
counts of the node's children, as cloning a `CNode`'s `Vec<Arc<Branch>>`
or a nested map's root handle does). A `CloneMap` handle is a root address;
`clone` bumps the root's count and shares the whole tree. -/

variable {K V : Type}

/-- A heap allocation: an `S`/`C` branch or an `M` branch holding a nested
map (whose root `CNode` is a separate allocation at `root`). A map's root
`CNode` is itself a `C` allocation. -/
inductive HNode (K V : Type) where
  | S (hash : Nat) (key : K) (val : V)
  | C (bitmap : Nat) (kids : List Nat)
  | M (w : Nat) (hashFn : K → Nat) (supply : Nat → K → Nat) (root : Nat)

/-- The heap: contents, strong counts, and the allocation frontier. -/
structure HState (K V : Type) where
  mem : Nat → Option (HNode K V)
  rc : Nat → Nat
  next : Nat

/-- The addresses a node references (`Vec<Arc<Branch>>` entries, or a
nested map's root handle). -/
def kidsOf : HNode K V → List Nat
  | .S _ _ _ => []
  | .C _ kids => kids
  | .M _ _ _ root => [root]

/-- Occurrences of `c` in a list of addresses. -/
def occ : List Nat → Nat → Nat
  | [], _ => 0
  | x :: xs, c => (if x = c then 1 else 0) + occ xs c

/-- How many references the allocation at `b` holds to `c`. -/
def countKids (σ : HState K V) (b c : Nat) : Nat :=
  match σ.mem b with
  | some n => occ (kidsOf n) c
  | none => 0

/-- Overwrite one allocation (a mutation through an exclusive borrow). -/
def writeMem (σ : HState K V) (a : Nat) (n : HNode K V) : HState K V :=
  { σ with mem := fun b => if b = a then some n else σ.mem b }

/-- Allocate a fresh `Arc` with strong count 1. -/
def allocNode (σ : HState K V) (n : HNode K V) : HState K V × Nat :=
  (⟨fun b => if b = σ.next then some n else σ.mem b,
    fun b => if b = σ.next then 1 else σ.rc b, σ.next + 1⟩, σ.next)

/-- `Arc::make_mut` on a reference to `c0`: in place if the count is 1,
otherwise clone the node (a fresh allocation whose children's counts are
bumped) and release the reference to `c0`. Returns the address now safe to
mutate. -/
def arcMakeMut (σ : HState K V) (c0 : Nat) : Option (HState K V × Nat) :=
  if σ.rc c0 = 1 then some (σ, c0)
  else
    match σ.mem c0 with
    | none => none
    | some n =>
      some (⟨fun b => if b = σ.next then some n else σ.mem b,
        fun b =>
          if b = σ.next then 1
          else (σ.rc b + occ (kidsOf n) b) - (if b = c0 then 1 else 0),
        σ.next + 1⟩, σ.next)

/-- `CNode::insert` on the heap: `a` is the current `CNode` (already
exclusively owned), and children are taken through `arcMakeMut` exactly as
the source does. The by-value `CNode`/`CloneMap` temporaries of the split
cases are modelled as fresh allocations. -/
def hInsertC [DecidableEq K] :
    Nat → HState K V → Nat → (Nat → K → Nat) → Nat → K → V → Nat → Nat →
      Option (HState K V × Option V)
  | 0, _, _, _, _, _, _, _, _ => none
  | fuel + 1, σ, a, sup, hash, key, val, level, w =>
    match σ.mem a with
    | some (.C bm kids) =>
      let fp := flagpos bm hash level w
      if bm &&& fp.1 = 0 then
        -- Simple case: insert if we have a vacancy.
        let r := allocNode σ (.S hash key val)
        some (writeMem r.1 a (.C (bm ||| fp.1) (kids.insertIdx fp.2 r.2)), none)
      else
        match kids.get? fp.2 with
        | none => none
        | some c0 =>
          match arcMakeMut σ c0 with
          | none => none
          | some (σ1, c) =>
            -- when ownership was exclusive this write restores the same
            -- content (the in-place mutable borrow of the source)
            match writeMem σ1 a (.C bm (kids.set fp.2 c)) with
            | σ2 =>
              match σ2.mem c with
              | some (.M w2 hf2 sup2 rt) =>
                match arcMakeMut σ2 rt with
                | none => none
                | some (σ3, rt2) =>
                  hInsertC fuel (writeMem σ3 c (.M w2 hf2 sup2 rt2)) rt2 sup2
                    (hf2 key) key val 0 w2
              | some (.C _ _) =>
                hInsertC fuel σ2 c sup hash key val (level + w) w
              | some (.S h2 k2 v2) =>
                if key = k2 then
                  some (writeMem σ2 c (.S h2 k2 val), some v2)
                else if hash = h2 then
                  let r := allocNode σ2 (.C 0 [])
                  match hInsertC fuel r.1 r.2 (fun n => sup (n + 1))
                      (sup 0 k2) k2 v2 0 (log2c (1 <<< w)) with
                  | none => none
                  | some (σ4, _) =>
                    match hInsertC fuel σ4 r.2 (fun n => sup (n + 1))
                        (sup 0 key) key val 0 (log2c (1 <<< w)) with
                    | none => none
                    | some (σ5, _) =>
                      some (writeMem σ5 c
                        (.M (log2c (1 <<< w)) (sup 0) (fun n => sup (n + 1)) r.2),
                        none)
                else
                  let r := allocNode σ2 (.C 0 [])
                  match hInsertC fuel r.1 r.2 sup h2 k2 v2 (level + w) w with
                  | none => none
                  | some (σ4, _) =>
                    match hInsertC fuel σ4 r.2 sup hash key val (level + w) w with
                    | none => none
                    | some (σ5, _) =>
                      -- the temporary CNode is moved into the branch
                      match σ5.mem r.2 with
                      | none => none
                      | some n => some (writeMem σ5 c n, none)
              | none => none
    | _ => none

/-- `CNode::remove` on the heap. -/
def hRemoveC [DecidableEq K] :
    Nat → HState K V → Nat → Nat → K → Nat → Nat →
      Option (HState K V × Option V)
  | 0, _, _, _, _, _, _ => none
  | fuel + 1, σ, a, hash, key, level, w =>
    match σ.mem a with
    | some (.C bm kids) =>
      let fp := flagpos bm hash level w
      if bm &&& fp.1 = 0 then some (σ, none)
      else
        match kids.get? fp.2 with
        | none => none
        | some c0 =>
          match arcMakeMut σ c0 with
          | none => none
          | some (σ1, c) =>
            match writeMem σ1 a (.C bm (kids.set fp.2 c)) with
            | σ2 =>
              match σ2.mem c with
              | some (.M w2 hf2 sup2 rt) =>
                match arcMakeMut σ2 rt with
                | none => none
                | some (σ3, rt2) =>
                  hRemoveC fuel (writeMem σ3 c (.M w2 hf2 sup2 rt2)) rt2
                    (hf2 key) key 0 w2
              | some (.C _ _) =>
                hRemoveC fuel σ2 c hash key (level + w) w
              | some (.S _ k2 v2) =>
                if k2 ≠ key then some (σ2, none)
                else
                  -- remove the S branch: drop it from the vec, clear the
                  -- flag, and `Arc::try_unwrap` the exclusively-owned Arc
                  match writeMem σ2 a (.C (bm ^^^ fp.1) (kids.eraseIdx fp.2)) with
                  | σ3 =>
                    some (⟨fun b => if b = c then none else σ3.mem b,
                      fun b => if b = c then 0 else σ3.rc b, σ3.next⟩, some v2)
              | none => none
    | _ => none

/-- A `CloneMap` handle: branch power, hasher, supply, and the address of
the root `CNode`. -/
structure HMap (K V : Type) where
  w : Nat
  hashFn : K → Nat
  supply : Nat → K → Nat
  root : Nat

/-- `CloneMap::insert`: `Arc::make_mut` on the root handle, then the root
`CNode` insert. -/
def hInsertTop [DecidableEq K] (fuel : Nat) (σ : HState K V) (m : HMap K V)
    (key : K) (val : V) : Option (HState K V × HMap K V × Option V) :=
  match arcMakeMut σ m.root with
  | none => none
  | some (σ1, r1) =>
    match hInsertC fuel σ1 r1 m.supply (m.hashFn key) key val 0 m.w with
    | none => none
    | some (σ2, old) => some (σ2, { m with root := r1 }, old)

/-- `CloneMap::remove`. -/
def hRemoveTop [DecidableEq K] (fuel : Nat) (σ : HState K V) (m : HMap K V)
    (key : K) : Option (HState K V × HMap K V × Option V) :=
  match arcMakeMut σ m.root with
  | none => none
  | some (σ1, r1) =>
    match hRemoveC fuel σ1 r1 (m.hashFn key) key 0 m.w with
    | none => none
    | some (σ2, old) => some (σ2, { m with root := r1 }, old)

/-- `CNode::get` on the heap (read-only). -/
def hGet [DecidableEq K] :
    Nat → HState K V → Nat → Nat → K → Nat → Nat → Option (Option V)
  | 0, _, _, _, _, _, _ => none
  | fuel + 1, σ, a, hash, key, level, w =>
    match σ.mem a with
    | some (.C bm kids) =>
      let fp := flagpos bm hash level w
      if bm &&& fp.1 = 0 then some none
      else
        match kids.get? fp.2 with
        | none => none
        | some c =>
          match σ.mem c with
          | some (.S _ k2 v2) => if k2 = key then some (some v2) else some none
          | some (.C _ _) => hGet fuel σ c hash key (level + w) w
          | some (.M w2 hf2 _ rt) => hGet fuel σ rt (hf2 key) key 0 w2
          | none => none
    | _ => none

/-- `CloneMap::get`. -/
def hGetTop [DecidableEq K] (fuel : Nat) (σ : HState K V) (m : HMap K V)
    (key : K) : Option (Option V) :=
  hGet fuel σ m.root (m.hashFn key) key 0 m.w

/-- `Clone::clone` for `CloneMap`: bump the root's strong count and share
the root. -/
def hCloneMap (σ : HState K V) (m : HMap K V) : HState K V × HMap K V :=
  (⟨σ.mem, fun b => if b = m.root then σ.rc b + 1 else σ.rc b, σ.next⟩, m)

/-- Heap reachability from a root address. -/
inductive ReachH (mem : Nat → Option (HNode K V)) (r : Nat) : Nat → Prop where
  | refl : ReachH mem r r
  | step : ∀ b n c, ReachH mem r b → mem b = some n → c ∈ kidsOf n →
      ReachH mem r c

end Ripl

namespace Ripl

variable {K V : Type}

/-! ### The frame invariant: reference counts dominate reference sources

`Arc` keeps `rc a` equal to the number of strong references to `a` (heap
slots plus live handles). The proofs need only the lower bound it implies:
for any node `c` still reachable from the cloned handle and any duplicate-free
collection of sources outside the clone's tree, the count of `c` strictly
dominates the references those sources hold (the `1 +` is the reference
from inside the clone's tree, or the handle itself). This bound, the heap
agreeing with the snapshot on the clone's tree, and allocator validity are
preserved by the heap operations; the bound is what forces `Arc::make_mut`
to copy — never mutate in place — any node the clone can still see. -/

/-- Total references to `c` held by the (duplicate-free) source list `bs`. -/
def srcSum (σ : HState K V) (bs : List Nat) (c : Nat) : Nat :=
  (bs.map (fun b => countKids σ b c)).sum

/-- The frame invariant, relative to the snapshot `mem0` and the cloned
root `r2`. -/
def FrameInv (mem0 : Nat → Option (HNode K V)) (r2 : Nat) (σ : HState K V) : Prop :=
  (∀ b, ReachH mem0 r2 b → σ.mem b = mem0 b)
  ∧ (∀ b, σ.next ≤ b → σ.mem b = none)
  ∧ (∀ b, ReachH mem0 r2 b → b < σ.next)
  ∧ (∀ c, ReachH mem0 r2 c → ∀ bs : List Nat, bs.Nodup →
      (∀ b ∈ bs, ¬ ReachH mem0 r2 b) → 1 + srcSum σ bs c ≤ σ.rc c)

theorem srcSum_cons (σ : HState K V) (b : Nat) (bs : List Nat) (c : Nat) :
    srcSum σ (b :: bs) c = countKids σ b c + srcSum σ bs c := by
  simp [srcSum]

theorem srcSum_congr {σ σ' : HState K V} {bs : List Nat} {c : Nat}
    (h : ∀ b ∈ bs, countKids σ' b c = countKids σ b c) :
    srcSum σ' bs c = srcSum σ bs c := by
  unfold srcSum
  exact congrArg List.sum (List.map_congr_left h)

theorem srcSum_erase {σ : HState K V} {bs : List Nat} {x : Nat} (c : Nat)
    (hx : x ∈ bs) :
    srcSum σ bs c = countKids σ x c + srcSum σ (bs.erase x) c := by
  unfold srcSum
  have hperm : bs.Perm (x :: bs.erase x) := List.perm_cons_erase hx
  rw [(hperm.map (fun b => countKids σ b c)).sum_eq]
  simp

theorem countKids_of_none {σ : HState K V} {b : Nat} (h : σ.mem b = none)
    (c : Nat) : countKids σ b c = 0 := by
  unfold countKids
  rw [h]

theorem countKids_write (σ : HState K V) (a : Nat) (n : HNode K V)
    (b c : Nat) :
    countKids (writeMem σ a n) b c
      = if b = a then occ (kidsOf n) c else countKids σ b c := by
  unfold countKids writeMem
  by_cases hb : b = a
  · subst hb; simp
  · simp [hb]

/-- Setting a slot to the value it already holds is the identity. -/
theorem list_set_self {α : Type} {l : List α} {pos : Nat} {x : α}
    (h : l.get? pos = some x) : l.set pos x = l := by
  have hpos : pos < l.length := by
    by_contra hc
    rw [List.get?_eq_getElem?, List.getElem?_eq_none (by omega)] at h
    cases h
  apply List.ext_getElem
  · rw [List.length_set]
  · intro i h1 h2
    rw [List.getElem_set]
    by_cases hip : pos = i
    · subst hip
      rw [if_pos rfl]
      rw [List.get?_eq_getElem?, List.getElem?_eq_getElem hpos] at h
      exact (Option.some.inj h).symm
    · rw [if_neg hip]

/-- Replacing the slot `pos` (holding `c0`) by `c` shifts counts by one. -/
theorem occ_set :
    ∀ {l : List Nat} {pos c0 : Nat}, l.get? pos = some c0 → ∀ c b,
      occ (l.set pos c) b + (if c0 = b then 1 else 0)
        = occ l b + (if c = b then 1 else 0) := by
  intro l
  induction l with
  | nil => intro pos c0 h; cases h
  | cons x xs ih =>
    intro pos c0 h c b
    cases pos with
    | zero =>
      have hx : x = c0 := Option.some.inj h
      subst hx
      show occ (c :: xs) b + _ = occ (x :: xs) b + _
      simp only [occ]
      omega
    | succ p =>
      have h2 : xs.get? p = some c0 := h
      show occ (x :: xs.set p c) b + _ = occ (x :: xs) b + _
      simp only [occ]
      have := ih h2 c b
      omega

theorem occ_append (l1 l2 : List Nat) (b : Nat) :
    occ (l1 ++ l2) b = occ l1 b + occ l2 b := by
  induction l1 with
  | nil => simp [occ]
  | cons x xs ih =>
    rw [List.cons_append]
    simp only [occ]
    omega

theorem occ_pos_of_get {l : List Nat} {pos c0 : Nat}
    (h : l.get? pos = some c0) : 1 ≤ occ l c0 := by
  induction l generalizing pos with
  | nil => cases h
  | cons x xs ih =>
    cases pos with
    | zero =>
      have hx : x = c0 := Option.some.inj h
      simp [occ, hx]
    | succ p =>
      have := @ih p h
      simp only [occ]
      omega

end Ripl

namespace Ripl

variable {K V : Type}

theorem srcSum_le {σ σ' : HState K V} {bs : List Nat} {c : Nat}
    (h : ∀ b ∈ bs, countKids σ' b c ≤ countKids σ b c) :
    srcSum σ' bs c ≤ srcSum σ bs c := by
  unfold srcSum
  induction bs with
  | nil => simp
  | cons b bs ih =>
    simp only [List.map_cons, List.sum_cons]
    have h1 := h b (by simp)
    have h2 := ih (fun x hx => h x (by simp [hx]))
    omega

theorem frameInv_alloc {mem0 : Nat → Option (HNode K V)} {r2 : Nat}
    {σ : HState K V} (h : FrameInv mem0 r2 σ) (n : HNode K V)
    (hn : kidsOf n = []) : FrameInv mem0 r2 (allocNode σ n).1 := by
  obtain ⟨h1, h2, h3, h5⟩ := h
  refine ⟨?_, ?_, ?_, ?_⟩
  · intro b hb
    show (if b = σ.next then some n else σ.mem b) = mem0 b
    rw [if_neg (by have := h3 b hb; omega)]
    exact h1 b hb
  · intro b hb
    show (if b = σ.next then some n else σ.mem b) = none
    have hb2 : σ.next + 1 ≤ b := hb
    rw [if_neg (by omega)]
    exact h2 b (by omega)
  · intro b hb
    have := h3 b hb
    show b < σ.next + 1
    omega
  · intro c hc bs hnd hbs
    have hrc : (allocNode σ n).1.rc c = σ.rc c := by
      show (if c = σ.next then 1 else σ.rc c) = σ.rc c
      rw [if_neg (by have := h3 c hc; omega)]
    rw [hrc]
    have hss : srcSum (allocNode σ n).1 bs c = srcSum σ bs c := by
      refine srcSum_congr (fun b hb => ?_)
      show countKids ⟨_, _, _⟩ b c = countKids σ b c
      unfold countKids
      show (match (if b = σ.next then some n else σ.mem b) with
        | some n2 => occ (kidsOf n2) c | none => 0) = _
      by_cases hbn : b = σ.next
      · rw [if_pos hbn]
        show occ (kidsOf n) c = countKids σ b c
        rw [hn, countKids_of_none (h2 b (by omega)) c]
        rfl
      · rw [if_neg hbn]
    rw [hss]
    exact h5 c hc bs hnd hbs

theorem frameInv_write {mem0 : Nat → Option (HNode K V)} {r2 : Nat}
    {σ : HState K V} (h : FrameInv mem0 r2 σ) {x : Nat}
    (hx : ¬ ReachH mem0 r2 x) (hxlt : x < σ.next) (n : HNode K V)
    (hcount : ∀ c, ReachH mem0 r2 c → occ (kidsOf n) c ≤ countKids σ x c) :
    FrameInv mem0 r2 (writeMem σ x n) := by
  obtain ⟨h1, h2, h3, h5⟩ := h
  refine ⟨?_, ?_, ?_, ?_⟩
  · intro b hb
    show (if b = x then some n else σ.mem b) = mem0 b
    rw [if_neg (by rintro rfl; exact hx hb)]
    exact h1 b hb
  · intro b hb
    show (if b = x then some n else σ.mem b) = none
    have hb2 : σ.next ≤ b := hb
    rw [if_neg (by omega)]
    exact h2 b hb
  · exact h3
  · intro c hc bs hnd hbs
    show 1 + srcSum (writeMem σ x n) bs c ≤ σ.rc c
    have hss : srcSum (writeMem σ x n) bs c ≤ srcSum σ bs c := by
      refine srcSum_le (fun b hb => ?_)
      rw [countKids_write]
      by_cases hbx : b = x
      · rw [if_pos hbx, hbx]
        exact hcount c hc
      · rw [if_neg hbx]
    have := h5 c hc bs hnd hbs
    omega

end Ripl

namespace Ripl

variable {K V : Type}

theorem srcSum_append_single (σ : HState K V) (l : List Nat) (x c : Nat) :
    srcSum σ (l ++ [x]) c = srcSum σ l c + countKids σ x c := by
  unfold srcSum
  rw [List.map_append, List.sum_append]
  simp

/-- The heart of path-copying: taking the slot `pos` of the exclusively
owned node at `a` through `Arc::make_mut` and re-pointing the slot at the
result preserves the frame invariant, and the node the slot now holds is
not part of the clone's tree. -/
theorem frameInv_makeMut {mem0 : Nat → Option (HNode K V)} {r2 : Nat}
    {σ : HState K V} (h : FrameInv mem0 r2 σ) {a : Nat}
    (ha : ¬ ReachH mem0 r2 a) {n0 : HNode K V} (hmem : σ.mem a = some n0)
    {pos c0 : Nat} (hslot : (kidsOf n0).get? pos = some c0)
    {σ1 : HState K V} {c : Nat} (hmm : arcMakeMut σ c0 = some (σ1, c))
    {n' : HNode K V} (hn' : kidsOf n' = (kidsOf n0).set pos c) :
    FrameInv mem0 r2 (writeMem σ1 a n')
    ∧ ¬ ReachH mem0 r2 c
    ∧ σ.next ≤ (writeMem σ1 a n').next
    ∧ (∀ b c', ReachH mem0 r2 c' → b < σ.next →
        countKids (writeMem σ1 a n') b c' ≤ countKids σ b c') := by
  obtain ⟨h1, h2, h3, h5⟩ := h
  have halt : a < σ.next := by
    by_contra hc
    rw [h2 a (by omega)] at hmem
    cases hmem
  have hcnt_a : ∀ c2, countKids σ a c2 = occ (kidsOf n0) c2 := by
    intro c2
    unfold countKids
    rw [hmem]
  have hcnt_a0 : 1 ≤ countKids σ a c0 := by
    rw [hcnt_a]
    exact occ_pos_of_get hslot
  unfold arcMakeMut at hmm
  by_cases hrc1 : σ.rc c0 = 1
  · -- exclusive ownership: mutate in place
    rw [if_pos hrc1] at hmm
    have hp := Option.some.inj hmm
    simp only [Prod.mk.injEq] at hp
    obtain ⟨rfl, rfl⟩ := hp
    have hc0R : ¬ ReachH mem0 r2 c0 := by
      intro hR
      have := h5 c0 hR [a] (by simp) (by simpa using ha)
      rw [srcSum_cons] at this
      have hz : srcSum σ [] c0 = 0 := rfl
      omega
    have hkeq : kidsOf n' = kidsOf n0 := by
      rw [hn', list_set_self hslot]
    have hwr := frameInv_write ⟨h1, h2, h3, h5⟩ ha halt n'
      (fun c2 _ => by rw [hkeq, ← hcnt_a])
    refine ⟨hwr, hc0R, le_refl _, ?_⟩
    intro b c' hc' hblt
    rw [countKids_write]
    by_cases hba : b = a
    · rw [if_pos hba, hkeq, hba, hcnt_a c']
    · rw [if_neg hba]
  · -- shared: copy the node, bump its children, release one reference
    rw [if_neg hrc1] at hmm
    cases hm0 : σ.mem c0 with
    | none => rw [hm0] at hmm; cases hmm
    | some n =>
      rw [hm0] at hmm
      have hp := Option.some.inj hmm
      simp only [Prod.mk.injEq] at hp
      obtain ⟨hσ1, rfl⟩ := hp
      have hσmem : ∀ b, σ1.mem b = if b = σ.next then some n else σ.mem b := by
        intro b
        rw [← hσ1]
      have hσrc : ∀ b, σ1.rc b = if b = σ.next then 1
          else (σ.rc b + occ (kidsOf n) b) - (if b = c0 then 1 else 0) := by
        intro b
        rw [← hσ1]
      have hσnext : σ1.next = σ.next + 1 := by
        rw [← hσ1]
      have hcR : ¬ ReachH mem0 r2 σ.next := fun hR => by
        have := h3 _ hR
        omega
      have hmem2 : ∀ b, (writeMem σ1 a n').mem b
          = if b = a then some n' else if b = σ.next then some n else σ.mem b := by
        intro b
        show (if b = a then some n' else σ1.mem b) = _
        rw [hσmem b]
      have hrc2 : ∀ b, (writeMem σ1 a n').rc b
          = if b = σ.next then 1
            else (σ.rc b + occ (kidsOf n) b) - (if b = c0 then 1 else 0) := by
        intro b
        show σ1.rc b = _
        rw [hσrc b]
      have hnx2 : (writeMem σ1 a n').next = σ.next + 1 := by
        show σ1.next = _
        rw [hσnext]
      have hck2 : ∀ b c', countKids (writeMem σ1 a n') b c'
          = if b = a then occ (kidsOf n') c'
            else if b = σ.next then occ (kidsOf n) c'
            else countKids σ b c' := by
        intro b c'
        unfold countKids
        rw [hmem2 b]
        by_cases hba : b = a
        · rw [if_pos hba, if_pos hba]
        · rw [if_neg hba, if_neg hba]
          by_cases hbn : b = σ.next
          · rw [if_pos hbn, if_pos hbn]
          · rw [if_neg hbn, if_neg hbn]
      have hA : ∀ c', c' < σ.next →
          occ (kidsOf n') c' + (if c0 = c' then 1 else 0)
            = occ (kidsOf n0) c' := by
        intro c' hlt
        rw [hn']
        have h0 := occ_set hslot σ.next c'
        rw [if_neg (show ¬ (σ.next = c') by omega)] at h0
        omega
      refine ⟨⟨?_, ?_, ?_, ?_⟩, hcR, by rw [hnx2]; omega, ?_⟩
      · intro b hb
        rw [hmem2 b]
        rw [if_neg (by rintro rfl; exact ha hb),
          if_neg (by have := h3 b hb; omega)]
        exact h1 b hb
      · intro b hb
        rw [hnx2] at hb
        rw [hmem2 b]
        rw [if_neg (by omega), if_neg (by omega)]
        exact h2 b (by omega)
      · intro b hb
        have := h3 b hb
        rw [hnx2]
        omega
      · intro c' hc' bs hnd hbs
        have hc'lt : c' < σ.next := h3 c' hc'
        rw [hrc2 c', if_neg (show ¬ (c' = σ.next) by omega)]
        have hbsA : ∀ x ∈ bs.erase σ.next, x ∈ bs := fun x hx =>
          List.mem_of_mem_erase hx
        have hbsB : ∀ x ∈ (bs.erase σ.next).erase a, x ∈ bs := fun x hx =>
          hbsA x (List.mem_of_mem_erase hx)
        have hndA : (bs.erase σ.next).Nodup := hnd.erase _
        have hndB : ((bs.erase σ.next).erase a).Nodup := hndA.erase _
        have hS1 : srcSum (writeMem σ1 a n') bs c'
            = (if σ.next ∈ bs then occ (kidsOf n) c' else 0)
              + srcSum (writeMem σ1 a n') (bs.erase σ.next) c' := by
          by_cases hmem3 : σ.next ∈ bs
          · rw [if_pos hmem3, srcSum_erase c' hmem3, hck2]
            rw [if_neg (show ¬ (σ.next = a) by omega), if_pos rfl]
          · rw [if_neg hmem3, List.erase_of_not_mem hmem3]
            omega
        have hS2 : srcSum (writeMem σ1 a n') (bs.erase σ.next) c'
            = (if a ∈ bs.erase σ.next then occ (kidsOf n') c' else 0)
              + srcSum (writeMem σ1 a n') ((bs.erase σ.next).erase a) c' := by
          by_cases hmem3 : a ∈ bs.erase σ.next
          · rw [if_pos hmem3, srcSum_erase c' hmem3, hck2, if_pos rfl]
          · rw [if_neg hmem3, List.erase_of_not_mem hmem3]
            omega
        have hS3 : srcSum (writeMem σ1 a n') ((bs.erase σ.next).erase a) c'
            = srcSum σ ((bs.erase σ.next).erase a) c' := by
          refine srcSum_congr (fun b hb => ?_)
          have hbne_a : b ≠ a := (hndA.mem_erase_iff.mp hb).1
          have hbne_n : b ≠ σ.next :=
            (hnd.mem_erase_iff.mp (List.mem_of_mem_erase hb)).1
          rw [hck2, if_neg hbne_a, if_neg hbne_n]
        have hand : a ∉ (bs.erase σ.next).erase a := fun hmem4 =>
          ((hndA.mem_erase_iff.mp hmem4).1) rfl
        have hndC : (((bs.erase σ.next).erase a) ++ [a]).Nodup := by
          have hperm := List.perm_append_singleton a ((bs.erase σ.next).erase a)
          rw [hperm.nodup_iff]
          exact List.nodup_cons.mpr ⟨hand, hndB⟩
        have hP1 := h5 c' hc' (((bs.erase σ.next).erase a) ++ [a]) hndC
          (by
            intro b hb
            rcases List.mem_append.mp hb with hb2 | hb2
            · exact hbs b (hbsB b hb2)
            · rw [List.mem_singleton.mp hb2]
              exact ha)
        rw [srcSum_append_single, hcnt_a c'] at hP1
        have hAc := hA c' hc'lt
        have hbridge : (if c' = c0 then (1 : Nat) else 0)
            = (if c0 = c' then 1 else 0) := by
          by_cases hcc : c' = c0
          · subst hcc; simp
          · rw [if_neg hcc, if_neg (fun hh => hcc hh.symm)]
        rw [hS1, hS2, hS3]
        by_cases hin1 : σ.next ∈ bs <;> by_cases hin2 : a ∈ bs.erase σ.next
        · rw [if_pos hin1, if_pos hin2]; omega
        · rw [if_pos hin1, if_neg hin2]; omega
        · rw [if_neg hin1, if_pos hin2]; omega
        · rw [if_neg hin1, if_neg hin2]; omega
      · intro b c' hc' hblt
        have hAc := hA c' (h3 c' hc')
        rw [hck2]
        by_cases hba : b = a
        · rw [if_pos hba, hba, hcnt_a c']
          omega
        · rw [if_neg hba, if_neg (show ¬ (b = σ.next) by omega)]

end Ripl

namespace Ripl

variable {K V : Type}

theorem occ_insertIdx_le (x c : Nat) :
    ∀ (pos : Nat) (l : List Nat),
      occ (l.insertIdx pos x) c ≤ occ l c + (if x = c then 1 else 0) := by
  intro pos
  induction pos with
  | zero =>
    intro l
    rw [List.insertIdx_zero]
    show (if x = c then 1 else 0) + occ l c ≤ _
    omega
  | succ p ih =>
    intro l
    cases l with
    | nil =>
      show occ [] c ≤ occ [] c + _
      omega
    | cons y ys =>
      rw [List.insertIdx_succ_cons]
      show (if y = c then 1 else 0) + occ (ys.insertIdx p x) c ≤ _
      have := ih ys
      show _ ≤ (if y = c then 1 else 0) + occ ys c + _
      omega

theorem occ_eraseIdx :
    ∀ {l : List Nat} {pos c0 : Nat}, l.get? pos = some c0 → ∀ c,
      occ (l.eraseIdx pos) c + (if c0 = c then 1 else 0) = occ l c := by
  intro l
  induction l with
  | nil => intro pos c0 h; cases h
  | cons x xs ih =>
    intro pos c0 h c
    cases pos with
    | zero =>
      have hx : x = c0 := Option.some.inj h
      subst hx
      show occ xs c + _ = occ (x :: xs) c
      simp only [occ]
      omega
    | succ p =>
      have h2 : xs.get? p = some c0 := h
      show occ (x :: xs.eraseIdx p) c + _ = occ (x :: xs) c
      simp only [occ]
      have := ih h2 c
      omega

/-- Dropping an exclusively-owned allocation (`Arc::try_unwrap` on the
removed store) preserves the frame invariant. -/
theorem frameInv_dealloc {mem0 : Nat → Option (HNode K V)} {r2 : Nat}
    {σ : HState K V} (h : FrameInv mem0 r2 σ) {x : Nat}
    (hx : ¬ ReachH mem0 r2 x) :
    FrameInv mem0 r2
      ⟨fun b => if b = x then none else σ.mem b,
        fun b => if b = x then 0 else σ.rc b, σ.next⟩
    ∧ (∀ b c', b < σ.next →
        countKids (⟨fun b => if b = x then none else σ.mem b,
          fun b => if b = x then 0 else σ.rc b, σ.next⟩ : HState K V) b c'
          ≤ countKids σ b c') := by
  obtain ⟨h1, h2, h3, h5⟩ := h
  have hck : ∀ b c', countKids (⟨fun b => if b = x then none else σ.mem b,
      fun b => if b = x then 0 else σ.rc b, σ.next⟩ : HState K V) b c'
      ≤ countKids σ b c' := by
    intro b c'
    unfold countKids
    show (match (if b = x then none else σ.mem b) with
      | some n => occ (kidsOf n) c' | none => 0) ≤ _
    by_cases hbx : b = x
    · rw [if_pos hbx]
      exact Nat.zero_le _
    · rw [if_neg hbx]
  refine ⟨⟨?_, ?_, ?_, ?_⟩, fun b c' _ => hck b c'⟩
  · intro b hb
    show (if b = x then none else σ.mem b) = mem0 b
    rw [if_neg (by rintro rfl; exact hx hb)]
    exact h1 b hb
  · intro b hb
    show (if b = x then none else σ.mem b) = none
    by_cases hbx : b = x
    · rw [if_pos hbx]
    · rw [if_neg hbx]
      exact h2 b hb
  · exact h3
  · intro c hc bs hnd hbs
    show 1 + srcSum _ bs c ≤ (if c = x then 0 else σ.rc c)
    rw [if_neg (by rintro rfl; exact hx hc)]
    have hss : srcSum (⟨fun b => if b = x then none else σ.mem b,
        fun b => if b = x then 0 else σ.rc b, σ.next⟩ : HState K V) bs c
        ≤ srcSum σ bs c := srcSum_le (fun b _ => hck b c)
    have := h5 c hc bs hnd hbs
    omega

theorem reachH_trans {mem : Nat → Option (HNode K V)} {r b c : Nat}
    (h1 : ReachH mem r b) (h2 : ReachH mem b c) : ReachH mem r c := by
  induction h2 with
  | refl => exact h1
  | step b2 n c2 _ hm hc ih => exact ReachH.step b2 n c2 ih hm hc

theorem hGet_agree [DecidableEq K] :
    ∀ fuel (σ σ' : HState K V) (a hash : Nat) (key : K) (level w : Nat),
      (∀ b, ReachH σ.mem a b → σ'.mem b = σ.mem b) →
      hGet fuel σ' a hash key level w = hGet fuel σ a hash key level w := by
  intro fuel
  induction fuel with
  | zero => intro σ σ' a hash key level w _; rfl
  | succ fuel ih =>
    intro σ σ' a hash key level w hag
    have hma : σ'.mem a = σ.mem a := hag a ReachH.refl
    unfold hGet
    rw [hma]
    cases hm : σ.mem a with
    | none => rfl
    | some n =>
      cases n with
      | S h2 k2 v2 => rfl
      | M w2 hf2 sup2 rt => rfl
      | C bm kids =>
        simp only []
        by_cases hvac : bm &&& (flagpos bm hash level w).1 = 0
        · simp only [if_pos hvac]
        · simp only [if_neg hvac]
          cases hk : kids.get? (flagpos bm hash level w).2 with
          | none => rfl
          | some c =>
            simp only []
            have hcr : ReachH σ.mem a c :=
              ReachH.step a (.C bm kids) c ReachH.refl hm
                (List.get?_mem hk)
            have hmc : σ'.mem c = σ.mem c := hag c hcr
            rw [hmc]
            cases hmcc : σ.mem c with
            | none => rfl
            | some n2 =>
              cases n2 with
              | S h2 k2 v2 => rfl
              | C bm2 kids2 =>
                simp only []
                exact ih σ σ' c hash key (level + w) w
                  (fun b hb => hag b (reachH_trans hcr hb))
              | M w2 hf2 sup2 rt =>
                simp only []
                have hrr : ReachH σ.mem a rt :=
                  ReachH.step c (.M w2 hf2 sup2 rt) rt hcr hmcc (by
                    show rt ∈ kidsOf (.M w2 hf2 sup2 rt)
                    simp [kidsOf])
                exact ih σ σ' rt (hf2 key) key 0 w2
                  (fun b hb => hag b (reachH_trans hrr hb))

end Ripl

namespace Ripl

variable {K V : Type}

theorem countKids_alloc (σ : HState K V) (n : HNode K V) {b : Nat}
    (hb : b ≠ σ.next) (c : Nat) :
    countKids (allocNode σ n).1 b c = countKids σ b c := by
  unfold countKids
  show (match (if b = σ.next then some n else σ.mem b) with
    | some n2 => occ (kidsOf n2) c | none => 0) = _
  rw [if_neg hb]

theorem frameInv_lt_next {mem0 : Nat → Option (HNode K V)} {r2 : Nat}
    {σ : HState K V} (h : FrameInv mem0 r2 σ) {x : Nat} {n : HNode K V}
    (hx : σ.mem x = some n) : x < σ.next := by
  by_contra hc
  rw [h.2.1 x (by omega)] at hx
  cases hx

theorem writeMem_next (σ : HState K V) (a : Nat) (n : HNode K V) :
    (writeMem σ a n).next = σ.next := rfl

theorem hInsertC_frame [DecidableEq K]
    (mem0 : Nat → Option (HNode K V)) (r2 : Nat) :
    ∀ fuel (σ : HState K V) (a : Nat) (sup : Nat → K → Nat) (hash : Nat)
      (key : K) (val : V) (level w : Nat) (σ' : HState K V) (old : Option V),
      FrameInv mem0 r2 σ → ¬ ReachH mem0 r2 a →
      hInsertC fuel σ a sup hash key val level w = some (σ', old) →
      FrameInv mem0 r2 σ'
      ∧ σ.next ≤ σ'.next
      ∧ (∀ b c', ReachH mem0 r2 c' → b < σ.next →
          countKids σ' b c' ≤ countKids σ b c') := by
  intro fuel
  induction fuel with
  | zero =>
    intro σ a sup hash key val level w σ' old _ _ hrun
    exact absurd hrun (by simp [hInsertC])
  | succ fuel ih =>
    intro σ a sup hash key val level w σ' old hI ha hrun
    simp only [hInsertC] at hrun
    cases hma : σ.mem a with
    | none => rw [hma] at hrun; cases hrun
    | some na =>
      rw [hma] at hrun
      cases na with
      | S h2 k2 v2 => cases hrun
      | M w2 hf2 sup2 rt => cases hrun
      | C bm kids =>
        simp only [] at hrun
        have halt : a < σ.next := frameInv_lt_next hI hma
        by_cases hvac : bm &&& (flagpos bm hash level w).1 = 0
        · -- vacancy: allocate the store and splice it in
          rw [if_pos hvac] at hrun
          rw [show (allocNode σ (HNode.S hash key val)).2 = σ.next from rfl]
            at hrun
          have h := Option.some.inj hrun
          simp only [Prod.mk.injEq] at h
          obtain ⟨rfl, rfl⟩ := h
          have hIa : FrameInv mem0 r2 (allocNode σ (.S hash key val)).1 :=
            frameInv_alloc hI _ rfl
          have hkeep : ∀ c', countKids (allocNode σ (.S hash key val)).1 a c'
              = occ kids c' := by
            intro c'
            rw [countKids_alloc σ _ (by omega) c']
            unfold countKids
            rw [hma]
            rfl
          have hocc : ∀ c', ReachH mem0 r2 c' →
              occ (kids.insertIdx (flagpos bm hash level w).2 σ.next) c'
                ≤ occ kids c' := by
            intro c' hc'
            have h1 := occ_insertIdx_le σ.next c' (flagpos bm hash level w).2 kids
            rw [if_neg (show ¬ (σ.next = c') by
              have := hI.2.2.1 c' hc'; omega)] at h1
            omega
          refine ⟨?_, ?_, ?_⟩
          · refine frameInv_write hIa ha (by show a < σ.next + 1; omega) _
              (fun c' hc' => ?_)
            show occ (kids.insertIdx (flagpos bm hash level w).2 σ.next) c' ≤ _
            rw [hkeep c']
            exact hocc c' hc'
          · show σ.next ≤ σ.next + 1
            omega
          · intro b c' hc' hblt
            rw [countKids_write]
            by_cases hba : b = a
            · rw [if_pos hba]
              show occ (kids.insertIdx (flagpos bm hash level w).2 σ.next) c' ≤ _
              have h2 : countKids σ b c' = occ kids c' := by
                rw [hba]
                unfold countKids
                rw [hma]
                rfl
              rw [h2]
              exact hocc c' hc'
            · rw [if_neg hba, countKids_alloc σ _ (by omega) c']
        · -- occupied: make_mut the slot's branch, then dispatch
          rw [if_neg hvac] at hrun
          cases hk : kids.get? (flagpos bm hash level w).2 with
          | none => rw [hk] at hrun; cases hrun
          | some c0 =>
            rw [hk] at hrun
            simp only [] at hrun
            cases hmm2 : arcMakeMut σ c0 with
            | none => rw [hmm2] at hrun; cases hrun
            | some p =>
              obtain ⟨σ1, c⟩ := p
              rw [hmm2] at hrun
              simp only [] at hrun
              obtain ⟨hI2, hcR, hnx2, hct2⟩ :=
                frameInv_makeMut hI ha hma
                  (show (kidsOf (.C bm kids)).get? _ = some c0 from hk)
                  hmm2
                  (show kidsOf (.C bm (kids.set (flagpos bm hash level w).2 c))
                    = (kidsOf (.C bm kids)).set _ c from rfl)
              cases hmc : (writeMem σ1 a (.C bm
                  (kids.set (flagpos bm hash level w).2 c))).mem c with
              | none => rw [hmc] at hrun; cases hrun
              | some nc =>
                rw [hmc] at hrun
                have hclt : c < (writeMem σ1 a (.C bm
                    (kids.set (flagpos bm hash level w).2 c))).next :=
                  frameInv_lt_next hI2 hmc
                cases nc with
                | M w2 hf2 sup2 rt =>
                  simp only [] at hrun
                  cases hmm3 : arcMakeMut (writeMem σ1 a (.C bm
                      (kids.set (flagpos bm hash level w).2 c))) rt with
                  | none => rw [hmm3] at hrun; cases hrun
                  | some p3 =>
                    obtain ⟨σ3, rt2⟩ := p3
                    rw [hmm3] at hrun
                    simp only [] at hrun
                    obtain ⟨hI4, hcR4, hnx4, hct4⟩ :=
                      frameInv_makeMut hI2 hcR hmc
                        (show (kidsOf (.M w2 hf2 sup2 rt)).get? 0
                          = some rt from rfl)
                        hmm3
                        (show kidsOf (.M w2 hf2 sup2 rt2)
                          = (kidsOf (.M w2 hf2 sup2 rt)).set 0 rt2 from rfl)
                    obtain ⟨hI', hnx', hct'⟩ :=
                      ih _ rt2 sup2 (hf2 key) key val 0 w2 σ' old hI4 hcR4 hrun
                    refine ⟨hI', by omega, ?_⟩
                    intro b c' hc' hblt
                    calc countKids σ' b c'
                        ≤ countKids _ b c' := hct' b c' hc' (by omega)
                      _ ≤ countKids _ b c' := hct4 b c' hc' (by omega)
                      _ ≤ countKids σ b c' := hct2 b c' hc' hblt
                | C bm2 kids2 =>
                  simp only [] at hrun
                  obtain ⟨hI', hnx', hct'⟩ :=
                    ih _ c sup hash key val (level + w) w σ' old hI2 hcR hrun
                  refine ⟨hI', by omega, ?_⟩
                  intro b c' hc' hblt
                  calc countKids σ' b c'
                      ≤ countKids _ b c' := hct' b c' hc' (by omega)
                    _ ≤ countKids σ b c' := hct2 b c' hc' hblt
                | S h2 k2 v2 =>
                  simp only [] at hrun
                  by_cases hkey : key = k2
                  · rw [if_pos hkey] at hrun
                    have h := Option.some.inj hrun
                    simp only [Prod.mk.injEq] at h
                    obtain ⟨rfl, rfl⟩ := h
                    refine ⟨frameInv_write hI2 hcR hclt _
                        (fun c' _ => by
                          show occ (kidsOf (.S h2 k2 val)) c' ≤ _
                          exact Nat.zero_le _),
                      by simp only [writeMem_next] at hnx2 ⊢; omega, ?_⟩
                    intro b c' hc' hblt
                    rw [countKids_write]
                    by_cases hbc : b = c
                    · rw [if_pos hbc]
                      show occ (kidsOf (.S h2 k2 val)) c' ≤ _
                      exact Nat.zero_le _
                    · rw [if_neg hbc]
                      exact hct2 b c' hc' hblt
                  · rw [if_neg hkey] at hrun
                    have hrtR : ¬ ReachH mem0 r2 (allocNode (writeMem σ1 a
                        (.C bm (kids.set (flagpos bm hash level w).2 c)))
                        (.C 0 [])).2 := by
                      intro hR
                      have h4 := hI2.2.2.1 _ hR
                      have h5 : (allocNode (writeMem σ1 a
                          (.C bm (kids.set (flagpos bm hash level w).2 c)))
                          (.C 0 [])).2
                          = (writeMem σ1 a (.C bm
                            (kids.set (flagpos bm hash level w).2 c))).next := rfl
                      omega
                    have hI3 : FrameInv mem0 r2 (allocNode (writeMem σ1 a
                        (.C bm (kids.set (flagpos bm hash level w).2 c)))
                        (.C 0 [])).1 :=
                      frameInv_alloc hI2 _ rfl
                    have hnx3 : (allocNode (writeMem σ1 a
                        (.C bm (kids.set (flagpos bm hash level w).2 c)))
                        (.C 0 [])).1.next
                        = (writeMem σ1 a (.C bm
                          (kids.set (flagpos bm hash level w).2 c))).next + 1 :=
                      rfl
                    have hrt_eq : (allocNode (writeMem σ1 a
                        (.C bm (kids.set (flagpos bm hash level w).2 c)))
                        (.C 0 [])).2
                        = (writeMem σ1 a (.C bm
                          (kids.set (flagpos bm hash level w).2 c))).next := rfl
                    by_cases hh : hash = h2
                    · -- full collision: nested map
                      rw [if_pos hh] at hrun
                      cases hr1 : hInsertC fuel
                          (allocNode (writeMem σ1 a (.C bm
                            (kids.set (flagpos bm hash level w).2 c))) (.C 0 [])).1
                          (allocNode (writeMem σ1 a (.C bm
                            (kids.set (flagpos bm hash level w).2 c))) (.C 0 [])).2
                          (fun n => sup (n + 1)) (sup 0 k2) k2 v2 0
                          (log2c (1 <<< w)) with
                      | none => rw [hr1] at hrun; cases hrun
                      | some p4 =>
                        obtain ⟨σ4, o1⟩ := p4
                        rw [hr1] at hrun
                        simp only [] at hrun
                        obtain ⟨hI4, hnx4, hct4⟩ :=
                          ih _ _ _ _ k2 v2 0 _ σ4 o1 hI3 hrtR hr1
                        cases hr2 : hInsertC fuel σ4
                            (allocNode (writeMem σ1 a (.C bm
                              (kids.set (flagpos bm hash level w).2 c))) (.C 0 [])).2
                            (fun n => sup (n + 1)) (sup 0 key) key val 0
                            (log2c (1 <<< w)) with
                        | none => rw [hr2] at hrun; cases hrun
                        | some p5 =>
                          obtain ⟨σ5, o2⟩ := p5
                          rw [hr2] at hrun
                          simp only [] at hrun
                          obtain ⟨hI5, hnx5, hct5⟩ :=
                            ih _ _ _ _ key val 0 _ σ5 o2 hI4 hrtR hr2
                          have h := Option.some.inj hrun
                          simp only [Prod.mk.injEq] at h
                          obtain ⟨rfl, rfl⟩ := h
                          rw [hnx3] at hnx4
                          have hrtc : ∀ c', ReachH mem0 r2 c' →
                              occ (kidsOf (.M (log2c (1 <<< w)) (sup 0)
                                (fun n => sup (n + 1))
                                (allocNode (writeMem σ1 a (.C bm
                                  (kids.set (flagpos bm hash level w).2 c)))
                                  (.C 0 [])).2 : HNode K V)) c' = 0 := by
                            intro c' hc'
                            show (if (allocNode (writeMem σ1 a (.C bm
                              (kids.set (flagpos bm hash level w).2 c)))
                                (.C 0 [])).2 = c' then 1 else 0) + occ [] c' = 0
                            rw [if_neg (show ¬ ((allocNode (writeMem σ1 a (.C bm
                              (kids.set (flagpos bm hash level w).2 c)))
                                (.C 0 [])).2 = c') by
                              rw [hrt_eq]
                              have := hI2.2.2.1 c' hc'
                              omega)]
                            rfl
                          refine ⟨?_,
                            by simp only [writeMem_next] at hnx2 hnx4 hnx5 ⊢
                               omega, ?_⟩
                          · refine frameInv_write hI5 hcR
                              (by simp only [writeMem_next] at hnx2 hnx4 hnx5 hclt ⊢
                                  omega) _
                              (fun c' hc' => ?_)
                            rw [hrtc c' hc']
                            exact Nat.zero_le _
                          · intro b c' hc' hblt
                            rw [countKids_write]
                            by_cases hbc : b = c
                            · rw [if_pos hbc, hrtc c' hc']
                              exact Nat.zero_le _
                            · rw [if_neg hbc]
                              calc countKids σ5 b c'
                                  ≤ countKids σ4 b c' :=
                                    hct5 b c' hc' (by omega)
                                _ ≤ countKids _ b c' :=
                                    hct4 b c' hc' (by rw [hnx3]; omega)
                                _ = countKids _ b c' :=
                                    countKids_alloc _ _ (by omega) c'
                                _ ≤ countKids σ b c' := hct2 b c' hc' hblt
                    · -- partial collision: split into a CNode one level down
                      rw [if_neg hh] at hrun
                      cases hr1 : hInsertC fuel
                          (allocNode (writeMem σ1 a (.C bm
                            (kids.set (flagpos bm hash level w).2 c))) (.C 0 [])).1
                          (allocNode (writeMem σ1 a (.C bm
                            (kids.set (flagpos bm hash level w).2 c))) (.C 0 [])).2
                          sup h2 k2 v2 (level + w) w with
                      | none => rw [hr1] at hrun; cases hrun
                      | some p4 =>
                        obtain ⟨σ4, o1⟩ := p4
                        rw [hr1] at hrun
                        simp only [] at hrun
                        obtain ⟨hI4, hnx4, hct4⟩ :=
                          ih _ _ _ _ k2 v2 (level + w) _ σ4 o1 hI3 hrtR hr1
                        cases hr2 : hInsertC fuel σ4
                            (allocNode (writeMem σ1 a (.C bm
                              (kids.set (flagpos bm hash level w).2 c))) (.C 0 [])).2
                            sup hash key val (level + w) w with
                        | none => rw [hr2] at hrun; cases hrun
                        | some p5 =>
                          obtain ⟨σ5, o2⟩ := p5
                          rw [hr2] at hrun
                          simp only [] at hrun
                          obtain ⟨hI5, hnx5, hct5⟩ :=
                            ih _ _ _ _ key val (level + w) _ σ5 o2 hI4 hrtR hr2
                          rw [hnx3] at hnx4
                          cases hmrt : σ5.mem (allocNode (writeMem σ1 a (.C bm
                              (kids.set (flagpos bm hash level w).2 c)))
                              (.C 0 [])).2 with
                          | none => rw [hmrt] at hrun; cases hrun
                          | some n5 =>
                            rw [hmrt] at hrun
                            simp only [] at hrun
                            have h := Option.some.inj hrun
                            simp only [Prod.mk.injEq] at h
                            obtain ⟨rfl, rfl⟩ := h
                            have hrt0 : ∀ c', ReachH mem0 r2 c' →
                                occ (kidsOf n5) c' = 0 := by
                              intro c' hc'
                              have he5 : countKids σ5 (allocNode (writeMem σ1 a
                                  (.C bm (kids.set (flagpos bm hash level w).2 c)))
                                  (.C 0 [])).2 c' = occ (kidsOf n5) c' := by
                                unfold countKids
                                rw [hmrt]
                              have hmA : (allocNode (writeMem σ1 a
                                  (.C bm (kids.set (flagpos bm hash level w).2 c)))
                                  (.C 0 [])).1.mem
                                  (allocNode (writeMem σ1 a (.C bm
                                    (kids.set (flagpos bm hash level w).2 c)))
                                    (.C 0 [])).2 = some (HNode.C 0 []) := by
                                show (if (writeMem σ1 a (.C bm
                                    (kids.set (flagpos bm hash level w).2 c))).next
                                    = (writeMem σ1 a (.C bm
                                      (kids.set (flagpos bm hash level w).2 c))).next
                                  then some (HNode.C 0 [])
                                  else (writeMem σ1 a (.C bm
                                    (kids.set (flagpos bm hash level w).2 c))).mem
                                    (writeMem σ1 a (.C bm
                                      (kids.set (flagpos bm hash level w).2 c))).next)
                                  = some (HNode.C 0 [])
                                rw [if_pos rfl]
                              have hza : countKids (allocNode (writeMem σ1 a
                                  (.C bm (kids.set (flagpos bm hash level w).2 c)))
                                  (.C 0 [])).1
                                  (allocNode (writeMem σ1 a (.C bm
                                    (kids.set (flagpos bm hash level w).2 c)))
                                    (.C 0 [])).2 c' = 0 := by
                                unfold countKids
                                rw [hmA]
                                rfl
                              have hchain : countKids σ5 (allocNode (writeMem σ1 a
                                  (.C bm (kids.set (flagpos bm hash level w).2 c)))
                                  (.C 0 [])).2 c' ≤ 0 := by
                                calc countKids σ5 _ c'
                                    ≤ countKids σ4 _ c' :=
                                      hct5 _ c' hc' (by rw [hrt_eq]; omega)
                                  _ ≤ countKids _ _ c' :=
                                      hct4 _ c' hc' (by rw [hrt_eq, hnx3]; omega)
                                  _ = 0 := hza
                              omega
                            refine ⟨?_,
                              by simp only [writeMem_next] at hnx2 hnx4 hnx5 ⊢
                                 omega, ?_⟩
                            · refine frameInv_write hI5 hcR
                                (by simp only [writeMem_next] at hnx2 hnx4 hnx5 hclt ⊢
                                    omega) _
                                (fun c' hc' => ?_)
                              rw [hrt0 c' hc']
                              exact Nat.zero_le _
                            · intro b c' hc' hblt
                              rw [countKids_write]
                              by_cases hbc : b = c
                              · rw [if_pos hbc, hrt0 c' hc']
                                exact Nat.zero_le _
                              · rw [if_neg hbc]
                                calc countKids σ5 b c'
                                    ≤ countKids σ4 b c' :=
                                      hct5 b c' hc' (by omega)
                                  _ ≤ countKids _ b c' :=
                                      hct4 b c' hc' (by rw [hnx3]; omega)
                                  _ = countKids _ b c' :=
                                      countKids_alloc _ _ (by omega) c'
                                  _ ≤ countKids σ b c' := hct2 b c' hc' hblt

end Ripl

namespace Ripl

variable {K V : Type}

theorem hRemoveC_frame [DecidableEq K]
    (mem0 : Nat → Option (HNode K V)) (r2 : Nat) :
    ∀ fuel (σ : HState K V) (a hash : Nat) (key : K) (level w : Nat)
      (σ' : HState K V) (old : Option V),
      FrameInv mem0 r2 σ → ¬ ReachH mem0 r2 a →
      hRemoveC fuel σ a hash key level w = some (σ', old) →
      FrameInv mem0 r2 σ'
      ∧ σ.next ≤ σ'.next
      ∧ (∀ b c', ReachH mem0 r2 c' → b < σ.next →
          countKids σ' b c' ≤ countKids σ b c') := by
  intro fuel
  induction fuel with
  | zero =>
    intro σ a hash key level w σ' old _ _ hrun
    exact absurd hrun (by simp [hRemoveC])
  | succ fuel ih =>
    intro σ a hash key level w σ' old hI ha hrun
    simp only [hRemoveC] at hrun
    cases hma : σ.mem a with
    | none => rw [hma] at hrun; cases hrun
    | some na =>
      rw [hma] at hrun
      cases na with
      | S h2 k2 v2 => cases hrun
      | M w2 hf2 sup2 rt => cases hrun
      | C bm kids =>
        simp only [] at hrun
        have halt : a < σ.next := frameInv_lt_next hI hma
        by_cases hvac : bm &&& (flagpos bm hash level w).1 = 0
        · rw [if_pos hvac] at hrun
          have h := Option.some.inj hrun
          simp only [Prod.mk.injEq] at h
          obtain ⟨rfl, rfl⟩ := h
          exact ⟨hI, le_refl _, fun b c' _ _ => le_refl _⟩
        · rw [if_neg hvac] at hrun
          cases hk : kids.get? (flagpos bm hash level w).2 with
          | none => rw [hk] at hrun; cases hrun
          | some c0 =>
            rw [hk] at hrun
            simp only [] at hrun
            cases hmm2 : arcMakeMut σ c0 with
            | none => rw [hmm2] at hrun; cases hrun
            | some p =>
              obtain ⟨σ1, c⟩ := p
              rw [hmm2] at hrun
              simp only [] at hrun
              obtain ⟨hI2, hcR, hnx2, hct2⟩ :=
                frameInv_makeMut hI ha hma
                  (show (kidsOf (.C bm kids)).get? _ = some c0 from hk)
                  hmm2
                  (show kidsOf (.C bm (kids.set (flagpos bm hash level w).2 c))
                    = (kidsOf (.C bm kids)).set _ c from rfl)
              cases hmc : (writeMem σ1 a (.C bm
                  (kids.set (flagpos bm hash level w).2 c))).mem c with
              | none => rw [hmc] at hrun; cases hrun
              | some nc =>
                rw [hmc] at hrun
                have hclt : c < (writeMem σ1 a (.C bm
                    (kids.set (flagpos bm hash level w).2 c))).next :=
                  frameInv_lt_next hI2 hmc
                cases nc with
                | M w2 hf2 sup2 rt =>
                  simp only [] at hrun
                  cases hmm3 : arcMakeMut (writeMem σ1 a (.C bm
                      (kids.set (flagpos bm hash level w).2 c))) rt with
                  | none => rw [hmm3] at hrun; cases hrun
                  | some p3 =>
                    obtain ⟨σ3, rt2⟩ := p3
                    rw [hmm3] at hrun
                    simp only [] at hrun
                    obtain ⟨hI4, hcR4, hnx4, hct4⟩ :=
                      frameInv_makeMut hI2 hcR hmc
                        (show (kidsOf (.M w2 hf2 sup2 rt)).get? 0
                          = some rt from rfl)
                        hmm3
                        (show kidsOf (.M w2 hf2 sup2 rt2)
                          = (kidsOf (.M w2 hf2 sup2 rt)).set 0 rt2 from rfl)
                    obtain ⟨hI', hnx', hct'⟩ :=
                      ih _ rt2 (hf2 key) key 0 w2 σ' old hI4 hcR4 hrun
                    refine ⟨hI', by omega, ?_⟩
                    intro b c' hc' hblt
                    calc countKids σ' b c'
                        ≤ countKids _ b c' := hct' b c' hc' (by omega)
                      _ ≤ countKids _ b c' := hct4 b c' hc' (by omega)
                      _ ≤ countKids σ b c' := hct2 b c' hc' hblt
                | C bm2 kids2 =>
                  simp only [] at hrun
                  obtain ⟨hI', hnx', hct'⟩ :=
                    ih _ c hash key (level + w) w σ' old hI2 hcR hrun
                  refine ⟨hI', by omega, ?_⟩
                  intro b c' hc' hblt
                  calc countKids σ' b c'
                      ≤ countKids _ b c' := hct' b c' hc' (by omega)
                    _ ≤ countKids σ b c' := hct2 b c' hc' hblt
                | S h2 k2 v2 =>
                  simp only [] at hrun
                  by_cases hkey : k2 ≠ key
                  · rw [if_pos hkey] at hrun
                    have h := Option.some.inj hrun
                    simp only [Prod.mk.injEq] at h
                    obtain ⟨rfl, rfl⟩ := h
                    exact ⟨hI2, hnx2, hct2⟩
                  · rw [if_neg hkey] at hrun
                    have h := Option.some.inj hrun
                    simp only [Prod.mk.injEq] at h
                    obtain ⟨rfl, rfl⟩ := h
                    have hm2a : (writeMem σ1 a (.C bm
                        (kids.set (flagpos bm hash level w).2 c))).mem a
                        = some (.C bm (kids.set (flagpos bm hash level w).2 c)) := by
                      show (if a = a then _ else _) = _
                      rw [if_pos rfl]
                    have hocc3 : ∀ c', ReachH mem0 r2 c' →
                        occ (kids.eraseIdx (flagpos bm hash level w).2) c'
                          ≤ countKids (writeMem σ1 a (.C bm
                            (kids.set (flagpos bm hash level w).2 c))) a c' := by
                      intro c' hc'
                      have he := occ_eraseIdx hk c'
                      have hs := occ_set hk c c'
                      have hca : countKids (writeMem σ1 a (.C bm
                          (kids.set (flagpos bm hash level w).2 c))) a c'
                          = occ (kids.set (flagpos bm hash level w).2 c) c' := by
                        unfold countKids
                        rw [hm2a]
                        rfl
                      omega
                    have hI3 : FrameInv mem0 r2 (writeMem (writeMem σ1 a (.C bm
                        (kids.set (flagpos bm hash level w).2 c))) a
                        (.C (bm ^^^ (flagpos bm hash level w).1)
                          (kids.eraseIdx (flagpos bm hash level w).2))) :=
                      frameInv_write hI2 ha
                        (by simp only [writeMem_next] at hnx2 ⊢; omega) _
                        (fun c' hc' => hocc3 c' hc')
                    obtain ⟨hI4, hct4⟩ := frameInv_dealloc hI3 hcR
                    refine ⟨hI4, ?_, ?_⟩
                    · simp only [writeMem_next] at hnx2 ⊢
                      omega
                    · intro b c' hc' hblt
                      have h4 := hct4 b c'
                        (by simp only [writeMem_next] at hnx2 ⊢; omega)
                      refine le_trans h4 ?_
                      rw [countKids_write]
                      by_cases hba : b = a
                      · rw [if_pos hba]
                        refine le_trans (hocc3 c' hc') ?_
                        rw [hba]
                        exact hct2 a c' hc' (by omega)
                      · rw [if_neg hba]
                        exact hct2 b c' hc' hblt

end Ripl

namespace Ripl

variable {K V : Type}

/-- After `clone` bumps the root's count, `Arc::make_mut` on the original
handle must copy the root, and the frame invariant holds relative to the
clone's (snapshot) tree. -/
theorem frame_after_clone_makeMut {σ : HState K V} {m : HMap K V}
    (hnext : ∀ b, σ.next ≤ b → σ.mem b = none)
    (hdom : ∀ b, ReachH σ.mem m.root b → b < σ.next)
    (hrc : ∀ c, ReachH σ.mem m.root c → ∀ bs : List Nat, bs.Nodup →
        (∀ b ∈ bs, ¬ ReachH σ.mem m.root b) → 1 + srcSum σ bs c ≤ σ.rc c)
    {σ1 : HState K V} {r1 : Nat}
    (hmm : arcMakeMut (hCloneMap σ m).1 m.root = some (σ1, r1)) :
    FrameInv σ.mem m.root σ1 ∧ ¬ ReachH σ.mem m.root r1
    ∧ σ.next ≤ σ1.next := by
  have hrcc : (hCloneMap σ m).1.rc m.root = σ.rc m.root + 1 := by
    show (if m.root = m.root then σ.rc m.root + 1 else σ.rc m.root) = _
    rw [if_pos rfl]
  have hrc1 : 1 ≤ σ.rc m.root := by
    have := hrc m.root ReachH.refl [] (by simp) (by simp)
    have hz : srcSum σ [] m.root = 0 := rfl
    omega
  unfold arcMakeMut at hmm
  rw [if_neg (by rw [hrcc]; omega)] at hmm
  cases hm0 : (hCloneMap σ m).1.mem m.root with
  | none => rw [hm0] at hmm; cases hmm
  | some n =>
    rw [hm0] at hmm
    have hp := Option.some.inj hmm
    simp only [Prod.mk.injEq] at hp
    obtain ⟨hσ1, hr1⟩ := hp
    have hnx0 : (hCloneMap σ m).1.next = σ.next := rfl
    have hr1' : r1 = σ.next := by rw [← hr1]; rfl
    have hσmem : ∀ b, σ1.mem b
        = if b = σ.next then some n else σ.mem b := by
      intro b
      rw [← hσ1]
      rfl
    have hσrc : ∀ b, σ1.rc b = if b = σ.next then 1
        else ((hCloneMap σ m).1.rc b + occ (kidsOf n) b)
          - (if b = m.root then 1 else 0) := by
      intro b
      rw [← hσ1]
      rfl
    have hσnext : σ1.next = σ.next + 1 := by
      rw [← hσ1]
      rfl
    have hrcb : ∀ b, (hCloneMap σ m).1.rc b
        = σ.rc b + (if b = m.root then 1 else 0) := by
      intro b
      show (if b = m.root then σ.rc b + 1 else σ.rc b) = _
      by_cases hb : b = m.root
      · rw [if_pos hb, if_pos hb]
      · rw [if_neg hb, if_neg hb]
        omega
    have hck1 : ∀ b c, b ≠ σ.next → countKids σ1 b c = countKids σ b c := by
      intro b c hb
      unfold countKids
      rw [hσmem b, if_neg hb]
    refine ⟨⟨?_, ?_, ?_, ?_⟩, ?_, by rw [hσnext]; omega⟩
    · intro b hb
      rw [hσmem b, if_neg (by have := hdom b hb; omega)]
    · intro b hb
      rw [hσnext] at hb
      rw [hσmem b, if_neg (by omega)]
      exact hnext b (by omega)
    · intro b hb
      rw [hσnext]
      have := hdom b hb
      omega
    · intro c hc bs hnd hbs
      have hclt : c < σ.next := hdom c hc
      rw [hσrc c, if_neg (by omega), hrcb c]
      have hS1 : srcSum σ1 bs c
          = (if σ.next ∈ bs then occ (kidsOf n) c else 0)
            + srcSum σ1 (bs.erase σ.next) c := by
        by_cases hmem3 : σ.next ∈ bs
        · rw [if_pos hmem3, srcSum_erase c hmem3]
          have : countKids σ1 σ.next c = occ (kidsOf n) c := by
            unfold countKids
            rw [hσmem σ.next, if_pos rfl]
          rw [this]
        · rw [if_neg hmem3, List.erase_of_not_mem hmem3]
          omega
      have hS2 : srcSum σ1 (bs.erase σ.next) c
          = srcSum σ (bs.erase σ.next) c := by
        refine srcSum_congr (fun b hb => ?_)
        exact hck1 b c (hnd.mem_erase_iff.mp hb).1
      have hP := hrc c hc (bs.erase σ.next) (hnd.erase _)
        (fun b hb => hbs b (List.mem_of_mem_erase hb))
      rw [hS1, hS2]
      by_cases hin : σ.next ∈ bs
      · rw [if_pos hin]
        by_cases hcr : c = m.root
        · rw [if_pos hcr]
          omega
        · rw [if_neg hcr]
          omega
      · rw [if_neg hin]
        by_cases hcr : c = m.root
        · rw [if_pos hcr]
          omega
        · rw [if_neg hcr]
          omega
    · rw [hr1']
      intro hR
      have := hdom _ hR
      omega

/-- **C3.** Cloning a map shares its tree in O(1); a subsequent `insert`
(or `remove`) on the original path-copies via `Arc::make_mut` and never
writes a node the clone can reach, so every lookup through the clone
returns exactly what it returned before the mutation. The hypotheses state
what `Arc` guarantees for any real heap: unallocated addresses are empty,
reachable nodes are allocated, and each strong count dominates the strong
references to that node (one from inside the clone's tree or its handle,
plus those from any duplicate-free family of outside sources). -/
theorem C3_clone_persistence {K V : Type} [DecidableEq K]
    (σ : HState K V) (m : HMap K V) (fuel : Nat) (key : K) (val : V)
    (hnext : ∀ b, σ.next ≤ b → σ.mem b = none)
    (hdom : ∀ b, ReachH σ.mem m.root b → b < σ.next)
    (hrc : ∀ c, ReachH σ.mem m.root c → ∀ bs : List Nat, bs.Nodup →
        (∀ b ∈ bs, ¬ ReachH σ.mem m.root b) → 1 + srcSum σ bs c ≤ σ.rc c) :
    (∀ σ' m' old,
      hInsertTop fuel (hCloneMap σ m).1 m key val = some (σ', m', old) →
      ∀ (x : K) (fuel2 : Nat),
        hGetTop fuel2 σ' (hCloneMap σ m).2 x
          = hGetTop fuel2 σ (hCloneMap σ m).2 x)
    ∧ (∀ σ' m' old,
      hRemoveTop fuel (hCloneMap σ m).1 m key = some (σ', m', old) →
      ∀ (x : K) (fuel2 : Nat),
        hGetTop fuel2 σ' (hCloneMap σ m).2 x
          = hGetTop fuel2 σ (hCloneMap σ m).2 x) := by
  constructor
  · intro σ' m' old htop x fuel2
    unfold hInsertTop at htop
    cases hmm : arcMakeMut (hCloneMap σ m).1 m.root with
    | none => rw [hmm] at htop; cases htop
    | some p =>
      obtain ⟨σ1, r1⟩ := p
      rw [hmm] at htop
      simp only [] at htop
      cases hic : hInsertC fuel σ1 r1 m.supply (m.hashFn key) key val 0 m.w with
      | none => rw [hic] at htop; cases htop
      | some p2 =>
        obtain ⟨σ2, old2⟩ := p2
        rw [hic] at htop
        simp only [] at htop
        have h := Option.some.inj htop
        simp only [Prod.mk.injEq] at h
        obtain ⟨rfl, _, rfl⟩ := h
        obtain ⟨hI1, hr1R, _⟩ :=
          frame_after_clone_makeMut hnext hdom hrc hmm
        obtain ⟨hI2, _, _⟩ :=
          hInsertC_frame σ.mem m.root fuel σ1 r1 m.supply (m.hashFn key)
            key val 0 m.w σ2 old2 hI1 hr1R hic
        show hGet fuel2 σ2 m.root (m.hashFn x) x 0 m.w
          = hGet fuel2 σ m.root (m.hashFn x) x 0 m.w
        exact hGet_agree fuel2 σ σ2 m.root (m.hashFn x) x 0 m.w
          (fun b hb => hI2.1 b hb)
  · intro σ' m' old htop x fuel2
    unfold hRemoveTop at htop
    cases hmm : arcMakeMut (hCloneMap σ m).1 m.root with
    | none => rw [hmm] at htop; cases htop
    | some p =>
      obtain ⟨σ1, r1⟩ := p
      rw [hmm] at htop
      simp only [] at htop
      cases hic : hRemoveC fuel σ1 r1 (m.hashFn key) key 0 m.w with
      | none => rw [hic] at htop; cases htop
      | some p2 =>
        obtain ⟨σ2, old2⟩ := p2
        rw [hic] at htop
        simp only [] at htop
        have h := Option.some.inj htop
        simp only [Prod.mk.injEq] at h
        obtain ⟨rfl, _, rfl⟩ := h
        obtain ⟨hI1, hr1R, _⟩ :=
          frame_after_clone_makeMut hnext hdom hrc hmm
        obtain ⟨hI2, _, _⟩ :=
          hRemoveC_frame σ.mem m.root fuel σ1 r1 (m.hashFn key)
            key 0 m.w σ2 old2 hI1 hr1R hic
        show hGet fuel2 σ2 m.root (m.hashFn x) x 0 m.w
          = hGet fuel2 σ m.root (m.hashFn x) x 0 m.w
        exact hGet_agree fuel2 σ σ2 m.root (m.hashFn x) x 0 m.w
          (fun b hb => hI2.1 b hb)

end Ripl

namespace Ripl

/-- A one-node heap: an empty root `CNode` at address 0 with strong count
1, frontier 1. -/
def c3sigma : HState Nat Nat :=
  ⟨fun b => if b = 0 then some (HNode.C 0 []) else none,
   fun b => if b = 0 then 1 else 0, 1⟩

/-- A map handle over that heap: branch power 5, identity hash. -/
def c3map : HMap Nat Nat := ⟨5, fun k => k, fun _ k => k, 0⟩

theorem C3_clone_persistence_witness :
    (hInsertTop 5 (hCloneMap c3sigma c3map).1 c3map 1 42).map
        (fun r => hGetTop 5 r.1 (hCloneMap c3sigma c3map).2 1)
      = some (hGetTop 5 c3sigma (hCloneMap c3sigma c3map).2 1)
    ∧ hGetTop 5 c3sigma (hCloneMap c3sigma c3map).2 1 = some none
    ∧ (hInsertTop 5 (hCloneMap c3sigma c3map).1 c3map 1 42).map
        (fun r => hGetTop 5 r.1 r.2.1 1) = some (some (some 42)) := by
  have hnextw : ∀ b, c3sigma.next ≤ b → c3sigma.mem b = none := by
    intro b hb
    have hb1 : 1 ≤ b := hb
    show (if b = 0 then some (HNode.C 0 []) else none) = none
    rw [if_neg (by omega)]
  have hdomw : ∀ b, ReachH c3sigma.mem c3map.root b → b < c3sigma.next := by
    intro b h
    induction h with
    | refl => decide
    | step b n c hb hmem hc ih =>
      have ih1 : b < 1 := ih
      have hb0 : b = 0 := by omega
      subst hb0
      have h2 : (some (HNode.C 0 []) : Option (HNode Nat Nat)) = some n := hmem
      have hn : n = HNode.C 0 [] := (Option.some.inj h2).symm
      rw [hn] at hc
      simp only [kidsOf] at hc
      exact absurd hc (List.not_mem_nil c)
  have hrcw : ∀ c, ReachH c3sigma.mem c3map.root c → ∀ bs : List Nat,
      bs.Nodup → (∀ b ∈ bs, ¬ ReachH c3sigma.mem c3map.root b) →
      1 + srcSum c3sigma bs c ≤ c3sigma.rc c := by
    intro c hc bs hnd hbs
    have hc1 : c < 1 := hdomw c hc
    have hc0 : c = 0 := by omega
    subst hc0
    have hz : srcSum c3sigma bs 0 = 0 := by
      induction bs with
      | nil => rfl
      | cons x xs ih =>
        rw [srcSum_cons,
          ih (List.Nodup.of_cons hnd) (fun b hb => hbs b (List.mem_cons_of_mem x hb))]
        have hck : countKids c3sigma x 0 = 0 := by
          unfold countKids
          by_cases hx : x = 0
          · subst hx
            rfl
          · have hm : c3sigma.mem x = none := by
              show (if x = 0 then some (HNode.C 0 []) else none) = none
              rw [if_neg hx]
            rw [hm]
        omega
    rw [hz]
    decide
  have H := C3_clone_persistence c3sigma c3map 5 1 42 hnextw hdomw hrcw
  have hsome : (hInsertTop 5 (hCloneMap c3sigma c3map).1 c3map 1 42).map
      (fun r => r.2.2) = some none := rfl
  refine ⟨?_, rfl, rfl⟩
  cases hrun : hInsertTop 5 (hCloneMap c3sigma c3map).1 c3map 1 42 with
  | none =>
    rw [hrun] at hsome
    cases hsome
  | some r =>
    simp only [Option.map]
    have hg := H.1 r.1 r.2.1 r.2.2 (by rw [hrun]) 1 5
    rw [hg]

end Ripl
